import Mathlib

/-!
A verification development for the boundary-tag memory allocator
(`myalloc.c`): explicit doubly-linked free list, best-fit search, eager
bidirectional coalescing, and a transactional `myrealloc` with rollback.

The C code is embedded for the ILP32 ABI that the specification's constants
describe: `sizeof(int) = 4`, `sizeof(node *) = 4`, hence
`sizeof(node) = 12` (fields `space` at offset 0, `next` at offset 4,
`prev` at offset 8, no padding), `T = sizeof(tag) = 4` and
`L = 2 * sizeof(pointer) = 8`.

Memory model.  The arena is a list of blocks laid out contiguously from
address 0.  A block consists of a 4-byte header tag (`hdr : Int`), the
payload bytes, and a 4-byte footer tag (`ftr : Int`); its on-heap size is
`data.length + 2 * sizeof(int)`.  Payload bytes are symbolic cells: a cell
is either the k-th byte of a 4-byte int value, the k-th byte of a 4-byte
pointer value (`Option Nat`, `none` = NULL), a raw user byte, or
uninitialized.  All pointer values are byte offsets from the arena base
(`mem` in the C).  The global free list (`freeList` plus the `next`/`prev`
fields threaded through free blocks) is modelled by the list `fl` of node
addresses in list order, head first; every link-field write the C performs
is mirrored into the payload cells, so the byte contents of the heap are
tracked exactly.  Reads of `space` fields and tags go through the
byte-accurate `readIntAt`.
-/

/-- A symbolic byte of arena memory. -/
inductive Cell where
  | ib (v : Int) (k : Nat)
  | pb (p : Option Nat) (k : Nat)
  | ub (b : Nat)
  | und
deriving DecidableEq, Repr

/-- The four bytes written by a 4-byte int store. -/
def intCells (v : Int) : List Cell := [.ib v 0, .ib v 1, .ib v 2, .ib v 3]

/-- The four bytes written by a 4-byte pointer store (`none` = NULL). -/
def ptrCells (p : Option Nat) : List Cell := [.pb p 0, .pb p 1, .pb p 2, .pb p 3]

/-- One block of the arena: header tag, payload bytes, footer tag. -/
structure Block where
  hdr : Int
  data : List Cell
  ftr : Int
deriving DecidableEq, Repr

/-- On-heap size of a block: payload plus the two 4-byte tags. -/
def Block.size (b : Block) : Nat := b.data.length + 8

/-- Allocator state: `MEMORY_SIZE`, the arena contents, and the free list
(`freeList` with the `next` chain), as the list of node addresses in list
order. -/
structure AState where
  msize : Nat
  mem : List Block
  fl : List Nat
deriving DecidableEq, Repr

/-- Total number of bytes covered by a block list. -/
def memLen (bs : List Block) : Nat := (bs.map Block.size).sum

/-- The byte of the arena at a given address (`.und` past the end). -/
def cellAt : List Block → Nat → Cell
  | [], _ => .und
  | b :: bs, a =>
    if a < 4 then .ib b.hdr a
    else if a < 4 + b.data.length then b.data.getD (a - 4) .und
    else if a < b.size then .ib b.ftr (a - 4 - b.data.length)
    else cellAt bs (a - b.size)

/-- A 4-byte int load `*(int *)(mem + a)`: the decoded value when the four
bytes form a coherently written int, and the junk value 0 otherwise. -/
def readIntAt (bs : List Block) (a : Nat) : Int :=
  match cellAt bs a, cellAt bs (a+1), cellAt bs (a+2), cellAt bs (a+3) with
  | .ib v 0, .ib v1 1, .ib v2 2, .ib v3 3 => if v1 = v ∧ v2 = v ∧ v3 = v then v else 0
  | _, _, _, _ => 0

/-- The four raw bytes at an address (used to snapshot a link field). -/
def cells4 (bs : List Block) (a : Nat) : List Cell :=
  [cellAt bs a, cellAt bs (a+1), cellAt bs (a+2), cellAt bs (a+3)]

/-- Overwrite cells of a payload starting at a given offset
(out-of-range positions are left unchanged, as `List.set`). -/
def writeCells : List Cell → Nat → List Cell → List Cell
  | l, _, [] => l
  | l, off, c :: cs => writeCells (l.set off c) (off + 1) cs

/-- Store a run of bytes wholly inside some block's payload.  Stores that
would touch a tag or straddle blocks are not performed (the allocator
never issues such a store on a well-formed heap). -/
def writePayloadAt : List Block → Nat → List Cell → List Block
  | [], _, _ => []
  | b :: bs, a, cs =>
    if a < b.size then
      if 4 ≤ a ∧ a + cs.length ≤ 4 + b.data.length then
        { b with data := writeCells b.data (a - 4) cs } :: bs
      else b :: bs
    else b :: writePayloadAt bs (a - b.size) cs

/-- A 4-byte int store `*(int *)(mem + a) = v`: hits a header tag, a footer
tag, or four payload bytes.  Stores that straddle a boundary are not
performed (never issued on a well-formed heap). -/
def writeIntAt : List Block → Nat → Int → List Block
  | [], _, _ => []
  | b :: bs, a, v =>
    if a < b.size then
      if a = 0 then { b with hdr := v } :: bs
      else if a = 4 + b.data.length then { b with ftr := v } :: bs
      else if 4 ≤ a ∧ a + 4 ≤ 4 + b.data.length then
        { b with data := writeCells b.data (a - 4) (intCells v) } :: bs
      else b :: bs
    else b :: writeIntAt bs (a - b.size) v

/-- A 4-byte pointer store (`node *` field assignment) into a payload. -/
def writePtrAt (bs : List Block) (a : Nat) (p : Option Nat) : List Block :=
  writePayloadAt bs a (ptrCells p)

/-- The `prev` and `next` neighbours of node `a` in the free list
(the values the C reads from `badNode->prev` and `badNode->next`);
`none` as outer result when `a` is not a list member. -/
def findLinks : Option Nat → List Nat → Nat → Option (Option Nat × Option Nat)
  | _, [], _ => none
  | prv, b :: rest, a => if b = a then some (prv, rest.head?) else findLinks (some b) rest a

/-!  `addNode`: push a node at the head of the free list (`myalloc.c`,
`addNode`).  The C writes `newNode->next = oldFirstNode`,
`newNode->prev = NULL`, sets `freeList = newNode`, and patches
`oldFirstNode->prev`.  The link-field offsets are `a + 4` (`next`) and
`a + 8` (`prev`). -/
def addNode (s : AState) (a : Nat) : AState :=
  let oldFirst := s.fl.head?
  let m1 := writePtrAt s.mem (a + 4) oldFirst
  let m2 := writePtrAt m1 (a + 8) none
  let m3 := match oldFirst with
            | some b => writePtrAt m2 (b + 8) (some a)
            | none => m2
  { s with mem := m3, fl := a :: s.fl }

/-!  `removeNode`: unlink a node (`myalloc.c`, `removeNode`).  The C reads
`badNode->prev` / `badNode->next`; on a well-formed heap those equal the
list neighbours of `a`, which is how they are obtained here.  When
`prevNode == NULL` the head pointer is updated, else `prevNode->next`;
when `nextNode != NULL`, `nextNode->prev` is patched. -/
def removeNode (s : AState) (a : Nat) : AState :=
  match findLinks none s.fl a with
  | none => s
  | some (prv, nxt) =>
    let m1 := match prv with
              | none => s.mem
              | some p => writePtrAt s.mem (p + 4) nxt
    let m2 := match nxt with
              | none => m1
              | some nx => writePtrAt m1 (nx + 8) prv
    { s with mem := m2, fl := s.fl.erase a }

/-!  `findHead`: best-fit scan of the free list (`myalloc.c`, `findHead`).
`res` is `resultptr`, `low` the running `lowest`; `lowest` is
uninitialized in the C until `resultptr` is set, so `low` is only
consulted when `res` is `some`. -/
def findHeadGo (bs : List Block) (size : Int) : List Nat → Option Nat → Int → Option Nat
  | [], res, _ => res
  | a :: rest, res, low =>
    let space := readIntAt bs a
    if space = size then some a
    else if space > size then
      match res with
      | none => findHeadGo bs size rest (some a) space
      | some r => if space < low then findHeadGo bs size rest (some a) space
                  else findHeadGo bs size rest (some r) low
    else findHeadGo bs size rest res low

def findHead (s : AState) (size : Int) : Option Nat :=
  findHeadGo s.mem size s.fl none 0

/-!  `splitBlock` (`myalloc.c`, `splitBlock`): carve the block starting at
address `a` into two.  The C writes `headptr->space = size`,
`*newFootptr = size` (at `dataptr + 4 + size`), `newHeadptr->space =
newSpace` (at `dataptr + 8 + size`) and `*footptr = newSpace` (the
original footer), with `newSpace = space - size - 2 * sizeof(int)`.
Structurally the original payload splits as: first `size` bytes, the 8
bytes that become the new footer and header tags, and the remainder. -/
def splitBlockMem : List Block → Nat → Int → List Block
  | [], _, _ => []
  | b :: bs, a, size =>
    if a < b.size then
      if a = 0 then
        let newSpace := b.hdr - size - 8
        { hdr := size, data := b.data.take size.toNat, ftr := size } ::
        { hdr := newSpace, data := b.data.drop (size.toNat + 8), ftr := newSpace } :: bs
      else b :: bs
    else b :: splitBlockMem bs (a - b.size) size

/-- `splitBlock` returns the new block's header address
`newHeadptr = dataptr + 2 * sizeof(int) + size`. -/
def splitBlock (s : AState) (a : Nat) (size : Int) : AState × Nat :=
  ({ s with mem := splitBlockMem s.mem a size }, a + 8 + size.toNat)

/-!  `coalesce` (`myalloc.c`, `coalesce`): merge the block at `a` with its
physical successor.  The C writes `headptrA->space = newSpace` with
`newSpace = A.space + B.space + 2 * sizeof(int)` and the footer at
`A + newSpace + sizeof(int)` (B's original footer), then removes B from
the free list.  A's old footer bytes and B's old header bytes are not
overwritten: they linger inside the merged payload. -/
def coalesceMem : List Block → Nat → List Block
  | [], _ => []
  | [b], _ => [b]
  | b :: b2 :: bs, a =>
    if a < b.size then
      if a = 0 then
        let newSpace := b.hdr + b2.hdr + 8
        { hdr := newSpace,
          data := b.data ++ intCells b.ftr ++ intCells b2.hdr ++ b2.data,
          ftr := newSpace } :: bs
      else b :: b2 :: bs
    else b :: coalesceMem (b2 :: bs) (a - b.size)

/-- `coalesce(A, B)`: the C writes the merged tags and then unlinks B; the
unlink reads only B's link fields and writes only link fields, so it is
performed first here, on the unmerged layout where B's address is still a
block start. -/
def coalesce (s : AState) (aA aB : Nat) : AState :=
  let s1 := removeNode s aB
  { s1 with mem := coalesceMem s1.mem aA }

/-!  `isValid` (`myalloc.c`, `isValid`), over an arbitrary 4-byte-load
function `rd` (so it can be stated for any memory contents).  The checks
mirror the C: `mem + sizeof(int) > oldptr || mem + MEMORY_SIZE -
sizeof(int) < oldptr`; then `space = -*((int *) oldptr - 1)`,
`space < 0 || oldptr + space > mem + MEMORY_SIZE - sizeof(int)`; then
`*((int *)(oldptr + space)) != -space`. -/
def isValid (rd : Nat → Int) (msize : Nat) (oldptr : Nat) : Bool :=
  if (oldptr : Int) < 4 ∨ (msize : Int) - 4 < (oldptr : Int) then false
  else
    let space := -(rd (oldptr - 4))
    if space < 0 ∨ (oldptr : Int) + space > (msize : Int) - 4 then false
    else if rd (oldptr + space.toNat) ≠ -space then false
    else true

/-!  `init_myalloc`: one free block spanning the arena, with payload
`MEMORY_SIZE - 2 * sizeof(int)`; `headptr->space` and the footer are the
block's tags, and `addNode` installs it as the free list. -/
def init_myalloc (n : Nat) : AState :=
  let space : Int := (n : Int) - 8
  addNode { msize := n,
            mem := [{ hdr := space, data := List.replicate (n - 8) .und, ftr := space }],
            fl := [] } 0

/-!  `myalloc` (`myalloc.c`, `myalloc`).  `size = MAX(size, sizeof(node) -
sizeof(int))` is modelled as `max size 8`; in the C, `sizeof` is
`size_t`, so the macro's comparison converts a negative request to
unsigned and does *not* clamp it, after which the (also unsigned) split
guard fires and `splitBlock` writes tags out of the chosen block's
bounds.  The clamped model agrees with the C exactly for requests
`≥ 0`; statements about `myalloc` therefore carry a non-negative-request
hypothesis where they would otherwise quantify over the request.  The
split guard `space > size + sizeof(int) + sizeof(node)` is `space >
size + 16`.  After the free-list update the C re-reads `headptr->space`
and negates both tags; the result is `headptr + sizeof(int)`.  Returns
the new state and the payload pointer (`none` = NULL). -/
def myalloc (s : AState) (size : Int) : AState × Option Nat :=
  match findHead s size with
  | none => (s, none)
  | some a =>
    let space := readIntAt s.mem a
    let size' := max size 8
    let s1 := if space > size' + 16 then
                let p := splitBlock s a size'
                addNode p.1 p.2
              else s
    let s2 := removeNode s1 a
    let space2 := readIntAt s2.mem a
    let resultptr := a + 4
    let m3 := writeIntAt s2.mem a (-space2)
    let m4 := writeIntAt m3 (resultptr + space2.toNat) (-space2)
    ({ s2 with mem := m4 }, some resultptr)

/-!  `myfree` (`myalloc.c`, `myfree`).  Returns `none` when `isValid`
rejects the pointer and the C aborts.  Otherwise: negate the tags back to
positive, push the block, then coalesce backward (via the previous
block's footer at `dataptr - 4` and the header address `dataptr -
prevSpace - 2 * sizeof(int)`) and forward (via the next header at
`dataptr + space + 2 * sizeof(int)`). -/
def myfree (s : AState) (oldptr : Nat) : Option AState :=
  if isValid (fun a => readIntAt s.mem a) s.msize oldptr = false then none
  else
    let dataptr := oldptr - 4
    let space := -(readIntAt s.mem dataptr)
    let m1 := writeIntAt s.mem dataptr space
    let m2 := writeIntAt m1 (oldptr + space.toNat) space
    let s3 := addNode { s with mem := m2 } dataptr
    let t :=
      if dataptr ≠ 0 then
        let prevSpace := readIntAt s3.mem (dataptr - 4)
        if prevSpace > 0 then
          let prevHead := dataptr - prevSpace.toNat - 8
          let s' := coalesce s3 prevHead dataptr
          (s', prevHead, readIntAt s'.mem prevHead)
        else (s3, dataptr, space)
      else (s3, dataptr, space)
    let endAddr := t.2.1 + t.2.2.toNat + 8
    let s5 :=
      if endAddr ≠ s.msize then
        if readIntAt t.1.mem endAddr > 0 then coalesce t.1 t.2.1 endAddr else t.1
      else t.1
    some s5

/-!  `checkMem` (`myalloc.c`, `checkMem`): walk the blocks left to right by
header magnitude, summing free and allocated bytes.  The C loop does not
terminate when the walk misses `mem + MEMORY_SIZE`; the walk is given
`msize + 1` units of fuel (enough for any well-formed heap, whose blocks
all have size at least 8) and answers `none` when the fuel runs out. -/
def checkMemGo (bs : List Block) (msize : Nat) : Nat → Nat → Int → Int → Option Int
  | _, 0, _, _ => none
  | addr, fuel + 1, freeMem, allocMem =>
    if addr = msize then some (allocMem + freeMem)
    else
      let space := readIntAt bs addr
      let blockSize : Int := space.natAbs + 8
      if space < 0 then
        checkMemGo bs msize (addr + blockSize.toNat) fuel freeMem (allocMem + blockSize)
      else
        checkMemGo bs msize (addr + blockSize.toNat) fuel (freeMem + blockSize) allocMem

def checkMem (s : AState) : Option Int :=
  checkMemGo s.mem s.msize 0 (s.msize + 1) 0 0

/-!  The byte-copy loop of `myrealloc`: `for (i = sizeof(node) -
sizeof(int); i < nSpace && i < size; i++) *(newptr + i) = *(oldptr + i)`.
Bytes are copied one at a time from the live heap, so earlier iterations'
stores are visible to later reads. -/
def copyLoop (newptr oldptr : Nat) (nSpace size : Int) (bs : List Block) : List Block :=
  (List.range ((min nSpace size) - 8).toNat).foldl
    (fun m k => writePayloadAt m (newptr + 8 + k) [cellAt m (oldptr + 8 + k)]) bs

/-!  `myrealloc` (`myalloc.c`, `myrealloc`).  Snapshot the old block's
numbers and the two link-field words (`tempA`, `tempB`, as raw bytes:
the C saves and restores the `node *` values verbatim), detect free
physical neighbours, free, allocate.  On failure, undo the coalescing
with `splitBlock`, fix the free list per neighbour case, and restore the
tags and the snapshotted words; on success copy the leading int, the two
link words from the snapshot, and the remaining overlap bytes.  `none` =
the inner `myfree` aborted. -/
def myrealloc (s : AState) (oldptr : Nat) (size : Int) : Option (AState × Option Nat) :=
  let oldDataptr := oldptr - 4
  let oldSpace := -(readIntAt s.mem oldDataptr)
  let oldFootAddr := oldptr + oldSpace.toNat
  let endAddr := oldFootAddr + 4
  let tempA := cells4 s.mem oldptr
  let tempB := cells4 s.mem (oldptr + 4)
  let pv : Option Nat × Int :=
    if oldDataptr ≠ 0 then
      let ps := readIntAt s.mem (oldDataptr - 4)
      if ps > 0 then (some (oldDataptr - ps.toNat - 8), ps) else (none, ps)
    else (none, 0)
  let nextHead : Option Nat :=
    if endAddr ≠ s.msize then
      if readIntAt s.mem endAddr > 0 then some endAddr else none
    else none
  match myfree s oldptr with
  | none => none
  | some s1 =>
    let ar := myalloc s1 size
    match ar.2 with
    | none =>
      let s3 :=
        match pv.1, nextHead with
        | some pa, some _ =>
          let u1 := (splitBlock ar.1 pa pv.2).1
          let u2 := (splitBlock u1 oldDataptr oldSpace).1
          addNode u2 endAddr
        | some pa, none => (splitBlock ar.1 pa pv.2).1
        | none, some _ =>
          let u1 := (splitBlock ar.1 oldDataptr oldSpace).1
          let u2 := addNode u1 endAddr
          removeNode u2 oldDataptr
        | none, none => removeNode ar.1 oldDataptr
      let m1 := writeIntAt s3.mem oldDataptr (-oldSpace)
      let m2 := writePayloadAt m1 oldptr tempA
      let m3 := writePayloadAt m2 (oldptr + 4) tempB
      let m4 := writeIntAt m3 oldFootAddr (-oldSpace)
      some ({ s3 with mem := m4 }, none)
    | some newptr =>
      let nSpace := -(readIntAt ar.1.mem (newptr - 4))
      let m1 := writePayloadAt ar.1.mem newptr (cells4 ar.1.mem oldptr)
      let m2 := writePayloadAt m1 newptr tempA
      let m3 := writePayloadAt m2 (newptr + 4) tempB
      let m4 := copyLoop newptr oldptr nSpace size m3
      some ({ ar.1 with mem := m4 }, some newptr)


/-! ### Well-formedness

The heap invariant relating the block list, the tags, and the free list.
It is stated as a boolean so that concrete states can be checked by
evaluation. -/

/-- The start addresses of the free blocks, in physical order. -/
def freeAddrsGo : List Block → Nat → List Nat
  | [], _ => []
  | b :: bs, a => if 0 < b.hdr then a :: freeAddrsGo bs (a + b.size) else freeAddrsGo bs (a + b.size)

def freeAddrs (bs : List Block) : List Nat := freeAddrsGo bs 0

/-- Tag coherence of one block: footer equals header, the payload length
is the header's magnitude, and the payload can host the two link fields
(`sizeof(node) - sizeof(int) = 8` bytes). -/
def goodBlock (b : Block) : Bool :=
  b.ftr = b.hdr && b.data.length = b.hdr.natAbs && 8 ≤ b.hdr.natAbs

/-- No two physically adjacent blocks are both free. -/
def noAdjFree : List Block → Bool
  | [] => true
  | [_] => true
  | b :: b2 :: bs => !(0 < b.hdr && 0 < b2.hdr) && noAdjFree (b2 :: bs)

/-- The heap invariant: the blocks tile the arena exactly, every block is
tag-coherent, the free list contains exactly the free blocks' addresses
with no duplicates, and coalescing is eager. -/
def wf (s : AState) : Bool :=
  memLen s.mem = s.msize && s.mem ≠ [] &&
  s.mem.all goodBlock &&
  s.fl.Nodup &&
  s.fl.all (fun a => a ∈ freeAddrs s.mem) &&
  (freeAddrs s.mem).all (fun a => a ∈ s.fl) &&
  noAdjFree s.mem

/-- `p` is the payload address of a currently allocated block: the
precondition for a well-formed `myfree`/`myrealloc` call. -/
def validPayloadGo : List Block → Nat → Nat → Bool
  | [], _, _ => false
  | b :: bs, a, p => (p = a + 4 && b.hdr < 0) || validPayloadGo bs (a + b.size) p

def validPayload (s : AState) (p : Nat) : Bool := validPayloadGo s.mem 0 p

/-- The states reachable by a well-formed operation sequence: arena
initialization followed by any number of `myalloc` calls with
non-negative requests, and `myfree`/`myrealloc` calls on currently
allocated payloads (the reallocation request again non-negative).  A
negative request is not a well-formed operation: it escapes the C `MAX`
macro's clamping through its signed-to-unsigned comparison, and
`splitBlock` then writes tags out of the chosen block's bounds. -/
inductive Reach : AState → Prop where
  | init (n : Nat) : 16 ≤ n → Reach (init_myalloc n)
  | alloc {s : AState} (size : Int) : 0 ≤ size → Reach s → Reach (myalloc s size).1
  | free {s s' : AState} (p : Nat) : Reach s → validPayload s p = true →
      myfree s p = some s' → Reach s'
  | realloc {s s' : AState} (p : Nat) (size : Int) (r : Option Nat) : 0 ≤ size → Reach s →
      validPayload s p = true → myrealloc s p size = some (s', r) → Reach s'

/-! ### Specification-side definition for the best-fit search

`specFindFit` is written from the specification's words (§4.4): return
the free block whose payload size is the smallest value ≥ `size`,
breaking ties by the first block encountered in list order, `none` when
no block qualifies.  It reads payload sizes exactly as `findHead` does. -/
def specFindFit (bs : List Block) (size : Int) : List Nat → Option Nat
  | [] => none
  | a :: l =>
    if size ≤ readIntAt bs a then
      match specFindFit bs size l with
      | none => some a
      | some b => if readIntAt bs b < readIntAt bs a then some b else some a
    else specFindFit bs size l

/-! ### Concrete states used as test inputs -/

/-- A run of `n` distinct user bytes starting at value `v`. -/
def userRun (v n : Nat) : List Cell := (List.range n).map (fun i => .ub (v + i))

/-- The link-field bytes of a free block whose `next` and `prev` are given. -/
def linkCells (nx pv : Option Nat) : List Cell := ptrCells nx ++ ptrCells pv

/-- Four blocks `[allocated 8 | free 8 | allocated 8 | free 8]` in a
64-byte arena, with the free list holding the two free blocks in the
order last block first: `freeList = 48`, then `16`. -/
def exFour : AState :=
  { msize := 64,
    mem := [ { hdr := -8, data := userRun 10 8, ftr := -8 },
             { hdr := 8, data := linkCells none (some 48), ftr := 8 },
             { hdr := -8, data := userRun 30 8, ftr := -8 },
             { hdr := 8, data := linkCells (some 16) none, ftr := 8 } ],
    fl := [48, 16] }

/-- Two blocks `[free 8 | allocated 8]` in a 32-byte arena. -/
def exTwo : AState :=
  { msize := 32,
    mem := [ { hdr := 8, data := linkCells none none, ftr := 8 },
             { hdr := -8, data := userRun 10 8, ftr := -8 } ],
    fl := [0] }

/-- Three blocks `[free 8 | allocated 8 | allocated 40]` in an 80-byte
arena: the middle block has a free previous neighbour only. -/
def exPrevOnly : AState :=
  { msize := 80,
    mem := [ { hdr := 8, data := linkCells none none, ftr := 8 },
             { hdr := -8, data := userRun 10 8, ftr := -8 },
             { hdr := -40, data := userRun 60 40, ftr := -40 } ],
    fl := [0] }

/-- Three blocks `[allocated 8 | allocated 40 | free 8]` in an 80-byte
arena: the first block has no free neighbour. -/
def exNoNbr : AState :=
  { msize := 80,
    mem := [ { hdr := -8, data := userRun 10 8, ftr := -8 },
             { hdr := -40, data := userRun 60 40, ftr := -40 },
             { hdr := 8, data := linkCells none none, ftr := 8 } ],
    fl := [48] }

/-- The state reached from a fresh 64-byte arena by `a = myalloc 8`,
`b = myalloc 40`, writing 40 distinct user bytes into `b`'s payload,
and `myfree a`: blocks `[free 8 | allocated 40]`, with `b = 20`. -/
def exOverlap : AState :=
  let s1 := (myalloc (init_myalloc 64) 8).1
  let s2 := (myalloc s1 40).1
  let s3 : AState := { s2 with mem := writePayloadAt s2.mem 20 (userRun 100 40) }
  (myfree s3 4).getD s3

/-- The block starting exactly at a given address, if any. -/
def getBlk : List Block → Nat → Option Block
  | [], _ => none
  | b :: bs, a => if a = 0 then some b else if a < b.size then none else getBlk bs (a - b.size)

/-- Apply a function to the block starting exactly at a given address. -/
def updBlk (f : Block → Block) : List Block → Nat → List Block
  | [], _ => []
  | b :: bs, a =>
    if a = 0 then f b :: bs
    else if a < b.size then b :: bs
    else b :: updBlk f bs (a - b.size)

/-- The tag-and-length skeleton of the arena: everything the invariants
depend on apart from payload bytes. -/
def skel (bs : List Block) : List (Int × Nat) := bs.map (fun b => (b.hdr, b.data.length))

/-- The per-block shape: header, payload length, and footer.  Payload-byte
stores preserve it; the heap invariant depends on the memory only through
it (and is transported along shape equality by `wf_of_shape`). -/
def shape (bs : List Block) : List (Int × Nat × Int) :=
  bs.map (fun b => (b.hdr, b.data.length, b.ftr))

/-- Case description of what `myfree` does to the allocated block `b` at
address `a` (payload `a + 4`), used to transport the result layout into
the `myrealloc` analysis: the four neighbour cases with the resulting
free list and tag-and-length skeleton. -/
def myfreeCase (s : AState) (a : Nat) (b : Block) (s' : AState) : Prop :=
  ∃ L R, s.mem = L ++ b :: R ∧ memLen L = a ∧
    (((L = [] ∨ ∃ L2 bp, L = L2 ++ [bp] ∧ bp.hdr < 0) ∧
      (R = [] ∨ ∃ bn R2, R = bn :: R2 ∧ bn.hdr < 0) ∧
      s'.fl = a :: s.fl ∧
      skel s'.mem = skel (L ++ ({ hdr := -b.hdr, data := b.data, ftr := -b.hdr } : Block) :: R)) ∨
     (∃ L2 bp, L = L2 ++ [bp] ∧ 0 < bp.hdr ∧
      (R = [] ∨ ∃ bn R2, R = bn :: R2 ∧ bn.hdr < 0) ∧
      s'.fl = s.fl ∧
      skel s'.mem = skel (L2 ++ ({ hdr := bp.hdr + -b.hdr + 8, data := bp.data ++ intCells 0 ++ intCells 0 ++ b.data, ftr := bp.hdr + -b.hdr + 8 } : Block) :: R)) ∨
     (∃ bn R2 f1 f2, R = bn :: R2 ∧ 0 < bn.hdr ∧
      (L = [] ∨ ∃ L2 bp, L = L2 ++ [bp] ∧ bp.hdr < 0) ∧
      s.fl = f1 ++ (a + b.size) :: f2 ∧
      s'.fl = a :: (f1 ++ f2) ∧
      skel s'.mem = skel (L ++ ({ hdr := -b.hdr + bn.hdr + 8, data := b.data ++ intCells 0 ++ intCells 0 ++ bn.data, ftr := -b.hdr + bn.hdr + 8 } : Block) :: R2)) ∨
     (∃ L2 bp bn R2 f1 f2, L = L2 ++ [bp] ∧ 0 < bp.hdr ∧ R = bn :: R2 ∧ 0 < bn.hdr ∧
      s.fl = f1 ++ (a + b.size) :: f2 ∧
      s'.fl = f1 ++ f2 ∧
      skel s'.mem = skel (L2 ++ ({ hdr := bp.hdr + -b.hdr + 8 + bn.hdr + 8, data := bp.data ++ intCells 0 ++ intCells 0 ++ b.data ++ intCells 0 ++ intCells 0 ++ bn.data, ftr := bp.hdr + -b.hdr + 8 + bn.hdr + 8 } : Block) :: R2)))

/-! ### Theorems -/

theorem Block.size_pos (b : Block) : 0 < b.size := Nat.succ_le.mp (by simp [Block.size])

theorem Block.eight_le_size (b : Block) : 8 ≤ b.size := by simp [Block.size]

theorem memLen_nil : memLen [] = 0 := rfl

theorem memLen_cons (b : Block) (bs : List Block) : memLen (b :: bs) = b.size + memLen bs := by
  simp [memLen]

theorem memLen_append (L R : List Block) : memLen (L ++ R) = memLen L + memLen R := by
  simp [memLen]

/-! #### Address arithmetic over block lists -/

theorem cellAt_append_ge (L R : List Block) (a : Nat) (h : memLen L ≤ a) :
    cellAt (L ++ R) a = cellAt R (a - memLen L) := by
  induction L generalizing a with
  | nil => simp [memLen_nil]
  | cons b L ih =>
    rw [memLen_cons] at h
    have hs : ¬ a < b.size := by omega
    have h4 : ¬ a < 4 := by have := b.eight_le_size; omega
    have hd : ¬ a < 4 + b.data.length := by simp [Block.size] at hs ⊢; omega
    rw [List.cons_append, cellAt, if_neg h4, if_neg hd, if_neg hs, ih _ (by omega),
      memLen_cons]
    congr 1
    omega

theorem cellAt_append_lt (L R : List Block) (a : Nat) (h : a < memLen L) :
    cellAt (L ++ R) a = cellAt L a := by
  induction L generalizing a with
  | nil => simp [memLen_nil] at h
  | cons b L ih =>
    rw [memLen_cons] at h
    by_cases hs : a < b.size
    · by_cases h4 : a < 4
      · rw [List.cons_append, cellAt, if_pos h4, cellAt, if_pos h4]
      · by_cases hd : a < 4 + b.data.length
        · rw [List.cons_append, cellAt, if_neg h4, if_pos hd, cellAt, if_neg h4, if_pos hd]
        · rw [List.cons_append, cellAt, if_neg h4, if_neg hd, if_pos hs,
            cellAt, if_neg h4, if_neg hd, if_pos hs]
    · have h4 : ¬ a < 4 := by have := b.eight_le_size; omega
      have hd : ¬ a < 4 + b.data.length := by simp [Block.size] at hs ⊢; omega
      rw [List.cons_append, cellAt, if_neg h4, if_neg hd, if_neg hs,
        cellAt, if_neg h4, if_neg hd, if_neg hs, ih _ (by omega)]

theorem writeIntAt_append_ge (L R : List Block) (a : Nat) (v : Int) (h : memLen L ≤ a) :
    writeIntAt (L ++ R) a v = L ++ writeIntAt R (a - memLen L) v := by
  induction L generalizing a with
  | nil => simp [memLen_nil]
  | cons b L ih =>
    rw [memLen_cons] at h
    have hs : ¬ a < b.size := by omega
    rw [List.cons_append, writeIntAt, if_neg hs, ih _ (by omega), memLen_cons,
      List.cons_append]
    congr 3
    omega

theorem writeIntAt_append_lt (L R : List Block) (a : Nat) (v : Int) (h : a < memLen L) :
    writeIntAt (L ++ R) a v = writeIntAt L a v ++ R := by
  induction L generalizing a with
  | nil => simp [memLen_nil] at h
  | cons b L ih =>
    rw [memLen_cons] at h
    by_cases hs : a < b.size
    · rw [List.cons_append, writeIntAt, if_pos hs, writeIntAt, if_pos hs]
      by_cases h0 : a = 0
      · rw [if_pos h0, if_pos h0, List.cons_append]
      · rw [if_neg h0, if_neg h0]
        by_cases hf : a = 4 + b.data.length
        · rw [if_pos hf, if_pos hf, List.cons_append]
        · rw [if_neg hf, if_neg hf]
          by_cases hp : 4 ≤ a ∧ a + 4 ≤ 4 + b.data.length
          · rw [if_pos hp, if_pos hp, List.cons_append]
          · rw [if_neg hp, if_neg hp, List.cons_append]
    · rw [List.cons_append, writeIntAt, if_neg hs, writeIntAt, if_neg hs,
        ih _ (by omega), List.cons_append]

theorem writePayloadAt_append_ge (L R : List Block) (a : Nat) (cs : List Cell)
    (h : memLen L ≤ a) :
    writePayloadAt (L ++ R) a cs = L ++ writePayloadAt R (a - memLen L) cs := by
  induction L generalizing a with
  | nil => simp [memLen_nil]
  | cons b L ih =>
    rw [memLen_cons] at h
    have hs : ¬ a < b.size := by omega
    rw [List.cons_append, writePayloadAt, if_neg hs, ih _ (by omega), memLen_cons,
      List.cons_append]
    congr 3
    omega

theorem writePayloadAt_append_lt (L R : List Block) (a : Nat) (cs : List Cell)
    (h : a < memLen L) :
    writePayloadAt (L ++ R) a cs = writePayloadAt L a cs ++ R := by
  induction L generalizing a with
  | nil => simp [memLen_nil] at h
  | cons b L ih =>
    rw [memLen_cons] at h
    by_cases hs : a < b.size
    · rw [List.cons_append, writePayloadAt, if_pos hs, writePayloadAt, if_pos hs]
      by_cases hp : 4 ≤ a ∧ a + cs.length ≤ 4 + b.data.length
      · rw [if_pos hp, if_pos hp, List.cons_append]
      · rw [if_neg hp, if_neg hp, List.cons_append]
    · rw [List.cons_append, writePayloadAt, if_neg hs, writePayloadAt, if_neg hs,
        ih _ (by omega), List.cons_append]

theorem splitBlockMem_append_ge (L R : List Block) (a : Nat) (v : Int) (h : memLen L ≤ a) :
    splitBlockMem (L ++ R) a v = L ++ splitBlockMem R (a - memLen L) v := by
  induction L generalizing a with
  | nil => simp [memLen_nil]
  | cons b L ih =>
    rw [memLen_cons] at h
    have hs : ¬ a < b.size := by omega
    rw [List.cons_append, splitBlockMem, if_neg hs, ih _ (by omega), memLen_cons,
      List.cons_append]
    congr 3
    omega

theorem coalesceMem_append_ge (L R : List Block) (a : Nat) (h : memLen L ≤ a) :
    coalesceMem (L ++ R) a = L ++ coalesceMem R (a - memLen L) := by
  induction L generalizing a with
  | nil => simp [memLen_nil]
  | cons b L ih =>
    rw [memLen_cons] at h
    have hs : ¬ a < b.size := by omega
    match hLR : L ++ R with
    | [] =>
      rcases List.append_eq_nil.mp hLR with ⟨h1, h2⟩
      subst h1; subst h2
      simp [coalesceMem]
    | c :: rest =>
      rw [List.cons_append, hLR, coalesceMem, if_neg hs, ← hLR, ih _ (by omega),
        memLen_cons, List.cons_append]
      have harith : a - b.size - memLen L = a - (b.size + memLen L) := by omega
      rw [harith]

/-! #### Reads and writes at the tags of the first block -/

theorem cellAt_cons_hdr (b : Block) (R : List Block) (k : Nat) (h : k < 4) :
    cellAt (b :: R) k = .ib b.hdr k := by
  rw [cellAt, if_pos h]

theorem cellAt_cons_ftr (b : Block) (R : List Block) (k : Nat) (h : k < 4) :
    cellAt (b :: R) (4 + b.data.length + k) = .ib b.ftr k := by
  have h4 : ¬ 4 + b.data.length + k < 4 := by omega
  have hd : ¬ 4 + b.data.length + k < 4 + b.data.length := by omega
  have hs : 4 + b.data.length + k < b.size := by simp [Block.size]; omega
  rw [cellAt, if_neg h4, if_neg hd, if_pos hs]
  congr 1
  omega

theorem readIntAt_cons_hdr (b : Block) (R : List Block) : readIntAt (b :: R) 0 = b.hdr := by
  rw [readIntAt]
  rw [cellAt_cons_hdr b R 0 (by omega), cellAt_cons_hdr b R 1 (by omega),
    cellAt_cons_hdr b R 2 (by omega), cellAt_cons_hdr b R 3 (by omega)]
  simp

theorem readIntAt_cons_ftr (b : Block) (R : List Block) :
    readIntAt (b :: R) (4 + b.data.length) = b.ftr := by
  have e0 : 4 + b.data.length = 4 + b.data.length + 0 := by omega
  rw [readIntAt]
  rw [show 4 + b.data.length + 1 = 4 + b.data.length + 1 from rfl]
  rw [e0, cellAt_cons_ftr b R 0 (by omega)]
  rw [show 4 + b.data.length + 0 + 1 = 4 + b.data.length + 1 from by omega,
    cellAt_cons_ftr b R 1 (by omega)]
  rw [show 4 + b.data.length + 0 + 2 = 4 + b.data.length + 2 from by omega,
    cellAt_cons_ftr b R 2 (by omega)]
  rw [show 4 + b.data.length + 0 + 3 = 4 + b.data.length + 3 from by omega,
    cellAt_cons_ftr b R 3 (by omega)]
  simp

theorem readIntAt_hdr (L : List Block) (b : Block) (R : List Block) :
    readIntAt (L ++ b :: R) (memLen L) = b.hdr := by
  rw [readIntAt,
    cellAt_append_ge L _ _ (by omega), cellAt_append_ge L _ _ (by omega),
    cellAt_append_ge L _ _ (by omega), cellAt_append_ge L _ _ (by omega)]
  have e0 : memLen L - memLen L = 0 := by omega
  have e1 : memLen L + 1 - memLen L = 1 := by omega
  have e2 : memLen L + 2 - memLen L = 2 := by omega
  have e3 : memLen L + 3 - memLen L = 3 := by omega
  rw [e0, e1, e2, e3, cellAt_cons_hdr b R 0 (by omega), cellAt_cons_hdr b R 1 (by omega),
    cellAt_cons_hdr b R 2 (by omega), cellAt_cons_hdr b R 3 (by omega)]
  simp

theorem readIntAt_ftr (L : List Block) (b : Block) (R : List Block) :
    readIntAt (L ++ b :: R) (memLen L + 4 + b.data.length) = b.ftr := by
  have key : ∀ k, k < 4 → cellAt (L ++ b :: R) (memLen L + 4 + b.data.length + k)
      = .ib b.ftr k := by
    intro k hk
    rw [cellAt_append_ge L _ _ (by omega)]
    have e : memLen L + 4 + b.data.length + k - memLen L = 4 + b.data.length + k := by omega
    rw [e, cellAt_cons_ftr b R k hk]
  have k0 : cellAt (L ++ b :: R) (memLen L + 4 + b.data.length) = .ib b.ftr 0 := by
    have := key 0 (by omega)
    simpa using this
  rw [readIntAt, k0, key 1 (by omega), key 2 (by omega), key 3 (by omega)]
  simp

theorem writeIntAt_cons_hdr (b : Block) (R : List Block) (v : Int) :
    writeIntAt (b :: R) 0 v = { b with hdr := v } :: R := by
  rw [writeIntAt, if_pos b.size_pos, if_pos rfl]

theorem writeIntAt_hdr (L : List Block) (b : Block) (R : List Block) (v : Int) :
    writeIntAt (L ++ b :: R) (memLen L) v = L ++ { b with hdr := v } :: R := by
  rw [writeIntAt_append_ge L _ _ _ (by omega)]
  have e0 : memLen L - memLen L = 0 := by omega
  rw [e0, writeIntAt_cons_hdr]

theorem writeIntAt_cons_ftr (b : Block) (R : List Block) (v : Int) :
    writeIntAt (b :: R) (4 + b.data.length) v = { b with ftr := v } :: R := by
  have hs : 4 + b.data.length < b.size := by simp [Block.size]; omega
  rw [writeIntAt, if_pos hs, if_neg (by omega), if_pos rfl]

theorem writeIntAt_ftr (L : List Block) (b : Block) (R : List Block) (v : Int) :
    writeIntAt (L ++ b :: R) (memLen L + (4 + b.data.length)) v
      = L ++ { b with ftr := v } :: R := by
  rw [writeIntAt_append_ge L _ _ _ (by omega)]
  have e0 : memLen L + (4 + b.data.length) - memLen L = 4 + b.data.length := by omega
  rw [e0, writeIntAt_cons_ftr]

theorem writeCells_length (cs : List Cell) (l : List Cell) (off : Nat) :
    (writeCells l off cs).length = l.length := by
  induction cs generalizing l off with
  | nil => rw [writeCells]
  | cons c cs ih => rw [writeCells, ih, List.length_set]

theorem writePayloadAt_cons (b : Block) (R : List Block) (a : Nat) (cs : List Cell)
    (h4 : 4 ≤ a) (hend : a + cs.length ≤ 4 + b.data.length) :
    writePayloadAt (b :: R) a cs
      = { b with data := writeCells b.data (a - 4) cs } :: R := by
  have hs : a < b.size := by simp [Block.size]; omega
  rw [writePayloadAt, if_pos hs, if_pos ⟨h4, hend⟩]

theorem writePayloadAt_blk (L : List Block) (b : Block) (R : List Block) (a : Nat)
    (cs : List Cell) (h4 : 4 ≤ a) (hend : a + cs.length ≤ 4 + b.data.length) :
    writePayloadAt (L ++ b :: R) (memLen L + a) cs
      = L ++ { b with data := writeCells b.data (a - 4) cs } :: R := by
  rw [writePayloadAt_append_ge L _ _ _ (by omega)]
  have e0 : memLen L + a - memLen L = a := by omega
  rw [e0, writePayloadAt_cons _ _ _ _ h4 hend]

/-! #### C7: the validity check and non-negative headers -/

/-- C7: the claim "for every payload in the acceptable range, a
non-negative header word at `payload - T` makes `isValid` return 0" is
false: with all of memory zero, the payload 4 of a 100-byte arena has
header word 0 (non-negative), yet `isValid` accepts it, because the code
only rejects when `space = -header` is negative, i.e. when the header is
strictly positive, and a zero header also passes the footer-symmetry
check `0 != -0`. -/
theorem claim7_cex :
    ¬ ∀ (rd : Nat → Int) (msize p : Nat), 4 ≤ p → (p : Int) ≤ (msize : Int) - 4 →
        0 ≤ rd (p - 4) → isValid rd msize p = false := by
  intro h
  exact absurd (h (fun _ => 0) 100 4 (by norm_num) (by norm_num) (by norm_num))
    (by decide)

/-- C7 (amended): for every payload in the acceptable range whose header
word at `payload - T` is strictly positive (the block is not marked
allocated), `isValid` returns 0. -/
theorem claim7_thm (rd : Nat → Int) (msize p : Nat) (h1 : 4 ≤ p)
    (h2 : (p : Int) ≤ (msize : Int) - 4) (hpos : 0 < rd (p - 4)) :
    isValid rd msize p = false := by
  unfold isValid
  by_cases hc : (p : Int) < 4 ∨ (msize : Int) - 4 < (p : Int)
  · rw [if_pos hc]
  · rw [if_neg hc]
    have hneg : -(rd (p - 4)) < 0 ∨ (p : Int) + -(rd (p - 4)) > (msize : Int) - 4 :=
      Or.inl (by omega)
    exact if_pos hneg

/-- Witness for C7 (amended) at a concrete input. -/
theorem claim7_wit : isValid (fun _ => (1 : Int)) 100 8 = false :=
  claim7_thm (fun _ => (1 : Int)) 100 8 (by norm_num) (by norm_num) (by norm_num)

/-! #### C3: the best-fit search -/

theorem specFindFit_qual (bs : List Block) (size : Int) (l : List Nat) (r : Nat)
    (h : specFindFit bs size l = some r) : r ∈ l ∧ size ≤ readIntAt bs r := by
  induction l with
  | nil => simp [specFindFit] at h
  | cons a l ih =>
    rw [specFindFit] at h
    by_cases ha : size ≤ readIntAt bs a
    · rw [if_pos ha] at h
      match hF : specFindFit bs size l with
      | none => rw [hF] at h; dsimp only at h; simp at h; subst h; exact ⟨List.mem_cons_self _ _, ha⟩
      | some b =>
        rw [hF] at h
        dsimp only at h
        by_cases hb : readIntAt bs b < readIntAt bs a
        · rw [if_pos hb] at h
          have := ih (hF.trans h)
          exact ⟨List.mem_cons_of_mem _ this.1, this.2⟩
        · rw [if_neg hb] at h; simp at h; subst h; exact ⟨List.mem_cons_self _ _, ha⟩
    · rw [if_neg ha] at h
      have := ih h
      exact ⟨List.mem_cons_of_mem _ this.1, this.2⟩

theorem specFindFit_none (bs : List Block) (size : Int) (l : List Nat) :
    specFindFit bs size l = none ↔ ∀ a ∈ l, readIntAt bs a < size := by
  induction l with
  | nil => simp [specFindFit]
  | cons a l ih =>
    rw [specFindFit]
    by_cases ha : size ≤ readIntAt bs a
    · rw [if_pos ha]
      constructor
      · intro h
        match hF : specFindFit bs size l with
        | none => rw [hF] at h; dsimp only at h; simp at h
        | some b => rw [hF] at h; dsimp only at h; split at h <;> simp at h
      · intro h
        exact absurd ha (by have := h a (List.mem_cons_self _ _); omega)
    · rw [if_neg ha]
      constructor
      · intro h b hb
        rcases List.mem_cons.mp hb with rfl | hb
        · omega
        · exact ih.mp h b hb
      · intro h
        exact ih.mpr (fun b hb => h b (List.mem_cons_of_mem _ hb))

theorem specFindFit_min (bs : List Block) (size : Int) (l : List Nat) (r : Nat)
    (h : specFindFit bs size l = some r) :
    ∀ a ∈ l, size ≤ readIntAt bs a → readIntAt bs r ≤ readIntAt bs a := by
  induction l generalizing r with
  | nil => simp [specFindFit] at h
  | cons a l ih =>
    rw [specFindFit] at h
    intro c hc hcq
    by_cases ha : size ≤ readIntAt bs a
    · rw [if_pos ha] at h
      match hF : specFindFit bs size l with
      | none =>
        rw [hF] at h; simp at h; subst h
        rcases List.mem_cons.mp hc with rfl | hc
        · omega
        · exact absurd hcq (by have := (specFindFit_none bs size l).mp hF c hc; omega)
      | some b =>
        rw [hF] at h
        dsimp only at h
        by_cases hb : readIntAt bs b < readIntAt bs a
        · rw [if_pos hb] at h
          rcases List.mem_cons.mp hc with rfl | hc
          · have hbr := Option.some.inj h; subst hbr; omega
          · exact ih r (by rw [hF]; exact h) c hc hcq
        · rw [if_neg hb] at h; simp at h; subst h
          rcases List.mem_cons.mp hc with rfl | hc
          · omega
          · have := ih b hF c hc hcq; omega
    · rw [if_neg ha] at h
      rcases List.mem_cons.mp hc with rfl | hc
      · omega
      · exact ih r h c hc hcq

theorem specFindFit_first (bs : List Block) (size : Int) (l : List Nat) (r : Nat)
    (h : specFindFit bs size l = some r) :
    ∃ l1 l2, l = l1 ++ r :: l2 ∧
      ∀ a ∈ l1, size ≤ readIntAt bs a → readIntAt bs r < readIntAt bs a := by
  induction l generalizing r with
  | nil => simp [specFindFit] at h
  | cons a l ih =>
    rw [specFindFit] at h
    by_cases ha : size ≤ readIntAt bs a
    · rw [if_pos ha] at h
      match hF : specFindFit bs size l with
      | none =>
        rw [hF] at h; simp at h; subst h
        exact ⟨[], l, rfl, by simp⟩
      | some b =>
        rw [hF] at h
        dsimp only at h
        by_cases hb : readIntAt bs b < readIntAt bs a
        · rw [if_pos hb] at h
          rcases ih r (by rw [hF]; exact h) with ⟨l1, l2, rfl, hp⟩
          have hrb : r = b := (Option.some.inj h).symm
          refine ⟨a :: l1, l2, rfl, ?_⟩
          intro c hc hcq
          rcases List.mem_cons.mp hc with rfl | hc
          · subst hrb; omega
          · exact hp c hc hcq
        · rw [if_neg hb] at h; simp at h; subst h
          exact ⟨[], l, rfl, by simp⟩
    · rw [if_neg ha] at h
      rcases ih r h with ⟨l1, l2, rfl, hp⟩
      refine ⟨a :: l1, l2, rfl, ?_⟩
      intro c hc hcq
      rcases List.mem_cons.mp hc with rfl | hc
      · omega
      · exact hp c hc hcq

theorem findHeadGo_merge (bs : List Block) (size : Int) (l : List Nat) :
    ∀ x : Nat, size < readIntAt bs x →
    findHeadGo bs size l (some x) (readIntAt bs x) =
      (match specFindFit bs size l with
       | none => some x
       | some b => if readIntAt bs b < readIntAt bs x then some b else some x) := by
  induction l with
  | nil => intro x hx; rw [findHeadGo, specFindFit]
  | cons a l ih =>
    intro x hx
    simp only [findHeadGo, specFindFit]
    by_cases hE : readIntAt bs a = size
    · rw [if_pos hE, if_pos (le_of_eq hE.symm)]
      match hF : specFindFit bs size l with
      | none =>
        dsimp only
        have hax : readIntAt bs a < readIntAt bs x := by omega
        rw [if_pos hax]
      | some b =>
        have hq := (specFindFit_qual bs size l b hF).2
        dsimp only
        have hno : ¬ readIntAt bs b < readIntAt bs a := by omega
        rw [if_neg hno]
        dsimp only
        have hax : readIntAt bs a < readIntAt bs x := by omega
        rw [if_pos hax]
    · by_cases hG : readIntAt bs a > size
      · have hle : size ≤ readIntAt bs a := by omega
        rw [if_neg hE, if_pos hG, if_pos hle]
        by_cases hax : readIntAt bs a < readIntAt bs x
        · rw [if_pos hax, ih a hG]
          match hF : specFindFit bs size l with
          | none =>
            dsimp only
            rw [if_pos hax]
          | some b =>
            dsimp only
            by_cases hb : readIntAt bs b < readIntAt bs a
            · have hbx : readIntAt bs b < readIntAt bs x := by omega
              rw [if_pos hb]
              dsimp only
              rw [if_pos hbx]
            · rw [if_neg hb]
              dsimp only
              rw [if_pos hax]
        · rw [if_neg hax, ih x hx]
          match hF : specFindFit bs size l with
          | none =>
            dsimp only
            rw [if_neg hax]
          | some b =>
            dsimp only
            by_cases hb : readIntAt bs b < readIntAt bs a
            · rw [if_pos hb]
            · have hbx : ¬ readIntAt bs b < readIntAt bs x := by omega
              rw [if_neg hb, if_neg hbx]
              dsimp only
              rw [if_neg hax]
      · have hnle : ¬ size ≤ readIntAt bs a := by omega
        rw [if_neg hE, if_neg hG, if_neg hnle, ih x hx]

theorem findHeadGo_spec (bs : List Block) (size : Int) (l : List Nat) :
    findHeadGo bs size l none 0 = specFindFit bs size l := by
  induction l with
  | nil => rw [findHeadGo, specFindFit]
  | cons a l ih =>
    simp only [findHeadGo, specFindFit]
    by_cases hE : readIntAt bs a = size
    · rw [if_pos hE, if_pos (le_of_eq hE.symm)]
      match hF : specFindFit bs size l with
      | none => dsimp only
      | some b =>
        have hq := (specFindFit_qual bs size l b hF).2
        dsimp only
        have hno : ¬ readIntAt bs b < readIntAt bs a := by omega
        rw [if_neg hno]
    · by_cases hG : readIntAt bs a > size
      · have hle : size ≤ readIntAt bs a := by omega
        rw [if_neg hE, if_pos hG, if_pos hle, findHeadGo_merge bs size l a hG]
      · have hnle : ¬ size ≤ readIntAt bs a := by omega
        rw [if_neg hE, if_neg hG, if_neg hnle, ih]

/-- C3: `findHead` implements the specified best-fit policy exactly: it
returns the free-list entry whose payload (as read from the block tags)
is the smallest value that is at least `size`, breaking ties by the
first such entry in list order, and `none` when no entry qualifies.
`specFindFit` is that policy written from the specification's words, and
the lemmas `specFindFit_none`, `specFindFit_qual`, `specFindFit_min` and
`specFindFit_first` spell those properties out; the C loop's
short-circuit on an exact fit is observationally absorbed by the
tie-break rule. -/
theorem claim3_thm (s : AState) (size : Int) :
    findHead s size = specFindFit s.mem size s.fl :=
  findHeadGo_spec s.mem size s.fl

/-! #### Well-formedness plumbing -/

theorem wf_iff (s : AState) : wf s = true ↔
    memLen s.mem = s.msize ∧ s.mem ≠ [] ∧ (∀ b ∈ s.mem, goodBlock b = true) ∧
    s.fl.Nodup ∧ (∀ a ∈ s.fl, a ∈ freeAddrs s.mem) ∧
    (∀ a ∈ freeAddrs s.mem, a ∈ s.fl) ∧ noAdjFree s.mem = true := by
  simp [wf, List.all_eq_true, and_assoc]

theorem goodBlock_iff (b : Block) : goodBlock b = true ↔
    b.ftr = b.hdr ∧ b.data.length = b.hdr.natAbs ∧ 8 ≤ b.hdr.natAbs := by
  simp [goodBlock, and_assoc]

theorem freeAddrsGo_mem (bs : List Block) (base a : Nat) :
    a ∈ freeAddrsGo bs base ↔
      ∃ L b R, bs = L ++ b :: R ∧ 0 < b.hdr ∧ a = base + memLen L := by
  induction bs generalizing base with
  | nil =>
    simp only [freeAddrsGo, List.not_mem_nil, false_iff]
    rintro ⟨L, b, R, hnil, -, -⟩
    exact absurd hnil (by simp)
  | cons b bs ih =>
    rw [freeAddrsGo]
    constructor
    · intro hmem
      by_cases hb : 0 < b.hdr
      · rw [if_pos hb] at hmem
        rcases List.mem_cons.mp hmem with rfl | hmem
        · exact ⟨[], b, bs, rfl, hb, by simp [memLen_nil]⟩
        · rcases (ih (base + b.size)).mp hmem with ⟨L, c, R, hbs, hc, hadr⟩
          exact ⟨b :: L, c, R, by simp [hbs], hc, by rw [memLen_cons]; omega⟩
      · rw [if_neg hb] at hmem
        rcases (ih (base + b.size)).mp hmem with ⟨L, c, R, hbs, hc, hadr⟩
        exact ⟨b :: L, c, R, by simp [hbs], hc, by rw [memLen_cons]; omega⟩
    · rintro ⟨L, c, R, hbs, hc, hadr⟩
      match L, hbs with
      | [], hbs =>
        have hcb : b = c := by simpa using congrArg (fun l => l.head?) hbs
        subst hcb
        rw [if_pos hc]
        simp [memLen_nil] at hadr
        simp [hadr]
      | d :: L, hbs =>
        have hdb : b = d := by simpa using congrArg (fun l => l.head?) hbs
        subst hdb
        have hbs' : bs = L ++ c :: R := by simpa using hbs
        have hmem : a ∈ freeAddrsGo bs (base + b.size) :=
          (ih (base + b.size)).mpr ⟨L, c, R, hbs', hc, by rw [hadr, memLen_cons]; omega⟩
        by_cases hb : 0 < b.hdr
        · rw [if_pos hb]; exact List.mem_cons_of_mem _ hmem
        · rw [if_neg hb]; exact hmem

theorem freeAddrs_mem (bs : List Block) (a : Nat) :
    a ∈ freeAddrs bs ↔ ∃ L b R, bs = L ++ b :: R ∧ 0 < b.hdr ∧ a = memLen L := by
  rw [freeAddrs, freeAddrsGo_mem]
  constructor
  · rintro ⟨L, b, R, h1, h2, h3⟩; exact ⟨L, b, R, h1, h2, by omega⟩
  · rintro ⟨L, b, R, h1, h2, h3⟩; exact ⟨L, b, R, h1, h2, by omega⟩

/-- A free-list member of a well-formed state is the address of a free,
tag-coherent block, and the header read there returns its tag. -/
theorem wf_fl_block (s : AState) (h : wf s = true) (a : Nat) (ha : a ∈ s.fl) :
    ∃ L b R, s.mem = L ++ b :: R ∧ a = memLen L ∧ 8 ≤ b.hdr ∧ b.ftr = b.hdr ∧
      b.data.length = b.hdr.natAbs ∧ readIntAt s.mem a = b.hdr := by
  rcases (wf_iff s).mp h with ⟨-, -, hgood, -, hsub, -, -⟩
  rcases (freeAddrs_mem s.mem a).mp (hsub a ha) with ⟨L, b, R, hbs, hpos, hadr⟩
  have hg := (goodBlock_iff b).mp (hgood b (by rw [hbs]; simp))
  refine ⟨L, b, R, hbs, hadr, by omega, hg.1, hg.2.1, ?_⟩
  rw [hbs, hadr, readIntAt_hdr]

/-! #### C5: non-positive requests -/

/-- C5: the claim "`myalloc(request)` returns null for every `request ≤ 0`
regardless of the arena state" is false: on a fresh 48-byte arena the
request 0 is served (the code never tests the sign of the request; the
comparison `0 > sizeof(node) - sizeof(int)` is false even in the macro's
unsigned arithmetic, so the size is inflated to the 8-byte minimum and
allocation proceeds). -/
theorem claim5_cex : (myalloc (init_myalloc 48) 0).2 = some 4 := by decide

/-- C5 (amended): for `request = 0` on a well-formed arena, `myalloc`
returns null exactly when the free list is empty: the request is inflated
to the minimum payload and served from any free block (every free block's
payload is at least 8).  The allocator never aborts in `myalloc` (the
model of `myalloc` is a total function; only `myfree` models an abort).
A negative request is outside this statement: the C macro
`MAX(size, sizeof(node) - sizeof(int))` compares the `int` request
against a `size_t`, so a negative request is not clamped, and the
subsequent split writes tags out of the chosen block's bounds. -/
theorem claim5_thm (s : AState) (size : Int) (h : wf s = true) (hsz : size = 0) :
    ((myalloc s size).2 = none ↔ s.fl = []) := by
  have hfh : findHead s size = none ↔ s.fl = [] := by
    rw [findHead, findHeadGo_spec, specFindFit_none]
    constructor
    · intro hall
      match hl : s.fl with
      | [] => rfl
      | a :: rest =>
        rcases wf_fl_block s h a (by rw [hl]; exact List.mem_cons_self _ _) with
          ⟨L, b, R, hbs, hadr, hb8, -, -, hrd⟩
        have := hall a (by rw [hl]; exact List.mem_cons_self _ _)
        omega
    · intro hl; rw [hl]; intro a ha; simp at ha
  match hf : findHead s size with
  | none => simp [myalloc, hf, hfh.mp hf]
  | some a =>
    have : ¬ s.fl = [] := fun he => by rw [hfh.mpr he] at hf; exact Option.noConfusion hf
    simp [myalloc, hf, this]

/-- Witness for C5 (amended) at a concrete input. -/
theorem claim5_wit : ((myalloc (init_myalloc 48) 0).2 = none ↔ (init_myalloc 48).fl = []) :=
  claim5_thm (init_myalloc 48) 0 (by decide) (by decide)

/-! #### C6: the backward-coalescing address -/

/-- C6: the claim "the previous block's header address used for
coalescing equals `payload_begin - prev_footer - 2T`" is false.  In
`exTwo` (`[free 8 | allocated 8]`, 32-byte arena) freeing the payload at
20 reads the previous footer 8 and coalesces into a single free block
whose header is at address `0 = 20 - 8 - 3T`; the claim's formula gives
`4 = 20 - 8 - 2T`, where no block header lies.  (The code computes
`dataptr - prevSpace - 2 * sizeof(int)` from the block start `dataptr =
payload_begin - T`.) -/
theorem claim6_cex :
    wf exTwo = true ∧ validPayload exTwo 20 = true ∧
    readIntAt exTwo.mem (20 - 4 - 4) = 8 ∧
    (myfree exTwo 20).map (fun t => freeAddrs t.mem) = some [20 - 8 - 12] ∧
    (myfree exTwo 20).map (fun t => readIntAt t.mem (20 - 8 - 12)) = some 24 ∧
    (20 - 8 - 12 : Nat) ≠ 20 - 8 - 8 := by decide

/-! #### C4: the reallocation copy -/

/-- C4 states that after a successful `q = myrealloc(p, new_size)` the
first `min(new_size, old_payload_size)` bytes of `q` equal the bytes of
`p` just before the call.  The code violates this — a code bug against
its own documentation ("will try to shift all the data in the old
location to a new location"): the copy loop reads the old payload from
live memory after the new block has been carved out, and when the new
block overlaps the old one (here: the freed block coalesced backward and
the merged block was chosen and split), the split's new footer/header
tags and the free-list link writes have already overwritten part of that
range.  In `exOverlap` (reached from a fresh 64-byte arena by
`a = myalloc 8; b = myalloc 40`, writing distinct user bytes into `b`,
`myfree a`), the call `myrealloc(b = 20, 20)` returns `q = 4` and byte
`q[8]` (offset `8 < min(20, 40)`) holds a byte of the new suffix
block's header tag instead of `p[8] = ub 108`. -/
theorem claim4_thm :
    wf exOverlap = true ∧ validPayload exOverlap 20 = true ∧
    (myrealloc exOverlap 20 20).map Prod.snd = some (some 4) ∧
    cellAt exOverlap.mem (20 + 8) = Cell.ub 108 ∧
    (myrealloc exOverlap 20 20).map (fun t => cellAt t.1.mem (4 + 8))
      = some (Cell.ib 28 0) := by decide

/-! #### C2: failed reallocation and rollback -/

/-- C2: the claim that a null-returning `myrealloc` leaves the heap
bit-identical "in each of the four neighbor cases" is false in the cases
where the next physical neighbour is free.  In `exFour` the block at 0
is reallocated to an unsatisfiable size; its next neighbour (address 16)
is free and sits second in the free list `[48, 16]`.  The rollback
re-inserts that neighbour at the head, so the free list comes back as
`[16, 48]`: membership is preserved but the order (and hence the link
words) is not. -/
theorem claim2_cex :
    wf exFour = true ∧ validPayload exFour 4 = true ∧
    (myrealloc exFour 4 100).map Prod.snd = some none ∧
    exFour.fl = [48, 16] ∧
    (myrealloc exFour 4 100).map (fun t => t.1.fl) = some [16, 48] := by decide

/-! #### Blocks keyed by start address -/

theorem getBlk_decomp (L : List Block) (b : Block) (R : List Block) :
    getBlk (L ++ b :: R) (memLen L) = some b := by
  induction L with
  | nil => simp [getBlk, memLen_nil]
  | cons c L ih =>
    rw [memLen_cons, List.cons_append, getBlk,
      if_neg (by have := c.size_pos; omega),
      if_neg (by have := c.size_pos; omega)]
    have e : c.size + memLen L - c.size = memLen L := by omega
    rw [e, ih]

theorem decomp_of_getBlk (bs : List Block) (a : Nat) (b : Block)
    (h : getBlk bs a = some b) : ∃ L R, bs = L ++ b :: R ∧ a = memLen L := by
  induction bs generalizing a with
  | nil => simp [getBlk] at h
  | cons c bs ih =>
    rw [getBlk] at h
    by_cases h0 : a = 0
    · rw [if_pos h0] at h
      exact ⟨[], bs, by simpa using (Option.some.inj h).symm ▸ rfl,
        by simp [memLen_nil, h0]⟩
    · rw [if_neg h0] at h
      by_cases hlt : a < c.size
      · rw [if_pos hlt] at h; exact absurd h (by simp)
      · rw [if_neg hlt] at h
        rcases ih (a - c.size) h with ⟨L, R, hbs, hadr⟩
        exact ⟨c :: L, R, by simp [hbs], by rw [memLen_cons]; omega⟩

theorem updBlk_decomp (f : Block → Block) (L : List Block) (b : Block) (R : List Block) :
    updBlk f (L ++ b :: R) (memLen L) = L ++ f b :: R := by
  induction L with
  | nil => simp [updBlk, memLen_nil]
  | cons c L ih =>
    rw [memLen_cons, List.cons_append, updBlk,
      if_neg (by have := c.size_pos; omega),
      if_neg (by have := c.size_pos; omega)]
    have e : c.size + memLen L - c.size = memLen L := by omega
    rw [e, ih, List.cons_append]

theorem updBlk_none (f : Block → Block) (bs : List Block) (a : Nat)
    (h : getBlk bs a = none) : updBlk f bs a = bs := by
  induction bs generalizing a with
  | nil => rw [updBlk]
  | cons c bs ih =>
    rw [getBlk] at h
    rw [updBlk]
    by_cases h0 : a = 0
    · rw [if_pos h0] at h; exact absurd h (by simp)
    · rw [if_neg h0] at h
      rw [if_neg h0]
      by_cases hlt : a < c.size
      · rw [if_pos hlt]
      · rw [if_neg hlt] at h
        rw [if_neg hlt, ih _ h]

theorem readIntAt_getBlk (bs : List Block) (a : Nat) (b : Block)
    (h : getBlk bs a = some b) : readIntAt bs a = b.hdr := by
  rcases decomp_of_getBlk bs a b h with ⟨L, R, rfl, rfl⟩
  exact readIntAt_hdr L b R

theorem getBlk_updBlk_same (f : Block → Block) (bs : List Block) (a : Nat) :
    getBlk (updBlk f bs a) a = (getBlk bs a).map f := by
  match h : getBlk bs a with
  | none => rw [updBlk_none f bs a h, h]; rfl
  | some b =>
    rcases decomp_of_getBlk bs a b h with ⟨L, R, rfl, rfl⟩
    rw [updBlk_decomp, getBlk_decomp]; rfl

theorem getBlk_updBlk_ne (f : Block → Block) (bs : List Block) (a a' : Nat)
    (hsz : ∀ b, (f b).size = b.size) (hne : a' ≠ a) :
    getBlk (updBlk f bs a) a' = getBlk bs a' := by
  induction bs generalizing a a' with
  | nil => rw [updBlk]
  | cons c bs ih =>
    rw [updBlk]
    by_cases h0 : a = 0
    · subst h0
      rw [if_pos rfl, getBlk, getBlk, if_neg hne, if_neg hne, hsz c]
    · rw [if_neg h0]
      by_cases hlt : a < c.size
      · rw [if_pos hlt]
      · rw [if_neg hlt, getBlk, getBlk]
        by_cases h0' : a' = 0
        · rw [if_pos h0', if_pos h0']
        · rw [if_neg h0', if_neg h0']
          by_cases hlt' : a' < c.size
          · rw [if_pos hlt', if_pos hlt']
          · rw [if_neg hlt', if_neg hlt', ih _ _ (by omega)]

theorem memLen_updBlk (f : Block → Block) (bs : List Block) (a : Nat)
    (hsz : ∀ b, (f b).size = b.size) : memLen (updBlk f bs a) = memLen bs := by
  match h : getBlk bs a with
  | none => rw [updBlk_none f bs a h]
  | some b =>
    rcases decomp_of_getBlk bs a b h with ⟨L, R, rfl, rfl⟩
    rw [updBlk_decomp]
    simp [memLen_append, memLen_cons]
    have := hsz b
    omega

/-! #### Payload stores as keyed updates -/

theorem writeCells_getElem? (cs : List Cell) (l : List Cell) (off i : Nat) :
    (writeCells l off cs)[i]? =
      if off ≤ i ∧ i < off + cs.length ∧ i < l.length then cs[i - off]?
      else l[i]? := by
  induction cs generalizing l off with
  | nil =>
    rw [writeCells, if_neg (by rintro ⟨h1, h2, h3⟩; simp at h2; omega)]
  | cons c cs ih =>
    rw [writeCells, ih, List.length_set]
    by_cases h1 : off + 1 ≤ i ∧ i < off + 1 + cs.length ∧ i < l.length
    · rw [if_pos h1,
        if_pos (show off ≤ i ∧ i < off + (c :: cs).length ∧ i < l.length by
          refine ⟨by omega, by simp; omega, h1.2.2⟩)]
      have e : i - off = (i - (off + 1)) + 1 := by omega
      rw [e, List.getElem?_cons_succ]
    · rw [if_neg h1, List.getElem?_set]
      by_cases h2 : off = i
      · subst h2
        by_cases hl : off < l.length
        · rw [if_pos rfl, if_pos hl,
            if_pos (show off ≤ off ∧ off < off + (c :: cs).length ∧ off < l.length by
              refine ⟨le_refl _, by simp, hl⟩)]
          simp
        · rw [if_pos rfl, if_neg hl, if_neg (by rintro ⟨-, -, h⟩; omega)]
          exact (List.getElem?_eq_none (by omega)).symm
      · rw [if_neg h2, if_neg (by rintro ⟨ha, hb, hc⟩; simp at hb; omega)]

theorem writePayloadAt_updBlk (bs : List Block) (addr off : Nat) (cs : List Cell) (b : Block)
    (hget : getBlk bs addr = some b) (h4 : 4 ≤ off)
    (hend : off + cs.length ≤ 4 + b.data.length) :
    writePayloadAt bs (addr + off) cs
      = updBlk (fun c => { c with data := writeCells c.data (off - 4) cs }) bs addr := by
  rcases decomp_of_getBlk bs addr b hget with ⟨L, R, rfl, rfl⟩
  rw [writePayloadAt_blk L b R off cs h4 hend, updBlk_decomp]

theorem writeIntAt_updBlk_hdr (bs : List Block) (addr : Nat) (v : Int) (b : Block)
    (hget : getBlk bs addr = some b) :
    writeIntAt bs addr v = updBlk (fun c => { c with hdr := v }) bs addr := by
  rcases decomp_of_getBlk bs addr b hget with ⟨L, R, rfl, rfl⟩
  rw [writeIntAt_hdr, updBlk_decomp]

theorem writeIntAt_updBlk_ftr (bs : List Block) (addr : Nat) (v : Int) (b : Block)
    (hget : getBlk bs addr = some b) :
    writeIntAt bs (addr + (4 + b.data.length)) v
      = updBlk (fun c => { c with ftr := v }) bs addr := by
  rcases decomp_of_getBlk bs addr b hget with ⟨L, R, rfl, rfl⟩
  rw [writeIntAt_ftr, updBlk_decomp]

theorem cellAt_payload (L : List Block) (b : Block) (R : List Block) (off : Nat)
    (h4 : 4 ≤ off) (hend : off < 4 + b.data.length) :
    cellAt (L ++ b :: R) (memLen L + off) = b.data.getD (off - 4) .und := by
  rw [cellAt_append_ge L _ _ (by omega)]
  have e : memLen L + off - memLen L = off := by omega
  rw [e, cellAt, if_neg (by omega), if_pos (by omega)]

theorem freeAddrsGo_append (L R : List Block) (base : Nat) :
    freeAddrsGo (L ++ R) base = freeAddrsGo L base ++ freeAddrsGo R (base + memLen L) := by
  induction L generalizing base with
  | nil => simp [freeAddrsGo, memLen_nil]
  | cons b L ih =>
    rw [List.cons_append, freeAddrsGo, freeAddrsGo, ih, memLen_cons]
    by_cases hb : 0 < b.hdr
    · rw [if_pos hb, if_pos hb, List.cons_append]
      have e : base + b.size + memLen L = base + (b.size + memLen L) := by omega
      rw [e]
    · rw [if_neg hb, if_neg hb]
      have e : base + b.size + memLen L = base + (b.size + memLen L) := by omega
      rw [e]

theorem freeAddrs_updBlk (f : Block → Block) (bs : List Block) (a : Nat)
    (hsz : ∀ b, (f b).size = b.size) (hsgn : ∀ b, (0 < (f b).hdr ↔ 0 < b.hdr)) :
    freeAddrs (updBlk f bs a) = freeAddrs bs := by
  match h : getBlk bs a with
  | none => rw [updBlk_none f bs a h]
  | some b =>
    rcases decomp_of_getBlk bs a b h with ⟨L, R, rfl, rfl⟩
    rw [updBlk_decomp, freeAddrs, freeAddrs, freeAddrsGo_append, freeAddrsGo_append,
      freeAddrsGo, freeAddrsGo]
    by_cases hb : 0 < b.hdr
    · rw [if_pos ((hsgn b).mpr hb), if_pos hb, hsz b]
    · rw [if_neg (fun hc => hb ((hsgn b).mp hc)), if_neg hb, hsz b]

theorem noAdjFree_cons₂ (b c : Block) (bs : List Block) :
    noAdjFree (b :: c :: bs)
      = ((!(decide (0 < b.hdr) && decide (0 < c.hdr))) && noAdjFree (c :: bs)) := rfl

theorem noAdjFree_mid (L : List Block) (b b' : Block) (R : List Block)
    (hsgn : 0 < b'.hdr ↔ 0 < b.hdr) :
    noAdjFree (L ++ b' :: R) = noAdjFree (L ++ b :: R) := by
  have hd : decide (0 < b'.hdr) = decide (0 < b.hdr) := by
    by_cases h : 0 < b.hdr
    · simp [h, hsgn.mpr h]
    · have h' : ¬ 0 < b'.hdr := fun hc => h (hsgn.mp hc)
      simp [h, h']
  induction L with
  | nil =>
    match R with
    | [] => rfl
    | c :: R => rw [List.nil_append, List.nil_append, noAdjFree_cons₂, noAdjFree_cons₂, hd]
  | cons d L ih =>
    match L, ih with
    | [], ih =>
      simp only [List.cons_append, List.nil_append]
      rw [noAdjFree_cons₂ d b', noAdjFree_cons₂ d b, hd]
      simp only [List.nil_append] at ih
      rw [ih]
    | e :: L, ih =>
      simp only [List.cons_append]
      rw [noAdjFree_cons₂ d e, noAdjFree_cons₂ d e]
      simp only [List.cons_append] at ih
      rw [ih]

theorem noAdjFree_updBlk (f : Block → Block) (bs : List Block) (a : Nat)
    (hsgn : ∀ b, (0 < (f b).hdr ↔ 0 < b.hdr)) :
    noAdjFree (updBlk f bs a) = noAdjFree bs := by
  match h : getBlk bs a with
  | none => rw [updBlk_none f bs a h]
  | some b =>
    rcases decomp_of_getBlk bs a b h with ⟨L, R, rfl, rfl⟩
    rw [updBlk_decomp]
    exact noAdjFree_mid L b (f b) R (hsgn b)

/-! #### Free-list operations -/

theorem updBlk_updBlk_same (f g : Block → Block) (bs : List Block) (a : Nat) :
    updBlk g (updBlk f bs a) a = updBlk (fun c => g (f c)) bs a := by
  match h : getBlk bs a with
  | none =>
    rw [updBlk_none f bs a h, updBlk_none g bs a h, updBlk_none _ bs a h]
  | some b =>
    rcases decomp_of_getBlk bs a b h with ⟨L, R, rfl, rfl⟩
    rw [updBlk_decomp, updBlk_decomp, updBlk_decomp]

theorem writeCells_size (c : Block) (k : Nat) (cs : List Cell) :
    ({ c with data := writeCells c.data k cs } : Block).size = c.size := by
  simp [Block.size, writeCells_length]

theorem findLinks_spec (a : Nat) (l1 l2 : List Nat) (h : a ∉ l1) : ∀ prv : Option Nat,
    findLinks prv (l1 ++ a :: l2) a = some (l1.getLast?.or prv, l2.head?) := by
  induction l1 with
  | nil => intro prv; simp [findLinks]
  | cons c l1 ih =>
    intro prv
    have hca : ¬ c = a := fun he => h (he ▸ List.mem_cons_self c l1)
    rw [List.cons_append, findLinks, if_neg hca,
      ih (fun hm => h (List.mem_cons_of_mem c hm)) (some c)]
    match l1 with
    | [] => simp
    | d :: l1 =>
      have hys : (d :: l1).getLast?.isSome := List.getLast?_isSome.mpr (by simp)
      rcases Option.isSome_iff_exists.mp hys with ⟨y, hy⟩
      simp [List.getLast?_cons_cons, hy]

/-- The effect of `removeNode` on a node at list position `l1 ++ a :: l2`:
link writes to the list neighbours and removal from the list. -/
theorem removeNode_spec (s : AState) (a : Nat) (l1 l2 : List Nat)
    (hfl : s.fl = l1 ++ a :: l2) (hna : a ∉ l1) :
    removeNode s a =
      (let m1 := l1.getLast?.elim s.mem (fun p => writePtrAt s.mem (p + 4) l2.head?)
       { s with
         mem := l2.head?.elim m1 (fun nx => writePtrAt m1 (nx + 8) l1.getLast?),
         fl := l1 ++ l2 }) := by
  rw [removeNode, hfl, findLinks_spec a l1 l2 hna none]
  have herase : (l1 ++ a :: l2).erase a = l1 ++ l2 := by
    rw [List.erase_append_right _ hna, List.erase_cons_head]
  match hl1 : l1.getLast? with
  | none =>
    match hl2 : l2.head? with
    | none => simp [herase]
    | some nx => simp [herase]
  | some p =>
    match hl2 : l2.head? with
    | none => simp [herase]
    | some nx => simp [herase]

/-- `addNode` written out: the two link writes into the new node, the
`prev` patch of the old head, and the push. -/
theorem addNode_spec (s : AState) (a : Nat) :
    addNode s a =
      (let m2 := writePtrAt (writePtrAt s.mem (a + 4) s.fl.head?) (a + 8) none
       { s with
         mem := s.fl.head?.elim m2 (fun b => writePtrAt m2 (b + 8) (some a)),
         fl := a :: s.fl }) := by
  rw [addNode]
  match hh : s.fl.head? with
  | none => simp
  | some b => simp

theorem wf_fl_getBlk (s : AState) (hw : wf s = true) (a : Nat) (ha : a ∈ s.fl) :
    ∃ b, getBlk s.mem a = some b ∧ 8 ≤ b.hdr ∧ b.ftr = b.hdr ∧
      b.data.length = b.hdr.natAbs := by
  rcases wf_fl_block s hw a ha with ⟨L, b, R, hbs, hadr, h8, hfr, hlen, -⟩
  exact ⟨b, by rw [hbs, hadr, getBlk_decomp], h8, hfr, hlen⟩

theorem getBlk_writePtr_ne (bs : List Block) (p : Nat) (bp : Block) (off : Nat)
    (v : Option Nat) (hbp : getBlk bs p = some bp) (h8 : 8 ≤ bp.data.length)
    (hoff : off = 4 ∨ off = 8) (x : Nat) (hx : x ≠ p) :
    getBlk (writePtrAt bs (p + off) v) x = getBlk bs x := by
  rw [writePtrAt,
    writePayloadAt_updBlk bs p off (ptrCells v) bp hbp (by omega)
      (by simp [ptrCells]; omega),
    getBlk_updBlk_ne _ _ _ _ (fun c => writeCells_size c (off - 4) (ptrCells v)) hx]

theorem getBlk_writePtr_same (bs : List Block) (p : Nat) (bp : Block) (off : Nat)
    (v : Option Nat) (hbp : getBlk bs p = some bp) (h8 : 8 ≤ bp.data.length)
    (hoff : off = 4 ∨ off = 8) :
    getBlk (writePtrAt bs (p + off) v) p
      = some { bp with data := writeCells bp.data (off - 4) (ptrCells v) } := by
  rw [writePtrAt,
    writePayloadAt_updBlk bs p off (ptrCells v) bp hbp (by omega)
      (by simp [ptrCells]; omega),
    getBlk_updBlk_same, hbp]
  rfl

/-- Reads of tag words other than at the two touched nodes are unchanged
by `removeNode`. -/
theorem getBlk_removeNode (s : AState) (hw : wf s = true) (a : Nat) (l1 l2 : List Nat)
    (hfl : s.fl = l1 ++ a :: l2) (hna : a ∉ l1) (x : Nat)
    (hx1 : x ∉ l1) (hx2 : x ∉ l2) :
    getBlk (removeNode s a).mem x = getBlk s.mem x := by
  rw [removeNode_spec s a l1 l2 hfl hna]
  match hl1 : l1.getLast? with
  | none =>
    match hl2 : l2.head? with
    | none => simp
    | some nx =>
      have hnx : nx ∈ s.fl := by
        rw [hfl]
        exact List.mem_append_right _ (List.mem_cons_of_mem _ (List.mem_of_mem_head? hl2))
      rcases wf_fl_getBlk s hw nx hnx with ⟨bn, hbn, h8, -, hlen⟩
      simp only [Option.elim]
      exact getBlk_writePtr_ne s.mem nx bn 8 none hbn (by omega) (Or.inr rfl) x
        (fun he => hx2 (he ▸ List.mem_of_mem_head? hl2))
  | some p =>
    have hp : p ∈ s.fl := by
      rw [hfl]
      exact List.mem_append_left _ (List.mem_of_mem_getLast? hl1)
    rcases wf_fl_getBlk s hw p hp with ⟨bp, hbp, hp8, -, hplen⟩
    have hxp : x ≠ p := fun he => hx1 (he ▸ List.mem_of_mem_getLast? hl1)
    match hl2 : l2.head? with
    | none =>
      simp only [Option.elim]
      exact getBlk_writePtr_ne s.mem p bp 4 none hbp (by omega) (Or.inl rfl) x hxp
    | some nx =>
      have hnx : nx ∈ s.fl := by
        rw [hfl]
        exact List.mem_append_right _ (List.mem_cons_of_mem _ (List.mem_of_mem_head? hl2))
      rcases wf_fl_getBlk s hw nx hnx with ⟨bn, hbn, hn8, -, hnlen⟩
      have hxn : x ≠ nx := fun he => hx2 (he ▸ List.mem_of_mem_head? hl2)
      have hpn : nx ≠ p := by
        intro he
        have hnd : s.fl.Nodup := (wf_iff s).mp hw |>.2.2.2.1
        rw [hfl, List.nodup_append] at hnd
        exact (hnd.2.2 (he ▸ List.mem_of_mem_getLast? hl1))
          (List.mem_cons_of_mem _ (List.mem_of_mem_head? hl2))
      have hbn1 : getBlk (writePtrAt s.mem (p + 4) (some nx)) nx = some bn := by
        rw [getBlk_writePtr_ne s.mem p bp 4 (some nx) hbp (by omega) (Or.inl rfl) nx hpn]
        exact hbn
      simp only [Option.elim]
      rw [getBlk_writePtr_ne _ nx bn 8 (some p) hbn1 (by omega) (Or.inr rfl) x hxn]
      exact getBlk_writePtr_ne s.mem p bp 4 (some nx) hbp (by omega) (Or.inl rfl) x hxp

/-- A pointer store at a link-field offset of a block with room for the
link fields keeps every block present with its payload length. -/
theorem blk8_writePtr (bs : List Block) (q : Nat) (off : Nat) (v : Option Nat) (p : Nat)
    (hq : ∃ bq, getBlk bs q = some bq ∧ 8 ≤ bq.data.length)
    (hp : ∃ bp, getBlk bs p = some bp ∧ 8 ≤ bp.data.length)
    (hoff : off = 4 ∨ off = 8) :
    ∃ bp, getBlk (writePtrAt bs (q + off) v) p = some bp ∧ 8 ≤ bp.data.length := by
  rcases hq with ⟨bq, hbq, hq8⟩
  rcases hp with ⟨bp, hbp, hp8⟩
  by_cases hpq : p = q
  · subst hpq
    refine ⟨_, getBlk_writePtr_same bs p bq off v hbq hq8 hoff, ?_⟩
    have heq : bp = bq := by rw [hbp] at hbq; exact Option.some.inj hbq
    simp [writeCells_length, hq8]
  · exact ⟨bp, by rw [getBlk_writePtr_ne bs q bq off v hbq hq8 hoff p hpq]; exact hbp, hp8⟩

/-- Reads of tag words other than at the new node and the old list head
are unchanged by `addNode`. -/
theorem getBlk_addNode (s : AState) (n : Nat) (bn : Block)
    (hbn : getBlk s.mem n = some bn) (h8 : 8 ≤ bn.data.length)
    (hhead : ∀ h, s.fl.head? = some h → ∃ bh, getBlk s.mem h = some bh ∧ 8 ≤ bh.data.length)
    (x : Nat) (hxn : x ≠ n) (hxh : ∀ h, s.fl.head? = some h → x ≠ h) :
    getBlk (addNode s n).mem x = getBlk s.mem x := by
  rw [addNode_spec]
  have hn0 : ∃ b, getBlk s.mem n = some b ∧ 8 ≤ b.data.length := ⟨bn, hbn, h8⟩
  have hn1 := blk8_writePtr s.mem n 4 s.fl.head? n hn0 hn0 (Or.inl rfl)
  rcases hn1 with ⟨bn1, hbn1, h81⟩
  have hstep2 : ∀ y, y ≠ n →
      getBlk (writePtrAt (writePtrAt s.mem (n + 4) s.fl.head?) (n + 8) none) y
        = getBlk s.mem y := by
    intro y hy
    rw [getBlk_writePtr_ne _ n bn1 8 none hbn1 h81 (Or.inr rfl) y hy,
      getBlk_writePtr_ne s.mem n bn 4 s.fl.head? hbn h8 (Or.inl rfl) y hy]
  match hh : s.fl.head? with
  | none =>
    simp only [Option.elim]
    have := hstep2 x hxn
    rw [hh] at this
    exact this
  | some h =>
    simp only [Option.elim]
    have hh0 := hhead h hh
    have hh1 := blk8_writePtr s.mem n 4 (some h) h hn0 hh0 (Or.inl rfl)
    have hh2 := blk8_writePtr _ n 8 none h
      (blk8_writePtr s.mem n 4 (some h) n hn0 hn0 (Or.inl rfl)) hh1 (Or.inr rfl)
    rcases hh2 with ⟨bh2, hbh2, h82⟩
    rw [getBlk_writePtr_ne _ h bh2 8 (some n) hbh2 h82 (Or.inr rfl) x (hxh h hh)]
    have := hstep2 x hxn
    rw [hh] at this
    exact this

/-! #### Invariant transfer through payload stores -/

theorem memLen_writePayload (bs : List Block) (q off : Nat) (cs : List Cell) (bq : Block)
    (hbq : getBlk bs q = some bq) (h4 : 4 ≤ off) (hend : off + cs.length ≤ 4 + bq.data.length) :
    memLen (writePayloadAt bs (q + off) cs) = memLen bs := by
  rw [writePayloadAt_updBlk bs q off cs bq hbq h4 hend,
    memLen_updBlk _ _ _ (fun c => writeCells_size c (off - 4) cs)]

theorem freeAddrs_writePayload (bs : List Block) (q off : Nat) (cs : List Cell) (bq : Block)
    (hbq : getBlk bs q = some bq) (h4 : 4 ≤ off) (hend : off + cs.length ≤ 4 + bq.data.length) :
    freeAddrs (writePayloadAt bs (q + off) cs) = freeAddrs bs := by
  rw [writePayloadAt_updBlk bs q off cs bq hbq h4 hend,
    freeAddrs_updBlk _ _ _ (fun c => writeCells_size c (off - 4) cs) (fun c => Iff.rfl)]

theorem noAdjFree_writePayload (bs : List Block) (q off : Nat) (cs : List Cell) (bq : Block)
    (hbq : getBlk bs q = some bq) (h4 : 4 ≤ off) (hend : off + cs.length ≤ 4 + bq.data.length) :
    noAdjFree (writePayloadAt bs (q + off) cs) = noAdjFree bs := by
  rw [writePayloadAt_updBlk bs q off cs bq hbq h4 hend,
    noAdjFree_updBlk (fun c => { c with data := writeCells c.data (off - 4) cs }) bs q
      (fun c => Iff.rfl)]

theorem all_good_updBlk (f : Block → Block) (bs : List Block) (a : Nat)
    (hgood : ∀ b ∈ bs, goodBlock b = true)
    (hf : ∀ b, goodBlock b = true → goodBlock (f b) = true) :
    ∀ b ∈ updBlk f bs a, goodBlock b = true := by
  match h : getBlk bs a with
  | none => rw [updBlk_none f bs a h]; exact hgood
  | some b =>
    rcases decomp_of_getBlk bs a b h with ⟨L, R, rfl, rfl⟩
    rw [updBlk_decomp]
    intro c hc
    rcases List.mem_append.mp hc with hc | hc
    · exact hgood c (List.mem_append_left _ hc)
    · rcases List.mem_cons.mp hc with rfl | hc
      · exact hf b (hgood b (by simp))
      · exact hgood c (by simp [hc])

theorem good_writePayload (bs : List Block) (q off : Nat) (cs : List Cell) (bq : Block)
    (hbq : getBlk bs q = some bq) (h4 : 4 ≤ off) (hend : off + cs.length ≤ 4 + bq.data.length)
    (hgood : ∀ b ∈ bs, goodBlock b = true) :
    ∀ b ∈ writePayloadAt bs (q + off) cs, goodBlock b = true := by
  rw [writePayloadAt_updBlk bs q off cs bq hbq h4 hend]
  refine all_good_updBlk _ bs q hgood (fun b hb => ?_)
  rcases (goodBlock_iff b).mp hb with ⟨h1, h2, h3⟩
  exact (goodBlock_iff _).mpr ⟨h1, by simpa [writeCells_length] using h2, h3⟩

/-- The four invariant-relevant observations are unchanged by a pointer
store at a link-field offset of a block with room for links. -/
theorem inv_writePtr (bs : List Block) (q off : Nat) (v : Option Nat) (bq : Block)
    (hbq : getBlk bs q = some bq) (h8 : 8 ≤ bq.data.length) (hoff : off = 4 ∨ off = 8) :
    memLen (writePtrAt bs (q + off) v) = memLen bs ∧
    freeAddrs (writePtrAt bs (q + off) v) = freeAddrs bs ∧
    noAdjFree (writePtrAt bs (q + off) v) = noAdjFree bs ∧
    ((∀ b ∈ bs, goodBlock b = true) → ∀ b ∈ writePtrAt bs (q + off) v, goodBlock b = true) := by
  have hend : off + (ptrCells v).length ≤ 4 + bq.data.length := by simp [ptrCells]; omega
  have h4 : 4 ≤ off := by omega
  exact ⟨memLen_writePayload bs q off _ bq hbq h4 hend,
    freeAddrs_writePayload bs q off _ bq hbq h4 hend,
    noAdjFree_writePayload bs q off _ bq hbq h4 hend,
    fun hg => good_writePayload bs q off _ bq hbq h4 hend hg⟩

/-- The four invariant-relevant observations are unchanged by
`removeNode`'s memory writes. -/
theorem inv_removeNode (s : AState) (hw : wf s = true) (a : Nat) (l1 l2 : List Nat)
    (hfl : s.fl = l1 ++ a :: l2) (hna : a ∉ l1) :
    memLen (removeNode s a).mem = memLen s.mem ∧
    freeAddrs (removeNode s a).mem = freeAddrs s.mem ∧
    noAdjFree (removeNode s a).mem = noAdjFree s.mem ∧
    ((∀ b ∈ s.mem, goodBlock b = true) →
      ∀ b ∈ (removeNode s a).mem, goodBlock b = true) := by
  rw [removeNode_spec s a l1 l2 hfl hna]
  match hl1 : l1.getLast? with
  | none =>
    match hl2 : l2.head? with
    | none => simp
    | some nx =>
      have hnx : nx ∈ s.fl := by
        rw [hfl]
        exact List.mem_append_right _ (List.mem_cons_of_mem _ (List.mem_of_mem_head? hl2))
      rcases wf_fl_getBlk s hw nx hnx with ⟨bn, hbn, h8, -, hlen⟩
      simp only [Option.elim]
      exact inv_writePtr s.mem nx 8 none bn hbn (by omega) (Or.inr rfl)
  | some p =>
    have hp : p ∈ s.fl := by
      rw [hfl]
      exact List.mem_append_left _ (List.mem_of_mem_getLast? hl1)
    rcases wf_fl_getBlk s hw p hp with ⟨bp, hbp, hp8, -, hplen⟩
    have hp8' : 8 ≤ bp.data.length := by omega
    match hl2 : l2.head? with
    | none =>
      simp only [Option.elim]
      exact inv_writePtr s.mem p 4 none bp hbp hp8' (Or.inl rfl)
    | some nx =>
      have hnx : nx ∈ s.fl := by
        rw [hfl]
        exact List.mem_append_right _ (List.mem_cons_of_mem _ (List.mem_of_mem_head? hl2))
      rcases wf_fl_getBlk s hw nx hnx with ⟨bn, hbn, hn8, -, hnlen⟩
      have h1 := inv_writePtr s.mem p 4 (some nx) bp hbp hp8' (Or.inl rfl)
      rcases blk8_writePtr s.mem p 4 (some nx) nx ⟨bp, hbp, hp8'⟩ ⟨bn, hbn, by omega⟩
        (Or.inl rfl) with ⟨bn1, hbn1, h81⟩
      have h2 := inv_writePtr _ nx 8 (some p) bn1 hbn1 h81 (Or.inr rfl)
      simp only [Option.elim]
      exact ⟨h2.1.trans h1.1, h2.2.1.trans h1.2.1, h2.2.2.1.trans h1.2.2.1,
        fun hg => h2.2.2.2 (h1.2.2.2 hg)⟩

/-- The four invariant-relevant observations are unchanged by `addNode`'s
memory writes. -/
theorem inv_addNode (s : AState) (n : Nat) (bn : Block)
    (hbn : getBlk s.mem n = some bn) (h8 : 8 ≤ bn.data.length)
    (hhead : ∀ h, s.fl.head? = some h →
      ∃ bh, getBlk s.mem h = some bh ∧ 8 ≤ bh.data.length) :
    memLen (addNode s n).mem = memLen s.mem ∧
    freeAddrs (addNode s n).mem = freeAddrs s.mem ∧
    noAdjFree (addNode s n).mem = noAdjFree s.mem ∧
    ((∀ b ∈ s.mem, goodBlock b = true) →
      ∀ b ∈ (addNode s n).mem, goodBlock b = true) := by
  rw [addNode_spec]
  have hn0 : ∃ b, getBlk s.mem n = some b ∧ 8 ≤ b.data.length := ⟨bn, hbn, h8⟩
  have i1 := inv_writePtr s.mem n 4 s.fl.head? bn hbn h8 (Or.inl rfl)
  rcases blk8_writePtr s.mem n 4 s.fl.head? n hn0 hn0 (Or.inl rfl) with ⟨bn1, hbn1, h81⟩
  have i2 := inv_writePtr _ n 8 none bn1 hbn1 h81 (Or.inr rfl)
  match hh : s.fl.head? with
  | none =>
    simp only [Option.elim]
    rw [hh] at i1 i2
    exact ⟨i2.1.trans i1.1, i2.2.1.trans i1.2.1, i2.2.2.1.trans i1.2.2.1,
      fun hg => i2.2.2.2 (i1.2.2.2 hg)⟩
  | some h =>
    simp only [Option.elim]
    rw [hh] at i1 i2 hbn1
    have hh0 := hhead h hh
    rcases blk8_writePtr _ n 8 none h ⟨bn1, hbn1, h81⟩
      (blk8_writePtr s.mem n 4 (some h) h hn0 hh0 (Or.inl rfl)) (Or.inr rfl) with
      ⟨bh2, hbh2, h82⟩
    have i3 := inv_writePtr _ h 8 (some n) bh2 hbh2 h82 (Or.inr rfl)
    exact ⟨i3.1.trans (i2.1.trans i1.1), i3.2.1.trans (i2.2.1.trans i1.2.1),
      i3.2.2.1.trans (i2.2.2.1.trans i1.2.2.1),
      fun hg => i3.2.2.2 (i2.2.2.2 (i1.2.2.2 hg))⟩

/-! #### Characterization of `myalloc` -/

theorem wf_nodup_parts (s : AState) (hw : wf s = true) (a : Nat) (l1 l2 : List Nat)
    (hfl : s.fl = l1 ++ a :: l2) : a ∉ l1 ∧ a ∉ l2 ∧ ∀ x ∈ l1, x ∉ l2 := by
  have hnd : s.fl.Nodup := (wf_iff s).mp hw |>.2.2.2.1
  rw [hfl, List.nodup_append] at hnd
  refine ⟨fun hm => hnd.2.2 hm (List.mem_cons_self _ _), ?_, ?_⟩
  · have := hnd.2.1
    rw [List.nodup_cons] at this
    exact this.1
  · intro x hx hx2
    exact hnd.2.2 hx (List.mem_cons_of_mem _ hx2)

theorem myalloc_nosplit (s : AState) (size : Int) (a : Nat) (b : Block) (l1 l2 : List Nat)
    (hw : wf s = true) (hf : findHead s size = some a) (hb : getBlk s.mem a = some b)
    (hfl : s.fl = l1 ++ a :: l2) (hns : ¬ b.hdr > max size 8 + 16) :
    myalloc s size =
      ({ removeNode s a with
         mem := updBlk (fun c => { c with hdr := -b.hdr, ftr := -b.hdr })
           (removeNode s a).mem a }, some (a + 4)) := by
  rcases wf_nodup_parts s hw a l1 l2 hfl with ⟨hna, hna2, -⟩
  have hafl : a ∈ s.fl := by rw [hfl]; exact List.mem_append_right _ (List.mem_cons_self _ _)
  rcases wf_fl_getBlk s hw a hafl with ⟨b', hb', h8', -, hlen'⟩
  have hbb : b' = b := by rw [hb] at hb'; exact (Option.some.inj hb').symm
  subst hbb
  have hRa : getBlk (removeNode s a).mem a = some b' := by
    rw [getBlk_removeNode s hw a l1 l2 hfl hna a hna hna2]; exact hb
  have hrd : readIntAt s.mem a = b'.hdr := readIntAt_getBlk _ _ _ hb
  have hrd2 : readIntAt (removeNode s a).mem a = b'.hdr := readIntAt_getBlk _ _ _ hRa
  simp only [myalloc, hf, hrd, if_neg hns, hrd2]
  rw [writeIntAt_updBlk_hdr (removeNode s a).mem a (-b'.hdr) b' hRa]
  have hR3 : getBlk (updBlk (fun c => { c with hdr := -b'.hdr }) (removeNode s a).mem a) a
      = some { b' with hdr := -b'.hdr } := by
    rw [getBlk_updBlk_same, hRa]; rfl
  have haddr : a + 4 + b'.hdr.toNat
      = a + (4 + ({ b' with hdr := -b'.hdr } : Block).data.length) := by
    simp only []
    omega
  rw [haddr, writeIntAt_updBlk_ftr _ a (-b'.hdr) _ hR3, updBlk_updBlk_same]

theorem splitBlock_fst (s : AState) (a : Nat) (v : Int) :
    (splitBlock s a v).1 = { s with mem := splitBlockMem s.mem a v } := rfl

theorem splitBlock_snd (s : AState) (a : Nat) (v : Int) :
    (splitBlock s a v).2 = a + 8 + v.toNat := rfl

theorem splitBlockMem_decomp (L : List Block) (b : Block) (R : List Block) (v : Int) :
    splitBlockMem (L ++ b :: R) (memLen L) v =
      L ++ { hdr := v, data := b.data.take v.toNat, ftr := v } ::
        { hdr := b.hdr - v - 8, data := b.data.drop (v.toNat + 8), ftr := b.hdr - v - 8 }
          :: R := by
  rw [splitBlockMem_append_ge L (b :: R) (memLen L) v (le_refl _)]
  have e : memLen L - memLen L = 0 := by omega
  rw [e, splitBlockMem, if_pos b.size_pos, if_pos rfl]

theorem getBlk_append_lt (L R : List Block) (a : Nat) (h : a < memLen L) :
    getBlk (L ++ R) a = getBlk L a := by
  induction L generalizing a with
  | nil => simp [memLen_nil] at h
  | cons b L ih =>
    rw [memLen_cons] at h
    rw [List.cons_append, getBlk, getBlk]
    by_cases h0 : a = 0
    · rw [if_pos h0, if_pos h0]
    · rw [if_neg h0, if_neg h0]
      by_cases hlt : a < b.size
      · rw [if_pos hlt, if_pos hlt]
      · rw [if_neg hlt, if_neg hlt, ih _ (by omega)]

theorem getBlk_append_ge (L R : List Block) (a : Nat) (h : memLen L ≤ a) :
    getBlk (L ++ R) a = getBlk R (a - memLen L) := by
  induction L generalizing a with
  | nil => simp [memLen_nil]
  | cons b L ih =>
    rw [memLen_cons] at h
    have h0 : ¬ a = 0 := by have := b.size_pos; omega
    have hlt : ¬ a < b.size := by omega
    rw [List.cons_append, getBlk, if_neg h0, if_neg hlt, ih _ (by omega), memLen_cons]
    congr 1
    omega

theorem getBlk_cons_skip (b : Block) (bs : List Block) (a : Nat) (h : b.size ≤ a) :
    getBlk (b :: bs) a = getBlk bs (a - b.size) := by
  rw [getBlk, if_neg (by have := b.size_pos; omega), if_neg (by omega)]

theorem getBlk_cons_mid (b : Block) (bs : List Block) (a : Nat) (h0 : ¬ a = 0)
    (h : a < b.size) : getBlk (b :: bs) a = none := by
  rw [getBlk, if_neg h0, if_pos h]

/-- Replacing one block by two blocks of the same total size leaves every
other start address's block unchanged. -/
theorem getBlk_two_blocks (L : List Block) (b pre suf : Block) (R : List Block)
    (hsz : pre.size + suf.size = b.size) (x : Nat)
    (hx1 : x ≠ memLen L) (hx2 : x ≠ memLen L + pre.size) :
    getBlk (L ++ pre :: suf :: R) x = getBlk (L ++ b :: R) x := by
  by_cases hlt : x < memLen L
  · rw [getBlk_append_lt _ _ _ hlt, getBlk_append_lt _ _ _ hlt]
  · obtain ⟨δ, rfl⟩ : ∃ δ, x = memLen L + δ := ⟨x - memLen L, by omega⟩
    rw [getBlk_append_ge _ _ _ (by omega), getBlk_append_ge _ _ _ (by omega),
      Nat.add_sub_cancel_left]
    have hd0 : ¬ δ = 0 := by omega
    by_cases hp : δ < pre.size
    · rw [getBlk_cons_mid pre _ δ hd0 hp, getBlk_cons_mid b _ δ hd0 (by omega)]
    · rw [getBlk_cons_skip pre _ δ (by omega)]
      by_cases hq : δ - pre.size < suf.size
      · rw [getBlk_cons_mid suf _ _ (by omega) hq, getBlk_cons_mid b _ δ hd0 (by omega)]
      · rw [getBlk_cons_skip suf _ _ (by omega), getBlk_cons_skip b _ δ (by omega)]
        congr 1
        omega

theorem noAdjFree_cons' (x : Block) (xs : List Block) :
    noAdjFree (x :: xs) =
      ((xs.head?.elim true
        (fun y => !(decide (0 < x.hdr) && decide (0 < y.hdr)))) && noAdjFree xs) := by
  match xs with
  | [] => rfl
  | y :: xs => rfl

theorem noAdjFree_break (xs : List Block) (y : Block) (ys : List Block) :
    noAdjFree (xs ++ y :: ys) = (noAdjFree (xs ++ [y]) && noAdjFree (y :: ys)) := by
  induction xs with
  | nil =>
    simp only [List.nil_append]
    rw [show noAdjFree [y] = true from rfl, Bool.true_and]
  | cons x xs ih =>
    match xs, ih with
    | [], ih =>
      rw [List.cons_append, List.nil_append, List.cons_append, List.nil_append,
        noAdjFree_cons₂ x y, noAdjFree_cons₂ x y,
        show noAdjFree [y] = true from rfl, Bool.and_true]
    | w :: xs, ih =>
      simp only [List.cons_append]
      rw [noAdjFree_cons₂ x w, noAdjFree_cons₂ x w]
      simp only [List.cons_append] at ih
      rw [ih, Bool.and_assoc]

theorem noAdjFree_snoc_not_free (L : List Block) (b b' : Block) (hb' : ¬ 0 < b'.hdr)
    (h : noAdjFree (L ++ [b]) = true) : noAdjFree (L ++ [b']) = true := by
  induction L with
  | nil => rfl
  | cons x L ih =>
    match L, ih, h with
    | [], ih, h =>
      simp only [List.nil_append, List.cons_append] at h ⊢
      rw [noAdjFree_cons₂] at h ⊢
      simp [hb', show noAdjFree [b'] = true from rfl]
    | w :: L, ih, h =>
      simp only [List.cons_append] at h ⊢
      rw [noAdjFree_cons₂] at h ⊢
      rw [Bool.and_eq_true] at h ⊢
      simp only [List.cons_append] at ih
      exact ⟨h.1, ih h.2⟩

theorem noAdjFree_mid_mono (L : List Block) (b b' : Block) (R : List Block)
    (himp : 0 < b'.hdr → 0 < b.hdr) (h : noAdjFree (L ++ b :: R) = true) :
    noAdjFree (L ++ b' :: R) = true := by
  by_cases hb' : 0 < b'.hdr
  · rwa [noAdjFree_mid L b b' R (by simp [hb', himp hb'])]
  · rw [noAdjFree_break] at h ⊢
    rw [Bool.and_eq_true] at h ⊢
    refine ⟨noAdjFree_snoc_not_free L b b' hb' h.1, ?_⟩
    have h2 := h.2
    rw [noAdjFree_cons'] at h2 ⊢
    rw [Bool.and_eq_true] at h2 ⊢
    refine ⟨?_, h2.2⟩
    match hR : R.head? with
    | none => simp
    | some z => simp [hb']

theorem getBlk_writePtr_shape (bs : List Block) (q off : Nat) (v : Option Nat) (bq : Block)
    (hbq : getBlk bs q = some bq) (h8 : 8 ≤ bq.data.length) (hoff : off = 4 ∨ off = 8)
    (x : Nat) (c : Block) (hc : getBlk bs x = some c) :
    ∃ c', getBlk (writePtrAt bs (q + off) v) x = some c' ∧ c'.hdr = c.hdr ∧
      c'.ftr = c.ftr ∧ c'.data.length = c.data.length := by
  by_cases hxq : x = q
  · subst hxq
    have hcb : c = bq := by rw [hc] at hbq; exact Option.some.inj hbq
    subst hcb
    exact ⟨_, getBlk_writePtr_same bs x c off v hc h8 hoff, rfl, rfl,
      by simp [writeCells_length]⟩
  · exact ⟨c, by rw [getBlk_writePtr_ne bs q bq off v hbq h8 hoff x hxq]; exact hc,
      rfl, rfl, rfl⟩

theorem getBlk_addNode_shape (s : AState) (n : Nat) (bn : Block)
    (hbn : getBlk s.mem n = some bn) (h8 : 8 ≤ bn.data.length)
    (hhead : ∀ h, s.fl.head? = some h →
      ∃ bh, getBlk s.mem h = some bh ∧ 8 ≤ bh.data.length)
    (x : Nat) (c : Block) (hc : getBlk s.mem x = some c) :
    ∃ c', getBlk (addNode s n).mem x = some c' ∧ c'.hdr = c.hdr ∧
      c'.ftr = c.ftr ∧ c'.data.length = c.data.length := by
  rw [addNode_spec]
  have hn0 : ∃ b, getBlk s.mem n = some b ∧ 8 ≤ b.data.length := ⟨bn, hbn, h8⟩
  rcases getBlk_writePtr_shape s.mem n 4 s.fl.head? bn hbn h8 (Or.inl rfl) x c hc with
    ⟨c1, hc1, e1, f1, g1⟩
  rcases blk8_writePtr s.mem n 4 s.fl.head? n hn0 hn0 (Or.inl rfl) with ⟨bn1, hbn1, h81⟩
  rcases getBlk_writePtr_shape _ n 8 none bn1 hbn1 h81 (Or.inr rfl) x c1 hc1 with
    ⟨c2, hc2, e2, f2, g2⟩
  match hh : s.fl.head? with
  | none =>
    rw [hh] at hc2
    simp only [Option.elim]
    exact ⟨c2, hc2, by rw [e2, e1], by rw [f2, f1], by rw [g2, g1]⟩
  | some h =>
    rw [hh] at hc2 hbn1
    have hh1 : ∃ bh, getBlk (writePtrAt s.mem (n + 4) (some h)) h = some bh ∧
        8 ≤ bh.data.length :=
      blk8_writePtr s.mem n 4 (some h) h ⟨bn, hbn, h8⟩ (hhead h hh) (Or.inl rfl)
    rcases blk8_writePtr _ n 8 none h ⟨bn1, hbn1, h81⟩ hh1 (Or.inr rfl) with
      ⟨bh2, hbh2, h82⟩
    rcases getBlk_writePtr_shape _ h 8 (some n) bh2 hbh2 h82 (Or.inr rfl) x c2 hc2 with
      ⟨c3, hc3, e3, f3, g3⟩
    simp only [Option.elim]
    exact ⟨c3, hc3, by rw [e3, e2, e1], by rw [f3, f2, f1], by rw [g3, g2, g1]⟩

theorem getBlk_removeNode' (s : AState) (a : Nat) (l1 l2 : List Nat)
    (hfl : s.fl = l1 ++ a :: l2) (hna : a ∉ l1)
    (hlast : ∀ p, l1.getLast? = some p →
      ∃ bp, getBlk s.mem p = some bp ∧ 8 ≤ bp.data.length)
    (hhead : ∀ nx, l2.head? = some nx →
      ∃ bn, getBlk s.mem nx = some bn ∧ 8 ≤ bn.data.length)
    (hpn : ∀ p nx, l1.getLast? = some p → l2.head? = some nx → nx ≠ p)
    (x : Nat) (hx1 : ∀ p, l1.getLast? = some p → x ≠ p)
    (hx2 : ∀ nx, l2.head? = some nx → x ≠ nx) :
    getBlk (removeNode s a).mem x = getBlk s.mem x := by
  rw [removeNode_spec s a l1 l2 hfl hna]
  match hl1 : l1.getLast? with
  | none =>
    match hl2 : l2.head? with
    | none => simp
    | some nx =>
      rcases hhead nx hl2 with ⟨bn, hbn, h8⟩
      simp only [Option.elim]
      exact getBlk_writePtr_ne s.mem nx bn 8 none hbn h8 (Or.inr rfl) x (hx2 nx hl2)
  | some p =>
    rcases hlast p hl1 with ⟨bp, hbp, hp8⟩
    match hl2 : l2.head? with
    | none =>
      simp only [Option.elim]
      exact getBlk_writePtr_ne s.mem p bp 4 none hbp hp8 (Or.inl rfl) x (hx1 p hl1)
    | some nx =>
      rcases hhead nx hl2 with ⟨bn, hbn, hn8⟩
      have hbn1 : getBlk (writePtrAt s.mem (p + 4) (some nx)) nx = some bn := by
        rw [getBlk_writePtr_ne s.mem p bp 4 (some nx) hbp hp8 (Or.inl rfl) nx
          (hpn p nx hl1 hl2)]
        exact hbn
      simp only [Option.elim]
      rw [getBlk_writePtr_ne _ nx bn 8 (some p) hbn1 hn8 (Or.inr rfl) x (hx2 nx hl2)]
      exact getBlk_writePtr_ne s.mem p bp 4 (some nx) hbp hp8 (Or.inl rfl) x (hx1 p hl1)

theorem inv_removeNode' (s : AState) (a : Nat) (l1 l2 : List Nat)
    (hfl : s.fl = l1 ++ a :: l2) (hna : a ∉ l1)
    (hlast : ∀ p, l1.getLast? = some p →
      ∃ bp, getBlk s.mem p = some bp ∧ 8 ≤ bp.data.length)
    (hhead : ∀ nx, l2.head? = some nx →
      ∃ bn, getBlk s.mem nx = some bn ∧ 8 ≤ bn.data.length)
    (hpn : ∀ p nx, l1.getLast? = some p → l2.head? = some nx → nx ≠ p) :
    memLen (removeNode s a).mem = memLen s.mem ∧
    freeAddrs (removeNode s a).mem = freeAddrs s.mem ∧
    noAdjFree (removeNode s a).mem = noAdjFree s.mem ∧
    ((∀ b ∈ s.mem, goodBlock b = true) →
      ∀ b ∈ (removeNode s a).mem, goodBlock b = true) := by
  rw [removeNode_spec s a l1 l2 hfl hna]
  match hl1 : l1.getLast? with
  | none =>
    match hl2 : l2.head? with
    | none => simp
    | some nx =>
      rcases hhead nx hl2 with ⟨bn, hbn, h8⟩
      simp only [Option.elim]
      exact inv_writePtr s.mem nx 8 none bn hbn h8 (Or.inr rfl)
  | some p =>
    rcases hlast p hl1 with ⟨bp, hbp, hp8⟩
    match hl2 : l2.head? with
    | none =>
      simp only [Option.elim]
      exact inv_writePtr s.mem p 4 none bp hbp hp8 (Or.inl rfl)
    | some nx =>
      rcases hhead nx hl2 with ⟨bn, hbn, hn8⟩
      have h1 := inv_writePtr s.mem p 4 (some nx) bp hbp hp8 (Or.inl rfl)
      rcases blk8_writePtr s.mem p 4 (some nx) nx ⟨bp, hbp, hp8⟩ ⟨bn, hbn, hn8⟩
        (Or.inl rfl) with ⟨bn1, hbn1, h81⟩
      have h2 := inv_writePtr _ nx 8 (some p) bn1 hbn1 h81 (Or.inr rfl)
      simp only [Option.elim]
      exact ⟨h2.1.trans h1.1, h2.2.1.trans h1.2.1, h2.2.2.1.trans h1.2.2.1,
        fun hg => h2.2.2.2 (h1.2.2.2 hg)⟩

theorem myalloc_split (s : AState) (size : Int) (a : Nat) (b : Block) (l1 l2 : List Nat)
    (hw : wf s = true) (hf : findHead s size = some a) (hb : getBlk s.mem a = some b)
    (hfl : s.fl = l1 ++ a :: l2) (hsplt : b.hdr > max size 8 + 16) :
    myalloc s size =
      ({ removeNode (addNode (splitBlock s a (max size 8)).1
           (a + 8 + (max size 8).toNat)) a with
         mem := updBlk
           (fun c => { c with hdr := -(max size 8), ftr := -(max size 8) })
           (removeNode (addNode (splitBlock s a (max size 8)).1
             (a + 8 + (max size 8).toNat)) a).mem a },
       some (a + 4)) := by
  rcases wf_nodup_parts s hw a l1 l2 hfl with ⟨hna, hna2, hdisj⟩
  have hafl : a ∈ s.fl := by rw [hfl]; exact List.mem_append_right _ (List.mem_cons_self _ _)
  rcases wf_fl_getBlk s hw a hafl with ⟨b', hb', h8b, hfb, hlenb⟩
  have hbb : b' = b := by rw [hb] at hb'; exact (Option.some.inj hb').symm
  subst hbb
  rcases decomp_of_getBlk s.mem a b' hb with ⟨L, R, hbs, hadr⟩
  have hrd : readIntAt s.mem a = b'.hdr := readIntAt_getBlk _ _ _ hb
  have htn : (max size 8).toNat + 16 < b'.data.length := by omega
  have htpos : (8 : Int) ≤ max size 8 := le_max_right _ _
  have hpre_len : (b'.data.take (max size 8).toNat).length = (max size 8).toNat := by
    simp
    omega
  have hpre_size : ({ hdr := max size 8, data := b'.data.take (max size 8).toNat,
                      ftr := max size 8 } : Block).size = (max size 8).toNat + 8 := by
    simp [Block.size]
    omega
  have hsuf_len : (b'.data.drop ((max size 8).toNat + 8)).length
      = b'.data.length - ((max size 8).toNat + 8) := by simp
  have hsplitmem : splitBlockMem s.mem a (max size 8) =
      L ++ ({ hdr := max size 8, data := b'.data.take (max size 8).toNat,
                ftr := max size 8 } : Block) ::
        ({ hdr := b'.hdr - max size 8 - 8, data := b'.data.drop ((max size 8).toNat + 8),
             ftr := b'.hdr - max size 8 - 8 } : Block) :: R := by
    rw [hbs, hadr, splitBlockMem_decomp]
  have hsizes : ({ hdr := max size 8, data := b'.data.take (max size 8).toNat,
                   ftr := max size 8 } : Block).size +
      ({ hdr := b'.hdr - max size 8 - 8, data := b'.data.drop ((max size 8).toNat + 8),
           ftr := b'.hdr - max size 8 - 8 } : Block).size = b'.size := by
    simp [Block.size, hpre_len, hsuf_len]
    omega
  have hsufaddr : a + 8 + (max size 8).toNat = memLen L + ((max size 8).toNat + 8) := by
    omega
  have hgetpre : getBlk (splitBlockMem s.mem a (max size 8)) a =
      some ({ hdr := max size 8, data := b'.data.take (max size 8).toNat,
                ftr := max size 8 } : Block) := by
    rw [hsplitmem, hadr, getBlk_decomp]
  have hgetsuf : getBlk (splitBlockMem s.mem a (max size 8)) (a + 8 + (max size 8).toNat) =
      some ({ hdr := b'.hdr - max size 8 - 8,
                data := b'.data.drop ((max size 8).toNat + 8),
                ftr := b'.hdr - max size 8 - 8 } : Block) := by
    rw [hsplitmem, hsufaddr, ← hpre_size, getBlk_append_ge _ _ _ (by omega)]
    have e : memLen L + ({ hdr := max size 8, data := b'.data.take (max size 8).toNat,
                           ftr := max size 8 } : Block).size - memLen L =
        ({ hdr := max size 8, data := b'.data.take (max size 8).toNat,
             ftr := max size 8 } : Block).size := by omega
    rw [e, getBlk_cons_skip _ _ _ (le_refl _), Nat.sub_self, getBlk, if_pos rfl]
  have hsufnone : getBlk s.mem (a + 8 + (max size 8).toNat) = none := by
    rw [hbs, hsufaddr, getBlk_append_ge _ _ _ (by omega)]
    have e : memLen L + ((max size 8).toNat + 8) - memLen L = (max size 8).toNat + 8 := by
      omega
    rw [e]
    exact getBlk_cons_mid b' R _ (by omega) (by simp [Block.size]; omega)
  have hflne : ∀ y ∈ s.fl, y ≠ a + 8 + (max size 8).toNat := by
    intro y hy he
    rcases wf_fl_getBlk s hw y hy with ⟨c, hc, -, -, -⟩
    rw [he, hsufnone] at hc
    exact Option.noConfusion hc
  have hsplit_other : ∀ y, y ≠ a → y ≠ a + 8 + (max size 8).toNat →
      getBlk (splitBlockMem s.mem a (max size 8)) y = getBlk s.mem y := by
    intro y hy1 hy2
    rw [hsplitmem, hbs]
    exact getBlk_two_blocks L b' _ _ R hsizes y (by omega) (by rw [← hpre_size] at hsufaddr; omega)
  have hs'mem : ((splitBlock s a (max size 8)).1).mem = splitBlockMem s.mem a (max size 8) :=
    rfl
  have hhead8 : ∀ h, ((splitBlock s a (max size 8)).1).fl.head? = some h →
      ∃ bh, getBlk ((splitBlock s a (max size 8)).1).mem h = some bh ∧
        8 ≤ bh.data.length := by
    intro h hh
    have hhm : h ∈ s.fl := List.mem_of_mem_head? hh
    by_cases hha : h = a
    · subst hha
      exact ⟨_, by rw [hs'mem]; exact hgetpre, by rw [hpre_len]; omega⟩
    · rcases wf_fl_getBlk s hw h hhm with ⟨bh, hbh, h8h, -, hlh⟩
      exact ⟨bh, by rw [hs'mem, hsplit_other h hha (hflne h hhm)]; exact hbh, by omega⟩
  have hsuf8 : 8 ≤ (b'.data.drop ((max size 8).toNat + 8)).length := by
    rw [hsuf_len]; omega
  rcases getBlk_addNode_shape ((splitBlock s a (max size 8)).1) (a + 8 + (max size 8).toNat)
      _ (by rw [hs'mem]; exact hgetsuf) hsuf8 hhead8 a _ (by rw [hs'mem]; exact hgetpre)
    with ⟨c1, hc1, e1, f1, g1⟩
  have hs1fl : (addNode (splitBlock s a (max size 8)).1 (a + 8 + (max size 8).toNat)).fl
      = (a + 8 + (max size 8).toNat) :: s.fl := rfl
  have hasuf : a ≠ a + 8 + (max size 8).toNat := by omega
  have hblk_s1 : ∀ y ∈ s.fl, ∃ c,
      getBlk (addNode (splitBlock s a (max size 8)).1
        (a + 8 + (max size 8).toNat)).mem y = some c ∧ 8 ≤ c.data.length := by
    intro y hy
    by_cases hya : y = a
    · subst hya
      exact ⟨c1, hc1, by rw [g1, hpre_len]; omega⟩
    · rcases wf_fl_getBlk s hw y hy with ⟨cy, hcy, h8y, -, hly⟩
      rcases getBlk_addNode_shape ((splitBlock s a (max size 8)).1)
          (a + 8 + (max size 8).toNat) _ (by rw [hs'mem]; exact hgetsuf) hsuf8 hhead8 y cy
          (by rw [hs'mem, hsplit_other y hya (hflne y hy)]; exact hcy)
        with ⟨cy', hcy', -, -, gly⟩
      exact ⟨cy', hcy', by omega⟩
  have hblk_s1suf : ∃ c,
      getBlk (addNode (splitBlock s a (max size 8)).1
        (a + 8 + (max size 8).toNat)).mem (a + 8 + (max size 8).toNat)
        = some c ∧ 8 ≤ c.data.length := by
    rcases getBlk_addNode_shape ((splitBlock s a (max size 8)).1)
        (a + 8 + (max size 8).toNat) _ (by rw [hs'mem]; exact hgetsuf) hsuf8 hhead8
        (a + 8 + (max size 8).toNat) _ (by rw [hs'mem]; exact hgetsuf)
      with ⟨c2, hc2, -, -, g2⟩
    exact ⟨c2, hc2, by rw [g2, hsuf_len]; omega⟩
  have hrm : getBlk (removeNode (addNode (splitBlock s a (max size 8)).1
      (a + 8 + (max size 8).toNat)) a).mem a = some c1 := by
    rw [getBlk_removeNode' _ a ((a + 8 + (max size 8).toNat) :: l1) l2
      (by rw [hs1fl, hfl]; rfl)
      (by intro hm; rcases List.mem_cons.mp hm with he | hm
          · exact hasuf he
          · exact hna hm)
      (by intro p hp
          rcases List.mem_cons.mp (List.mem_of_mem_getLast? hp) with rfl | hpm
          · exact hblk_s1suf
          · exact hblk_s1 p (by rw [hfl]; exact List.mem_append_left _ hpm))
      (by intro nx hnx
          exact hblk_s1 nx (by rw [hfl]
                               exact List.mem_append_right _
                                 (List.mem_cons_of_mem _ (List.mem_of_mem_head? hnx))))
      (by intro p nx hp hnx
          have hnxm : nx ∈ s.fl := by
            rw [hfl]
            exact List.mem_append_right _ (List.mem_cons_of_mem _ (List.mem_of_mem_head? hnx))
          rcases List.mem_cons.mp (List.mem_of_mem_getLast? hp) with rfl | hpm
          · exact hflne nx hnxm
          · intro he
            exact hdisj p hpm (he ▸ List.mem_of_mem_head? hnx))
      a
      (by intro p hp
          rcases List.mem_cons.mp (List.mem_of_mem_getLast? hp) with rfl | hpm
          · exact hasuf
          · exact fun he => hna (he ▸ hpm))
      (by intro nx hnx
          exact fun he => hna2 (he ▸ List.mem_of_mem_head? hnx))]
    exact hc1
  have hrd2 : readIntAt (removeNode (addNode (splitBlock s a (max size 8)).1
      (a + 8 + (max size 8).toNat)) a).mem a = max size 8 := by
    rw [readIntAt_getBlk _ _ _ hrm, e1]
  simp only [myalloc, hf, hrd, if_pos hsplt, splitBlock_snd, hrd2]
  rw [writeIntAt_updBlk_hdr _ a (-(max size 8)) c1 hrm]
  have hR3 : getBlk (updBlk (fun c => { c with hdr := -(max size 8) })
      (removeNode (addNode (splitBlock s a (max size 8)).1
        (a + 8 + (max size 8).toNat)) a).mem a) a
      = some { c1 with hdr := -(max size 8) } := by
    rw [getBlk_updBlk_same, hrm]; rfl
  have haddr : a + 4 + (max size 8).toNat
      = a + (4 + ({ c1 with hdr := -(max size 8) } : Block).data.length) := by
    simp only []
    rw [g1, hpre_len]
    omega
  rw [haddr, writeIntAt_updBlk_ftr _ a (-(max size 8)) _ hR3, updBlk_updBlk_same]

/-! #### Skeleton congruence -/

theorem memLen_eq_of_skel (bs bs' : List Block) (h : skel bs = skel bs') :
    memLen bs = memLen bs' := by
  induction bs generalizing bs' with
  | nil => match bs' with | [] => rfl
  | cons b bs ih =>
    match bs' with
    | b' :: bs' =>
      simp only [skel, List.map_cons, List.cons.injEq, Prod.mk.injEq] at h
      rw [memLen_cons, memLen_cons, ih bs' h.2, Block.size, Block.size, h.1.2]

theorem freeAddrsGo_eq_of_skel (bs bs' : List Block) (h : skel bs = skel bs') :
    ∀ base, freeAddrsGo bs base = freeAddrsGo bs' base := by
  induction bs generalizing bs' with
  | nil => match bs' with | [] => intro base; rfl
  | cons b bs ih =>
    match bs' with
    | b' :: bs' =>
      intro base
      simp only [skel, List.map_cons, List.cons.injEq, Prod.mk.injEq] at h
      rw [freeAddrsGo, freeAddrsGo, Block.size, Block.size, h.1.2, ih bs' h.2, h.1.1]

theorem freeAddrs_eq_of_skel (bs bs' : List Block) (h : skel bs = skel bs') :
    freeAddrs bs = freeAddrs bs' := freeAddrsGo_eq_of_skel bs bs' h 0

theorem noAdjFree_eq_of_skel (bs bs' : List Block) (h : skel bs = skel bs') :
    noAdjFree bs = noAdjFree bs' := by
  induction bs generalizing bs' with
  | nil => match bs' with | [] => rfl
  | cons b bs ih =>
    match bs' with
    | b' :: bs' =>
      simp only [skel, List.map_cons, List.cons.injEq, Prod.mk.injEq] at h
      rw [noAdjFree_cons', noAdjFree_cons', ih bs' h.2, h.1.1]
      match bs, bs', h.2 with
      | [], [], _ => rfl
      | c :: bs, c' :: bs', h2 =>
        simp only [skel, List.map_cons, List.cons.injEq, Prod.mk.injEq] at h2
        simp [h2.1.1]

theorem skel_updBlk (f : Block → Block) (bs : List Block) (a : Nat)
    (hf : ∀ b, (f b).hdr = b.hdr ∧ (f b).data.length = b.data.length) :
    skel (updBlk f bs a) = skel bs := by
  match h : getBlk bs a with
  | none => rw [updBlk_none f bs a h]
  | some b =>
    rcases decomp_of_getBlk bs a b h with ⟨L, R, rfl, rfl⟩
    rw [updBlk_decomp]
    simp [skel, (hf b).1, (hf b).2]

theorem skel_writePtr (bs : List Block) (q off : Nat) (v : Option Nat) (bq : Block)
    (hbq : getBlk bs q = some bq) (h8 : 8 ≤ bq.data.length) (hoff : off = 4 ∨ off = 8) :
    skel (writePtrAt bs (q + off) v) = skel bs := by
  rw [writePtrAt, writePayloadAt_updBlk bs q off (ptrCells v) bq hbq (by omega)
      (by simp [ptrCells]; omega),
    skel_updBlk (fun c => { hdr := c.hdr, data := writeCells c.data (off - 4) (ptrCells v), ftr := c.ftr }) bs q
      (fun b => ⟨rfl, writeCells_length (ptrCells v) b.data (off - 4)⟩)]

theorem skel_removeNode (s : AState) (a : Nat) (l1 l2 : List Nat)
    (hfl : s.fl = l1 ++ a :: l2) (hna : a ∉ l1)
    (hlast : ∀ p, l1.getLast? = some p →
      ∃ bp, getBlk s.mem p = some bp ∧ 8 ≤ bp.data.length)
    (hhead : ∀ nx, l2.head? = some nx →
      ∃ bn, getBlk s.mem nx = some bn ∧ 8 ≤ bn.data.length) :
    skel (removeNode s a).mem = skel s.mem := by
  rw [removeNode_spec s a l1 l2 hfl hna]
  match hl1 : l1.getLast? with
  | none =>
    match hl2 : l2.head? with
    | none => simp
    | some nx =>
      rcases hhead nx hl2 with ⟨bn, hbn, h8⟩
      simp only [Option.elim]
      exact skel_writePtr s.mem nx 8 none bn hbn h8 (Or.inr rfl)
  | some p =>
    rcases hlast p hl1 with ⟨bp, hbp, hp8⟩
    match hl2 : l2.head? with
    | none =>
      simp only [Option.elim]
      exact skel_writePtr s.mem p 4 none bp hbp hp8 (Or.inl rfl)
    | some nx =>
      rcases hhead nx hl2 with ⟨bn, hbn, hn8⟩
      rcases blk8_writePtr s.mem p 4 (some nx) nx ⟨bp, hbp, hp8⟩ ⟨bn, hbn, hn8⟩
        (Or.inl rfl) with ⟨bn1, hbn1, h81⟩
      simp only [Option.elim]
      rw [skel_writePtr _ nx 8 (some p) bn1 hbn1 h81 (Or.inr rfl),
        skel_writePtr s.mem p 4 (some nx) bp hbp hp8 (Or.inl rfl)]

theorem skel_addNode (s : AState) (n : Nat) (bn : Block)
    (hbn : getBlk s.mem n = some bn) (h8 : 8 ≤ bn.data.length)
    (hhead : ∀ h, s.fl.head? = some h →
      ∃ bh, getBlk s.mem h = some bh ∧ 8 ≤ bh.data.length) :
    skel (addNode s n).mem = skel s.mem := by
  rw [addNode_spec]
  have hn0 : ∃ b, getBlk s.mem n = some b ∧ 8 ≤ b.data.length := ⟨bn, hbn, h8⟩
  rcases blk8_writePtr s.mem n 4 s.fl.head? n hn0 hn0 (Or.inl rfl) with ⟨bn1, hbn1, h81⟩
  match hh : s.fl.head? with
  | none =>
    simp only [Option.elim]
    rw [hh] at hbn1
    rw [skel_writePtr _ n 8 none bn1 hbn1 h81 (Or.inr rfl),
      skel_writePtr s.mem n 4 none bn hbn h8 (Or.inl rfl)]
  | some h =>
    simp only [Option.elim]
    rw [hh] at hbn1
    rcases blk8_writePtr _ n 8 none h ⟨bn1, hbn1, h81⟩
      (blk8_writePtr s.mem n 4 (some h) h hn0 (hhead h hh) (Or.inl rfl)) (Or.inr rfl)
      with ⟨bh2, hbh2, h82⟩
    rw [skel_writePtr _ h 8 (some n) bh2 hbh2 h82 (Or.inr rfl),
      skel_writePtr _ n 8 none bn1 hbn1 h81 (Or.inr rfl),
      skel_writePtr s.mem n 4 (some h) bn hbn h8 (Or.inl rfl)]

theorem skel_parts (L1 : List Block) (b1 : Block) (R1 : List Block)
    (L2 : List Block) (b2 : Block) (R2 : List Block)
    (hsk : skel (L1 ++ b1 :: R1) = skel (L2 ++ b2 :: R2)) (hlen : memLen L1 = memLen L2) :
    skel L1 = skel L2 ∧ b1.hdr = b2.hdr ∧ b1.data.length = b2.data.length ∧
      skel R1 = skel R2 := by
  induction L1 generalizing L2 with
  | nil =>
    match L2 with
    | [] =>
      simp only [List.nil_append, skel, List.map_cons, List.cons.injEq, Prod.mk.injEq] at hsk
      exact ⟨rfl, hsk.1.1, hsk.1.2, hsk.2⟩
    | c :: L2 =>
      rw [memLen_nil, memLen_cons] at hlen
      have := c.size_pos
      omega
  | cons x L1 ih =>
    match L2 with
    | [] =>
      rw [memLen_nil, memLen_cons] at hlen
      have := x.size_pos
      omega
    | y :: L2 =>
      simp only [List.cons_append, skel, List.map_cons, List.cons.injEq, Prod.mk.injEq] at hsk
      rw [memLen_cons, memLen_cons] at hlen
      have hxy : x.size = y.size := by rw [Block.size, Block.size, hsk.1.2]
      rcases ih L2 (by exact hsk.2) (by omega) with ⟨e1, e2, e3, e4⟩
      refine ⟨?_, e2, e3, e4⟩
      simp only [skel, List.map_cons, List.cons.injEq, Prod.mk.injEq]
      exact ⟨hsk.1, e1⟩

/-! #### Free-address accounting across a tag flip and a split -/

theorem freeAddrsGo_bounds (bs : List Block) (base y : Nat)
    (hy : y ∈ freeAddrsGo bs base) : base ≤ y ∧ y < base + memLen bs := by
  rcases (freeAddrsGo_mem bs base y).mp hy with ⟨L, c, R, hbs, -, rfl⟩
  subst hbs
  rw [memLen_append, memLen_cons]
  have := c.size_pos
  omega

/-- Marking the block at `memLen L` allocated (size unchanged) removes
exactly its address from the free-address list. -/
theorem freeAddrs_mid_alloc (L : List Block) (b b' : Block) (R : List Block)
    (hb : 0 < b.hdr) (hb' : ¬ 0 < b'.hdr) (hsz : b'.size = b.size) (y : Nat) :
    y ∈ freeAddrs (L ++ b' :: R) ↔ y ∈ freeAddrs (L ++ b :: R) ∧ y ≠ memLen L := by
  rw [freeAddrs, freeAddrs, freeAddrsGo_append, freeAddrsGo_append,
    freeAddrsGo, freeAddrsGo, if_neg hb', if_pos hb, hsz]
  simp only [List.mem_append, List.mem_cons, Nat.zero_add]
  constructor
  · rintro (hL | hR)
    · rcases freeAddrsGo_bounds L 0 y hL with ⟨-, h2⟩
      exact ⟨Or.inl hL, by omega⟩
    · rcases freeAddrsGo_bounds R (memLen L + b.size) y hR with ⟨h1, -⟩
      have := b.size_pos
      exact ⟨Or.inr (Or.inr hR), by omega⟩
  · rintro ⟨hL | he | hR, hne⟩
    · exact Or.inl hL
    · exact absurd he hne
    · exact Or.inr hR

/-- Splitting the free block at `memLen L` into an allocated prefix and a
free suffix replaces its address by the suffix address. -/
theorem freeAddrs_split_mid (L : List Block) (b pre suf : Block) (R : List Block)
    (hb : 0 < b.hdr) (hpre : ¬ 0 < pre.hdr) (hsuf : 0 < suf.hdr)
    (hsz : pre.size + suf.size = b.size) (y : Nat) :
    y ∈ freeAddrs (L ++ pre :: suf :: R) ↔
      (y = memLen L + pre.size ∨ (y ∈ freeAddrs (L ++ b :: R) ∧ y ≠ memLen L)) := by
  rw [freeAddrs, freeAddrs, freeAddrsGo_append, freeAddrsGo_append,
    freeAddrsGo, if_neg hpre, freeAddrsGo, if_pos hsuf, freeAddrsGo, if_pos hb]
  simp only [List.mem_append, List.mem_cons, Nat.zero_add]
  have harith : memLen L + pre.size + suf.size = memLen L + b.size := by omega
  rw [harith]
  have hpp := pre.size_pos
  have hbb := b.size_pos
  constructor
  · rintro (hL | he | hR)
    · rcases freeAddrsGo_bounds L 0 y hL with ⟨-, h2⟩
      exact Or.inr ⟨Or.inl hL, by omega⟩
    · exact Or.inl he
    · rcases freeAddrsGo_bounds R (memLen L + b.size) y hR with ⟨h1, -⟩
      exact Or.inr ⟨Or.inr (Or.inr hR), by omega⟩
  · rintro (he | ⟨hL | he | hR, hne⟩)
    · exact Or.inr (Or.inl he)
    · exact Or.inl hL
    · exact absurd he hne
    · exact Or.inr (Or.inr hR)

/-- Splitting a free block into an allocated prefix and an arbitrary
suffix preserves the absence of adjacent free blocks. -/
theorem noAdjFree_split (L : List Block) (b pre suf : Block) (R : List Block)
    (hpre : ¬ 0 < pre.hdr) (hb : 0 < b.hdr)
    (h : noAdjFree (L ++ b :: R) = true) :
    noAdjFree (L ++ pre :: suf :: R) = true := by
  rw [noAdjFree_break] at h
  rw [Bool.and_eq_true] at h
  rw [noAdjFree_break, Bool.and_eq_true]
  refine ⟨noAdjFree_snoc_not_free L b pre hpre h.1, ?_⟩
  have h2 := h.2
  rw [noAdjFree_cons'] at h2
  rw [Bool.and_eq_true] at h2
  rw [noAdjFree_cons₂, Bool.and_eq_true, noAdjFree_cons', Bool.and_eq_true]
  refine ⟨by simp [hpre], ?_, h2.2⟩
  match hR : R.head? with
  | none => simp
  | some z =>
    have := h2.1
    rw [hR] at this
    simp only [Option.elim] at this ⊢
    by_cases hz : 0 < z.hdr
    · simp [hb, hz] at this
    · simp [hz]

/-- Every block keeps its address, tags and payload length across
`removeNode` (link-field stores only). -/
theorem getBlk_removeNode_shape' (s : AState) (a : Nat) (l1 l2 : List Nat)
    (hfl : s.fl = l1 ++ a :: l2) (hna : a ∉ l1)
    (hlast : ∀ p, l1.getLast? = some p →
      ∃ bp, getBlk s.mem p = some bp ∧ 8 ≤ bp.data.length)
    (hhead : ∀ nx, l2.head? = some nx →
      ∃ bn, getBlk s.mem nx = some bn ∧ 8 ≤ bn.data.length)
    (x : Nat) (c : Block) (hc : getBlk s.mem x = some c) :
    ∃ c', getBlk (removeNode s a).mem x = some c' ∧ c'.hdr = c.hdr ∧
      c'.ftr = c.ftr ∧ c'.data.length = c.data.length := by
  rw [removeNode_spec s a l1 l2 hfl hna]
  match hl1 : l1.getLast? with
  | none =>
    match hl2 : l2.head? with
    | none => exact ⟨c, hc, rfl, rfl, rfl⟩
    | some nx =>
      rcases hhead nx hl2 with ⟨bn, hbn, h8⟩
      simp only [Option.elim]
      exact getBlk_writePtr_shape s.mem nx 8 none bn hbn h8 (Or.inr rfl) x c hc
  | some p =>
    rcases hlast p hl1 with ⟨bp, hbp, hp8⟩
    match hl2 : l2.head? with
    | none =>
      simp only [Option.elim]
      exact getBlk_writePtr_shape s.mem p 4 none bp hbp hp8 (Or.inl rfl) x c hc
    | some nx =>
      rcases hhead nx hl2 with ⟨bn, hbn, hn8⟩
      rcases getBlk_writePtr_shape s.mem p 4 (some nx) bp hbp hp8 (Or.inl rfl) x c hc
        with ⟨c1, hc1, e1, f1, g1⟩
      rcases blk8_writePtr s.mem p 4 (some nx) nx ⟨bp, hbp, hp8⟩ ⟨bn, hbn, hn8⟩
        (Or.inl rfl) with ⟨bn1, hbn1, h81⟩
      rcases getBlk_writePtr_shape _ nx 8 (some p) bn1 hbn1 h81 (Or.inr rfl) x c1 hc1
        with ⟨c2, hc2, e2, f2, g2⟩
      simp only [Option.elim]
      exact ⟨c2, hc2, by rw [e2, e1], by rw [f2, f1], by rw [g2, g1]⟩

/-- Everything the invariants and the frame property need to know about a
non-splitting `myalloc`: result pointer, free list, the flipped tags at
the served block, shape preservation elsewhere (bit-exact outside the
free list), free-address accounting, and the invariant observations. -/
theorem myalloc_nosplit_obs (s : AState) (size : Int) (a : Nat) (b : Block)
    (l1 l2 : List Nat)
    (hw : wf s = true) (hf : findHead s size = some a) (hb : getBlk s.mem a = some b)
    (hfl : s.fl = l1 ++ a :: l2) (hns : ¬ b.hdr > max size 8 + 16) :
    (myalloc s size).2 = some (a + 4) ∧
    (myalloc s size).1.msize = s.msize ∧
    (myalloc s size).1.fl = l1 ++ l2 ∧
    getBlk (myalloc s size).1.mem a =
      some { hdr := -b.hdr, data := b.data, ftr := -b.hdr } ∧
    (∀ x, x ≠ a → ∀ c, getBlk s.mem x = some c →
      ∃ c', getBlk (myalloc s size).1.mem x = some c' ∧ c'.hdr = c.hdr ∧
        c'.ftr = c.ftr ∧ c'.data.length = c.data.length ∧ (x ∉ s.fl → c' = c)) ∧
    memLen (myalloc s size).1.mem = memLen s.mem ∧
    (∀ y, y ∈ freeAddrs (myalloc s size).1.mem ↔ y ∈ freeAddrs s.mem ∧ y ≠ a) ∧
    noAdjFree (myalloc s size).1.mem = true ∧
    (∀ c ∈ (myalloc s size).1.mem, goodBlock c = true) := by
  rcases wf_nodup_parts s hw a l1 l2 hfl with ⟨hna, hna2, hdisj⟩
  have hafl : a ∈ s.fl := by
    rw [hfl]; exact List.mem_append_right _ (List.mem_cons_self _ _)
  rcases wf_fl_getBlk s hw a hafl with ⟨b', hb', h8b, hfb, hlenb⟩
  have hbb : b' = b := by rw [hb] at hb'; exact (Option.some.inj hb').symm
  subst hbb
  have hflip : ∀ c : Block,
      ((fun c => ({ c with hdr := -b'.hdr, ftr := -b'.hdr } : Block)) c).size = c.size :=
    fun c => rfl
  have hrn : getBlk (removeNode s a).mem a = some b' :=
    (getBlk_removeNode s hw a l1 l2 hfl hna a hna hna2).trans hb
  have hlast : ∀ p, l1.getLast? = some p →
      ∃ bp, getBlk s.mem p = some bp ∧ 8 ≤ bp.data.length := by
    intro p hp
    have hpm : p ∈ s.fl := by
      rw [hfl]; exact List.mem_append_left _ (List.mem_of_mem_getLast? hp)
    rcases wf_fl_getBlk s hw p hpm with ⟨bp, hbp, h8p, -, hlp⟩
    exact ⟨bp, hbp, by omega⟩
  have hhead : ∀ nx, l2.head? = some nx →
      ∃ bn, getBlk s.mem nx = some bn ∧ 8 ≤ bn.data.length := by
    intro nx hnx
    have hnm : nx ∈ s.fl := by
      rw [hfl]
      exact List.mem_append_right _ (List.mem_cons_of_mem _ (List.mem_of_mem_head? hnx))
    rcases wf_fl_getBlk s hw nx hnm with ⟨bn, hbn, h8n, -, hln⟩
    exact ⟨bn, hbn, by omega⟩
  rcases decomp_of_getBlk (removeNode s a).mem a b' hrn with ⟨L2, R2, hdec, hadr2⟩
  have hinv := inv_removeNode s hw a l1 l2 hfl hna
  have hwparts := (wf_iff s).mp hw
  rw [myalloc_nosplit s size a b' l1 l2 hw hf hb hfl hns]
  refine ⟨rfl, ?_, ?_, ?_, ?_, ?_, ?_, ?_, ?_⟩
  · show (removeNode s a).msize = s.msize
    rw [removeNode_spec s a l1 l2 hfl hna]
  · show (removeNode s a).fl = l1 ++ l2
    rw [removeNode_spec s a l1 l2 hfl hna]
  · show getBlk (updBlk (fun c => ({ c with hdr := -b'.hdr, ftr := -b'.hdr } : Block))
        (removeNode s a).mem a) a = some { hdr := -b'.hdr, data := b'.data, ftr := -b'.hdr }
    rw [getBlk_updBlk_same, hrn]
    rfl
  · intro x hxa c hc
    rcases getBlk_removeNode_shape' s a l1 l2 hfl hna hlast hhead x c hc with
      ⟨c', hc', e', f', g'⟩
    refine ⟨c', ?_, e', f', g', ?_⟩
    · show getBlk (updBlk (fun c => ({ c with hdr := -b'.hdr, ftr := -b'.hdr } : Block))
          (removeNode s a).mem a) x = some c'
      rw [getBlk_updBlk_ne _ _ _ _ hflip hxa]
      exact hc'
    · intro hxfl
      have hx1 : x ∉ l1 := fun hm => hxfl (by rw [hfl]; exact List.mem_append_left _ hm)
      have hx2 : x ∉ l2 := fun hm => hxfl
        (by rw [hfl]; exact List.mem_append_right _ (List.mem_cons_of_mem _ hm))
      have hex := getBlk_removeNode s hw a l1 l2 hfl hna x hx1 hx2
      rw [hex, hc] at hc'
      exact (Option.some.inj hc').symm
  · show memLen (updBlk (fun c => ({ c with hdr := -b'.hdr, ftr := -b'.hdr } : Block))
        (removeNode s a).mem a) = memLen s.mem
    rw [memLen_updBlk _ _ _ hflip]
    exact hinv.1
  · intro y
    show y ∈ freeAddrs (updBlk
        (fun c => ({ c with hdr := -b'.hdr, ftr := -b'.hdr } : Block))
        (removeNode s a).mem a) ↔ y ∈ freeAddrs s.mem ∧ y ≠ a
    rw [hdec, hadr2, updBlk_decomp]
    show y ∈ freeAddrs (L2 ++ ({ b' with hdr := -b'.hdr, ftr := -b'.hdr } : Block) :: R2)
      ↔ y ∈ freeAddrs s.mem ∧ y ≠ memLen L2
    rw [freeAddrs_mid_alloc L2 b' ({ b' with hdr := -b'.hdr, ftr := -b'.hdr } : Block) R2
        (by omega) (by show ¬ (0 : Int) < -b'.hdr; omega) rfl y,
      ← hdec, hinv.2.1]
  · show noAdjFree (updBlk (fun c => ({ c with hdr := -b'.hdr, ftr := -b'.hdr } : Block))
        (removeNode s a).mem a) = true
    rw [hdec, hadr2, updBlk_decomp]
    refine noAdjFree_mid_mono L2 b' _ R2
      (by show (0 : Int) < -b'.hdr → 0 < b'.hdr; omega) ?_
    rw [← hdec, hinv.2.2.1]
    exact hwparts.2.2.2.2.2.2
  · intro c hcmem
    have hgood_rn : ∀ c ∈ (removeNode s a).mem, goodBlock c = true :=
      hinv.2.2.2 hwparts.2.2.1
    have hcmem2 : c ∈ updBlk
        (fun c => ({ c with hdr := -b'.hdr, ftr := -b'.hdr } : Block))
        (removeNode s a).mem a := hcmem
    rw [hdec, hadr2, updBlk_decomp] at hcmem2
    rcases List.mem_append.mp hcmem2 with hcl | hcr
    · exact hgood_rn c (by rw [hdec]; exact List.mem_append_left _ hcl)
    · rcases List.mem_cons.mp hcr with rfl | hcr2
      · rw [goodBlock_iff]
        refine ⟨rfl, ?_, ?_⟩
        · show b'.data.length = (-b'.hdr).natAbs
          rw [hlenb]
          omega
        · show 8 ≤ (-b'.hdr).natAbs
          omega
      · refine hgood_rn c ?_
        rw [hdec]
        exact List.mem_append_right _ (List.mem_cons_of_mem _ hcr2)

/-- Everything the invariants and the frame property need to know about a
splitting `myalloc`: result pointer, free list with the suffix pushed to
its head, tags and lengths of the allocated prefix and the free suffix,
shape preservation elsewhere (bit-exact outside the free list),
free-address accounting, and the invariant observations. -/
theorem myalloc_split_obs (s : AState) (size : Int) (a : Nat) (b : Block)
    (l1 l2 : List Nat)
    (hw : wf s = true) (hf : findHead s size = some a) (hb : getBlk s.mem a = some b)
    (hfl : s.fl = l1 ++ a :: l2) (hsplt : b.hdr > max size 8 + 16) :
    (myalloc s size).2 = some (a + 4) ∧
    (myalloc s size).1.msize = s.msize ∧
    (myalloc s size).1.fl = (a + 8 + (max size 8).toNat) :: (l1 ++ l2) ∧
    (∃ c, getBlk (myalloc s size).1.mem a = some c ∧ c.hdr = -(max size 8) ∧
      c.ftr = -(max size 8) ∧ c.data.length = (max size 8).toNat) ∧
    (∃ d, getBlk (myalloc s size).1.mem (a + 8 + (max size 8).toNat) = some d ∧
      d.hdr = b.hdr - max size 8 - 8 ∧ d.ftr = b.hdr - max size 8 - 8 ∧
      d.data.length = b.data.length - ((max size 8).toNat + 8)) ∧
    (∀ x, x ≠ a → x ≠ a + 8 + (max size 8).toNat → ∀ c, getBlk s.mem x = some c →
      ∃ c', getBlk (myalloc s size).1.mem x = some c' ∧ c'.hdr = c.hdr ∧
        c'.ftr = c.ftr ∧ c'.data.length = c.data.length ∧ (x ∉ s.fl → c' = c)) ∧
    memLen (myalloc s size).1.mem = memLen s.mem ∧
    (∀ y, y ∈ freeAddrs (myalloc s size).1.mem ↔
      (y = a + 8 + (max size 8).toNat ∨ (y ∈ freeAddrs s.mem ∧ y ≠ a))) ∧
    noAdjFree (myalloc s size).1.mem = true ∧
    (∀ c ∈ (myalloc s size).1.mem, goodBlock c = true) ∧
    getBlk s.mem (a + 8 + (max size 8).toNat) = none := by
  rcases wf_nodup_parts s hw a l1 l2 hfl with ⟨hna, hna2, hdisj⟩
  have hafl : a ∈ s.fl := by
    rw [hfl]; exact List.mem_append_right _ (List.mem_cons_self _ _)
  rcases wf_fl_getBlk s hw a hafl with ⟨b', hb', h8b, hfb, hlenb⟩
  have hbb : b' = b := by rw [hb] at hb'; exact (Option.some.inj hb').symm
  subst hbb
  rcases decomp_of_getBlk s.mem a b' hb with ⟨L, R, hbs, hadr⟩
  have htn : (max size 8).toNat + 16 < b'.data.length := by omega
  have htpos : (8 : Int) ≤ max size 8 := le_max_right _ _
  have hpre_len : (b'.data.take (max size 8).toNat).length = (max size 8).toNat := by
    simp
    omega
  have hpre_size : ({ hdr := max size 8, data := b'.data.take (max size 8).toNat,
                      ftr := max size 8 } : Block).size = (max size 8).toNat + 8 := by
    simp [Block.size]
    omega
  have hsuf_len : (b'.data.drop ((max size 8).toNat + 8)).length
      = b'.data.length - ((max size 8).toNat + 8) := by simp
  have hsplitmem : splitBlockMem s.mem a (max size 8) =
      L ++ ({ hdr := max size 8, data := b'.data.take (max size 8).toNat,
                ftr := max size 8 } : Block) ::
        ({ hdr := b'.hdr - max size 8 - 8, data := b'.data.drop ((max size 8).toNat + 8),
             ftr := b'.hdr - max size 8 - 8 } : Block) :: R := by
    rw [hbs, hadr, splitBlockMem_decomp]
  have hsizes : ({ hdr := max size 8, data := b'.data.take (max size 8).toNat,
                   ftr := max size 8 } : Block).size +
      ({ hdr := b'.hdr - max size 8 - 8, data := b'.data.drop ((max size 8).toNat + 8),
           ftr := b'.hdr - max size 8 - 8 } : Block).size = b'.size := by
    simp [Block.size, hpre_len, hsuf_len]
    omega
  have hsufaddr : a + 8 + (max size 8).toNat = memLen L + ((max size 8).toNat + 8) := by
    omega
  have hgetpre : getBlk (splitBlockMem s.mem a (max size 8)) a =
      some ({ hdr := max size 8, data := b'.data.take (max size 8).toNat,
                ftr := max size 8 } : Block) := by
    rw [hsplitmem, hadr, getBlk_decomp]
  have hgetsuf : getBlk (splitBlockMem s.mem a (max size 8)) (a + 8 + (max size 8).toNat) =
      some ({ hdr := b'.hdr - max size 8 - 8,
                data := b'.data.drop ((max size 8).toNat + 8),
                ftr := b'.hdr - max size 8 - 8 } : Block) := by
    rw [hsplitmem, hsufaddr, ← hpre_size, getBlk_append_ge _ _ _ (by omega)]
    have e : memLen L + ({ hdr := max size 8, data := b'.data.take (max size 8).toNat,
                           ftr := max size 8 } : Block).size - memLen L =
        ({ hdr := max size 8, data := b'.data.take (max size 8).toNat,
             ftr := max size 8 } : Block).size := by omega
    rw [e, getBlk_cons_skip _ _ _ (le_refl _), Nat.sub_self, getBlk, if_pos rfl]
  have hsufnone : getBlk s.mem (a + 8 + (max size 8).toNat) = none := by
    rw [hbs, hsufaddr, getBlk_append_ge _ _ _ (by omega)]
    have e : memLen L + ((max size 8).toNat + 8) - memLen L = (max size 8).toNat + 8 := by
      omega
    rw [e]
    exact getBlk_cons_mid b' R _ (by omega) (by simp [Block.size]; omega)
  have hflne : ∀ y ∈ s.fl, y ≠ a + 8 + (max size 8).toNat := by
    intro y hy he
    rcases wf_fl_getBlk s hw y hy with ⟨c, hc, -, -, -⟩
    rw [he, hsufnone] at hc
    exact Option.noConfusion hc
  have hsplit_other : ∀ y, y ≠ a → y ≠ a + 8 + (max size 8).toNat →
      getBlk (splitBlockMem s.mem a (max size 8)) y = getBlk s.mem y := by
    intro y hy1 hy2
    rw [hsplitmem, hbs]
    exact getBlk_two_blocks L b' _ _ R hsizes y (by omega)
      (by rw [← hpre_size] at hsufaddr; omega)
  have hs'mem : ((splitBlock s a (max size 8)).1).mem
      = splitBlockMem s.mem a (max size 8) := rfl
  have hhead8 : ∀ h, ((splitBlock s a (max size 8)).1).fl.head? = some h →
      ∃ bh, getBlk ((splitBlock s a (max size 8)).1).mem h = some bh ∧
        8 ≤ bh.data.length := by
    intro h hh
    have hhm : h ∈ s.fl := List.mem_of_mem_head? hh
    by_cases hha : h = a
    · subst hha
      exact ⟨_, by rw [hs'mem]; exact hgetpre, by rw [hpre_len]; omega⟩
    · rcases wf_fl_getBlk s hw h hhm with ⟨bh, hbh, h8h, -, hlh⟩
      exact ⟨bh, by rw [hs'mem, hsplit_other h hha (hflne h hhm)]; exact hbh, by omega⟩
  have hsuf8 : 8 ≤ (b'.data.drop ((max size 8).toNat + 8)).length := by
    rw [hsuf_len]; omega
  rcases getBlk_addNode_shape ((splitBlock s a (max size 8)).1)
      (a + 8 + (max size 8).toNat) _ (by rw [hs'mem]; exact hgetsuf) hsuf8 hhead8 a _
      (by rw [hs'mem]; exact hgetpre)
    with ⟨c1, hc1, e1, f1, g1⟩
  have hs1fl : (addNode (splitBlock s a (max size 8)).1 (a + 8 + (max size 8).toNat)).fl
      = (a + 8 + (max size 8).toNat) :: s.fl := rfl
  have hasuf : a ≠ a + 8 + (max size 8).toNat := by omega
  have hblk_s1 : ∀ y ∈ s.fl, ∃ c,
      getBlk (addNode (splitBlock s a (max size 8)).1
        (a + 8 + (max size 8).toNat)).mem y = some c ∧ 8 ≤ c.data.length := by
    intro y hy
    by_cases hya : y = a
    · subst hya
      exact ⟨c1, hc1, by rw [g1, hpre_len]; omega⟩
    · rcases wf_fl_getBlk s hw y hy with ⟨cy, hcy, h8y, -, hly⟩
      rcases getBlk_addNode_shape ((splitBlock s a (max size 8)).1)
          (a + 8 + (max size 8).toNat) _ (by rw [hs'mem]; exact hgetsuf) hsuf8 hhead8 y cy
          (by rw [hs'mem, hsplit_other y hya (hflne y hy)]; exact hcy)
        with ⟨cy', hcy', -, -, gly⟩
      exact ⟨cy', hcy', by omega⟩
  have hblk_s1suf : ∃ c,
      getBlk (addNode (splitBlock s a (max size 8)).1
        (a + 8 + (max size 8).toNat)).mem (a + 8 + (max size 8).toNat)
        = some c ∧ 8 ≤ c.data.length := by
    rcases getBlk_addNode_shape ((splitBlock s a (max size 8)).1)
        (a + 8 + (max size 8).toNat) _ (by rw [hs'mem]; exact hgetsuf) hsuf8 hhead8
        (a + 8 + (max size 8).toNat) _ (by rw [hs'mem]; exact hgetsuf)
      with ⟨c2, hc2, -, -, g2⟩
    exact ⟨c2, hc2, by rw [g2, hsuf_len]; omega⟩
  have hfl2 : (addNode (splitBlock s a (max size 8)).1
      (a + 8 + (max size 8).toNat)).fl = ((a + 8 + (max size 8).toNat) :: l1) ++ a :: l2 := by
    rw [hs1fl, hfl]
    rfl
  have hna' : a ∉ (a + 8 + (max size 8).toNat) :: l1 := by
    intro hm
    rcases List.mem_cons.mp hm with he | hm
    · exact hasuf he
    · exact hna hm
  have hlast' : ∀ p, ((a + 8 + (max size 8).toNat) :: l1).getLast? = some p →
      ∃ bp, getBlk (addNode (splitBlock s a (max size 8)).1
        (a + 8 + (max size 8).toNat)).mem p = some bp ∧ 8 ≤ bp.data.length := by
    intro p hp
    rcases List.mem_cons.mp (List.mem_of_mem_getLast? hp) with rfl | hpm
    · exact hblk_s1suf
    · exact hblk_s1 p (by rw [hfl]; exact List.mem_append_left _ hpm)
  have hhead' : ∀ nx, l2.head? = some nx →
      ∃ bn, getBlk (addNode (splitBlock s a (max size 8)).1
        (a + 8 + (max size 8).toNat)).mem nx = some bn ∧ 8 ≤ bn.data.length := by
    intro nx hnx
    refine hblk_s1 nx ?_
    rw [hfl]
    exact List.mem_append_right _ (List.mem_cons_of_mem _ (List.mem_of_mem_head? hnx))
  have hpn' : ∀ p nx, ((a + 8 + (max size 8).toNat) :: l1).getLast? = some p →
      l2.head? = some nx → nx ≠ p := by
    intro p nx hp hnx
    have hnxm : nx ∈ s.fl := by
      rw [hfl]
      exact List.mem_append_right _ (List.mem_cons_of_mem _ (List.mem_of_mem_head? hnx))
    rcases List.mem_cons.mp (List.mem_of_mem_getLast? hp) with rfl | hpm
    · exact hflne nx hnxm
    · intro he
      exact hdisj p hpm (he ▸ List.mem_of_mem_head? hnx)
  have hrm : getBlk (removeNode (addNode (splitBlock s a (max size 8)).1
      (a + 8 + (max size 8).toNat)) a).mem a = some c1 := by
    rw [getBlk_removeNode' _ a ((a + 8 + (max size 8).toNat) :: l1) l2 hfl2 hna'
      hlast' hhead' hpn' a
      (by intro p hp
          rcases List.mem_cons.mp (List.mem_of_mem_getLast? hp) with rfl | hpm
          · exact hasuf
          · exact fun he => hna (he ▸ hpm))
      (by intro nx hnx
          exact fun he => hna2 (he ▸ List.mem_of_mem_head? hnx))]
    exact hc1
  have hflip : ∀ c : Block,
      ((fun c => ({ c with hdr := -(max size 8), ftr := -(max size 8) } : Block)) c).size
        = c.size := fun c => rfl
  have hskel1 : skel (addNode (splitBlock s a (max size 8)).1
      (a + 8 + (max size 8).toNat)).mem = skel (splitBlockMem s.mem a (max size 8)) :=
    skel_addNode ((splitBlock s a (max size 8)).1) (a + 8 + (max size 8).toNat) _
      (by rw [hs'mem]; exact hgetsuf) hsuf8 hhead8
  have hskel2 : skel (removeNode (addNode (splitBlock s a (max size 8)).1
      (a + 8 + (max size 8).toNat)) a).mem
      = skel (splitBlockMem s.mem a (max size 8)) := by
    rw [skel_removeNode _ a ((a + 8 + (max size 8).toNat) :: l1) l2 hfl2 hna'
      hlast' hhead', hskel1]
  rcases decomp_of_getBlk _ a c1 hrm with ⟨L3, R3, hdec3, hadr3⟩
  have hlenL3 : memLen L3 = memLen L := by omega
  have hskparts := skel_parts L3 c1 R3 L
    ({ hdr := max size 8, data := b'.data.take (max size 8).toNat,
         ftr := max size 8 } : Block)
    (({ hdr := b'.hdr - max size 8 - 8, data := b'.data.drop ((max size 8).toNat + 8),
          ftr := b'.hdr - max size 8 - 8 } : Block) :: R)
    (by rw [← hdec3, hskel2, hsplitmem]) hlenL3
  have hskf : skel (L3 ++ ({ c1 with hdr := -(max size 8), ftr := -(max size 8) } : Block) :: R3) = skel (L ++ ({ hdr := -(max size 8), data := b'.data.take (max size 8).toNat, ftr := -(max size 8) } : Block) :: ({ hdr := b'.hdr - max size 8 - 8, data := b'.data.drop ((max size 8).toNat + 8), ftr := b'.hdr - max size 8 - 8 } : Block) :: R) := by
    have h1 : skel L3 = skel L := hskparts.1
    have h2 : skel R3 = skel (({ hdr := b'.hdr - max size 8 - 8, data := b'.data.drop ((max size 8).toNat + 8), ftr := b'.hdr - max size 8 - 8 } : Block) :: R) := hskparts.2.2.2
    have h3 : c1.data.length = (max size 8).toNat := by rw [g1, hpre_len]
    simp only [skel, List.map_append, List.map_cons] at h1 h2 ⊢
    rw [h1, h2, h3, hpre_len]
  have hfin : updBlk (fun c => ({ c with hdr := -(max size 8), ftr := -(max size 8) } : Block)) (removeNode (addNode (splitBlock s a (max size 8)).1 (a + 8 + (max size 8).toNat)) a).mem a = L3 ++ ({ c1 with hdr := -(max size 8), ftr := -(max size 8) } : Block) :: R3 := by
    rw [hdec3, hadr3, updBlk_decomp]
  have hgood : ∀ c ∈ s.mem, goodBlock c = true := (wf_iff s).mp hw |>.2.2.1
  have hgood_split : ∀ c ∈ splitBlockMem s.mem a (max size 8), goodBlock c = true := by
    intro c hc
    rw [hsplitmem] at hc
    rcases List.mem_append.mp hc with hcl | hcr
    · exact hgood c (by rw [hbs]; exact List.mem_append_left _ hcl)
    · rcases List.mem_cons.mp hcr with rfl | hcr2
      · rw [goodBlock_iff]
        refine ⟨rfl, ?_, ?_⟩
        · show (b'.data.take (max size 8).toNat).length = (max size 8).natAbs
          rw [hpre_len]
          omega
        · show 8 ≤ (max size 8).natAbs
          omega
      · rcases List.mem_cons.mp hcr2 with rfl | hcr3
        · rw [goodBlock_iff]
          refine ⟨rfl, ?_, ?_⟩
          · show (b'.data.drop ((max size 8).toNat + 8)).length
              = (b'.hdr - max size 8 - 8).natAbs
            rw [hsuf_len, hlenb]
            omega
          · show 8 ≤ (b'.hdr - max size 8 - 8).natAbs
            omega
        · exact hgood c (by rw [hbs]
                            exact List.mem_append_right _ (List.mem_cons_of_mem _ hcr3))
  have hgood_s2 : ∀ c ∈ (addNode (splitBlock s a (max size 8)).1
      (a + 8 + (max size 8).toNat)).mem, goodBlock c = true :=
    (inv_addNode ((splitBlock s a (max size 8)).1) (a + 8 + (max size 8).toNat) _
      (by rw [hs'mem]; exact hgetsuf) hsuf8 hhead8).2.2.2 hgood_split
  have hgood_s3 : ∀ c ∈ (removeNode (addNode (splitBlock s a (max size 8)).1
      (a + 8 + (max size 8).toNat)) a).mem, goodBlock c = true :=
    (inv_removeNode' _ a ((a + 8 + (max size 8).toNat) :: l1) l2 hfl2 hna'
      hlast' hhead' hpn').2.2.2 hgood_s2
  rw [myalloc_split s size a b' l1 l2 hw hf hb hfl hsplt]
  refine ⟨rfl, ?_, ?_, ?_, ?_, ?_, ?_, ?_, ?_, ?_, hsufnone⟩
  · show (removeNode (addNode (splitBlock s a (max size 8)).1
        (a + 8 + (max size 8).toNat)) a).msize = s.msize
    rw [removeNode_spec _ a ((a + 8 + (max size 8).toNat) :: l1) l2 hfl2 hna']
    rfl
  · show (removeNode (addNode (splitBlock s a (max size 8)).1
        (a + 8 + (max size 8).toNat)) a).fl = (a + 8 + (max size 8).toNat) :: (l1 ++ l2)
    rw [removeNode_spec _ a ((a + 8 + (max size 8).toNat) :: l1) l2 hfl2 hna']
    rfl
  · refine ⟨({ c1 with hdr := -(max size 8), ftr := -(max size 8) } : Block), ?_, rfl, rfl,
      by show c1.data.length = (max size 8).toNat; rw [g1, hpre_len]⟩
    show getBlk (updBlk (fun c => ({ c with hdr := -(max size 8), ftr := -(max size 8) }
        : Block)) (removeNode (addNode (splitBlock s a (max size 8)).1
        (a + 8 + (max size 8).toNat)) a).mem a) a
      = some ({ c1 with hdr := -(max size 8), ftr := -(max size 8) } : Block)
    rw [getBlk_updBlk_same, hrm]
    rfl
  · rcases getBlk_addNode_shape ((splitBlock s a (max size 8)).1)
        (a + 8 + (max size 8).toNat) _ (by rw [hs'mem]; exact hgetsuf) hsuf8 hhead8
        (a + 8 + (max size 8).toNat) _ (by rw [hs'mem]; exact hgetsuf)
      with ⟨d1, hd1, ed1, fd1, gd1⟩
    rcases getBlk_removeNode_shape' _ a ((a + 8 + (max size 8).toNat) :: l1) l2 hfl2 hna'
        hlast' hhead' (a + 8 + (max size 8).toNat) d1 hd1
      with ⟨d2, hd2, ed2, fd2, gd2⟩
    refine ⟨d2, ?_, by rw [ed2, ed1], by rw [fd2, fd1], by rw [gd2, gd1, hsuf_len]⟩
    show getBlk (updBlk (fun c => ({ c with hdr := -(max size 8), ftr := -(max size 8) }
        : Block)) (removeNode (addNode (splitBlock s a (max size 8)).1
        (a + 8 + (max size 8).toNat)) a).mem a) (a + 8 + (max size 8).toNat) = some d2
    rw [getBlk_updBlk_ne _ _ _ _ hflip (by omega)]
    exact hd2
  · intro x hxa hxsuf c hc
    have hc_s1 : getBlk ((splitBlock s a (max size 8)).1).mem x = some c := by
      rw [hs'mem, hsplit_other x hxa hxsuf]
      exact hc
    rcases getBlk_addNode_shape ((splitBlock s a (max size 8)).1)
        (a + 8 + (max size 8).toNat) _ (by rw [hs'mem]; exact hgetsuf) hsuf8 hhead8
        x c hc_s1
      with ⟨c2, hc2, e2, f2, g2⟩
    rcases getBlk_removeNode_shape' _ a ((a + 8 + (max size 8).toNat) :: l1) l2 hfl2 hna'
        hlast' hhead' x c2 hc2
      with ⟨c3, hc3, e3, f3, g3⟩
    refine ⟨c3, ?_, by rw [e3, e2], by rw [f3, f2], by rw [g3, g2], ?_⟩
    · show getBlk (updBlk (fun c => ({ c with hdr := -(max size 8), ftr := -(max size 8) }
          : Block)) (removeNode (addNode (splitBlock s a (max size 8)).1
          (a + 8 + (max size 8).toNat)) a).mem a) x = some c3
      rw [getBlk_updBlk_ne _ _ _ _ hflip hxa]
      exact hc3
    · intro hxfl
      have hc2' : getBlk (addNode (splitBlock s a (max size 8)).1
          (a + 8 + (max size 8).toNat)).mem x = some c := by
        rw [getBlk_addNode ((splitBlock s a (max size 8)).1)
          (a + 8 + (max size 8).toNat) _ (by rw [hs'mem]; exact hgetsuf) hsuf8 hhead8 x
          hxsuf (fun h hh => fun he => hxfl (he ▸ List.mem_of_mem_head? hh))]
        exact hc_s1
      have hc3' : getBlk (removeNode (addNode (splitBlock s a (max size 8)).1
          (a + 8 + (max size 8).toNat)) a).mem x = some c := by
        rw [getBlk_removeNode' _ a ((a + 8 + (max size 8).toNat) :: l1) l2 hfl2 hna'
          hlast' hhead' hpn' x
          (by intro p hp
              rcases List.mem_cons.mp (List.mem_of_mem_getLast? hp) with rfl | hpm
              · exact hxsuf
              · exact fun he => hxfl (by rw [hfl]
                                         exact List.mem_append_left _ (he ▸ hpm)))
          (by intro nx hnx
              refine fun he => hxfl ?_
              rw [hfl]
              exact List.mem_append_right _
                (List.mem_cons_of_mem _ (he ▸ List.mem_of_mem_head? hnx)))]
        exact hc2'
      rw [hc3'] at hc3
      exact (Option.some.inj hc3).symm
  · show memLen (updBlk (fun c => ({ c with hdr := -(max size 8), ftr := -(max size 8) }
        : Block)) (removeNode (addNode (splitBlock s a (max size 8)).1
        (a + 8 + (max size 8).toNat)) a).mem a) = memLen s.mem
    rw [hfin, memLen_eq_of_skel _ _ hskf, hbs, memLen_append, memLen_append,
      memLen_cons, memLen_cons, memLen_cons]
    have e1 : ({ hdr := -(max size 8), data := b'.data.take (max size 8).toNat, ftr := -(max size 8) } : Block).size = (max size 8).toNat + 8 := by
      simp [Block.size]
      omega
    have e2 : ({ hdr := b'.hdr - max size 8 - 8, data := b'.data.drop ((max size 8).toNat + 8), ftr := b'.hdr - max size 8 - 8 } : Block).size = b'.data.length - ((max size 8).toNat + 8) + 8 := by
      simp [Block.size]
    have e3 : b'.size = b'.data.length + 8 := rfl
    rw [e1, e2, e3]
    omega
  · intro y
    show y ∈ freeAddrs (updBlk
        (fun c => ({ c with hdr := -(max size 8), ftr := -(max size 8) } : Block))
        (removeNode (addNode (splitBlock s a (max size 8)).1
          (a + 8 + (max size 8).toNat)) a).mem a)
      ↔ (y = a + 8 + (max size 8).toNat ∨ (y ∈ freeAddrs s.mem ∧ y ≠ a))
    rw [hfin, freeAddrs_eq_of_skel _ _ hskf,
      freeAddrs_split_mid L b' _ _ R (by omega)
        (by show ¬ (0 : Int) < -(max size 8); omega)
        (by show (0 : Int) < b'.hdr - max size 8 - 8; omega)
        (by show (b'.data.take (max size 8).toNat).length + 8 + ((b'.data.drop ((max size 8).toNat + 8)).length + 8) = b'.data.length + 8
            rw [hpre_len, hsuf_len]
            omega) y,
      ← hbs]
    have e1 : memLen L + ({ hdr := -(max size 8), data := b'.data.take (max size 8).toNat, ftr := -(max size 8) } : Block).size = a + 8 + (max size 8).toNat := by
      show memLen L + ((b'.data.take (max size 8).toNat).length + 8) = a + 8 + (max size 8).toNat
      rw [hpre_len]
      omega
    have e2 : memLen L = a := hadr.symm
    rw [e1, e2]
  · show noAdjFree (updBlk
        (fun c => ({ c with hdr := -(max size 8), ftr := -(max size 8) } : Block))
        (removeNode (addNode (splitBlock s a (max size 8)).1
          (a + 8 + (max size 8).toNat)) a).mem a) = true
    rw [hfin, noAdjFree_eq_of_skel _ _ hskf]
    refine noAdjFree_split L b' _ _ R
      (by show ¬ (0 : Int) < -(max size 8); omega) (by omega) ?_
    rw [← hbs]
    exact (wf_iff s).mp hw |>.2.2.2.2.2.2
  · intro c hcmem
    have hcmem2 : c ∈ updBlk
        (fun c => ({ c with hdr := -(max size 8), ftr := -(max size 8) } : Block))
        (removeNode (addNode (splitBlock s a (max size 8)).1
          (a + 8 + (max size 8).toNat)) a).mem a := hcmem
    rw [hfin] at hcmem2
    rcases List.mem_append.mp hcmem2 with hcl | hcr
    · exact hgood_s3 c (by rw [hdec3]; exact List.mem_append_left _ hcl)
    · rcases List.mem_cons.mp hcr with rfl | hcr2
      · rw [goodBlock_iff]
        refine ⟨rfl, ?_, ?_⟩
        · show c1.data.length = (-(max size 8)).natAbs
          rw [g1, hpre_len]
          omega
        · show 8 ≤ (-(max size 8)).natAbs
          omega
      · refine hgood_s3 c ?_
        rw [hdec3]
        exact List.mem_append_right _ (List.mem_cons_of_mem _ hcr2)

/-- C8: in `myalloc`, once `findHead` has chosen the free block at `a`,
for a non-negative request (the C macro `MAX(size, sizeof(node) -
sizeof(int))` compares the `int` request against a `size_t`, so a
negative request is not clamped and is outside this statement)
the effective size is `max size 8` (the request clamped to the two link
fields, `L = 8`); the block is split exactly when its payload `b.hdr`
exceeds `max size 8 + 16` (that is, `s + 2T + L` with `T = 4`), in which
case the prefix is allocated with payload `max size 8`, the suffix
becomes a free block with payload `b.hdr - max size 8 - 8` (original
minus `s` minus `2T`) pushed onto the head of the free list; otherwise
the whole block is allocated unsplit with its payload bytes intact. -/
theorem claim8_thm (s : AState) (size : Int) (a : Nat) (b : Block) (l1 l2 : List Nat)
    (hpos : 0 ≤ size)
    (hw : wf s = true) (hf : findHead s size = some a) (hb : getBlk s.mem a = some b)
    (hfl : s.fl = l1 ++ a :: l2) :
    (b.hdr > max size 8 + 16 →
      (∃ c, getBlk (myalloc s size).1.mem a = some c ∧ c.hdr = -(max size 8) ∧
        c.data.length = (max size 8).toNat) ∧
      (∃ d, getBlk (myalloc s size).1.mem (a + 8 + (max size 8).toNat) = some d ∧
        d.hdr = b.hdr - max size 8 - 8) ∧
      (myalloc s size).1.fl = (a + 8 + (max size 8).toNat) :: (l1 ++ l2)) ∧
    (¬ b.hdr > max size 8 + 16 →
      getBlk (myalloc s size).1.mem a =
        some { hdr := -b.hdr, data := b.data, ftr := -b.hdr } ∧
      (myalloc s size).1.fl = l1 ++ l2) := by
  constructor
  · intro hsplt
    rcases myalloc_split_obs s size a b l1 l2 hw hf hb hfl hsplt with
      ⟨-, -, hfl', ⟨c, hc, ec, -, gc⟩, ⟨d, hd, ed, -, -⟩, -⟩
    exact ⟨⟨c, hc, ec, gc⟩, ⟨d, hd, ed⟩, hfl'⟩
  · intro hns
    rcases myalloc_nosplit_obs s size a b l1 l2 hw hf hb hfl hns with
      ⟨-, -, hfl', hA, -⟩
    exact ⟨hA, hfl'⟩

/-- C8 witness: the fresh 48-byte arena has one free block of payload 40
at address 0; a request of 20 has effective size 20 and 40 > 20 + 16, so
the block splits. -/
theorem claim8_wit :
    (wf (init_myalloc 48) = true ∧ findHead (init_myalloc 48) 20 = some 0 ∧
      getBlk (init_myalloc 48).mem 0 =
        some { hdr := 40, data := ptrCells none ++ ptrCells none ++
                 List.replicate 32 Cell.und, ftr := 40 } ∧
      (init_myalloc 48).fl = [] ++ 0 :: []) ∧
    (((40 : Int) > max 20 8 + 16 →
      (∃ c, getBlk (myalloc (init_myalloc 48) 20).1.mem 0 = some c ∧
        c.hdr = -(max 20 8) ∧ c.data.length = (max (20 : Int) 8).toNat) ∧
      (∃ d, getBlk (myalloc (init_myalloc 48) 20).1.mem
          (0 + 8 + (max (20 : Int) 8).toNat) = some d ∧ d.hdr = 40 - max 20 8 - 8) ∧
      (myalloc (init_myalloc 48) 20).1.fl =
        (0 + 8 + (max (20 : Int) 8).toNat) :: ([] ++ [])) ∧
    (¬ (40 : Int) > max 20 8 + 16 →
      getBlk (myalloc (init_myalloc 48) 20).1.mem 0 =
        some { hdr := -40, data := ptrCells none ++ ptrCells none ++
                 List.replicate 32 Cell.und, ftr := -40 } ∧
      (myalloc (init_myalloc 48) 20).1.fl = [] ++ [])) :=
  ⟨⟨by decide, by decide, by decide, by decide⟩,
    claim8_thm (init_myalloc 48) 20 0
      { hdr := 40, data := ptrCells none ++ ptrCells none ++
          List.replicate 32 Cell.und, ftr := 40 } [] []
      (by decide) (by decide) (by decide) (by decide) (by decide)⟩

/-- C10 (frame property of a successful `myalloc`, for a non-negative
request; a negative request escapes the C `MAX` macro's clamping through
its signed-to-unsigned comparison and drives `splitBlock` out of the
chosen block's bounds, so it is outside this statement): the call flips
the tags of the chosen block `a` (and, when it splits, writes the suffix
block's tags and link fields and relinks free-list link words), but the
header and footer tags of every other block are unchanged, and every
allocated block — any block whose header is negative — is preserved
bit-for-bit, payload included. -/
theorem claim10_thm (s : AState) (size : Int) (a : Nat) (b : Block) (l1 l2 : List Nat)
    (hpos : 0 ≤ size)
    (hw : wf s = true) (hf : findHead s size = some a) (hb : getBlk s.mem a = some b)
    (hfl : s.fl = l1 ++ a :: l2) :
    (∀ x c, getBlk s.mem x = some c → c.hdr < 0 →
      getBlk (myalloc s size).1.mem x = some c) ∧
    (b.hdr > max size 8 + 16 →
      ∀ x c, getBlk s.mem x = some c → x ≠ a → x ≠ a + 8 + (max size 8).toNat →
        ∃ c', getBlk (myalloc s size).1.mem x = some c' ∧ c'.hdr = c.hdr ∧
          c'.ftr = c.ftr) ∧
    (¬ b.hdr > max size 8 + 16 →
      ∀ x c, getBlk s.mem x = some c → x ≠ a →
        ∃ c', getBlk (myalloc s size).1.mem x = some c' ∧ c'.hdr = c.hdr ∧
          c'.ftr = c.ftr) := by
  have hafl : a ∈ s.fl := by
    rw [hfl]; exact List.mem_append_right _ (List.mem_cons_self _ _)
  refine ⟨?_, ?_, ?_⟩
  · intro x c hc hneg
    have hxfl : x ∉ s.fl := by
      intro hm
      rcases wf_fl_getBlk s hw x hm with ⟨bx, hbx, h8x, -, -⟩
      rw [hc] at hbx
      have hbc := Option.some.inj hbx
      rw [← hbc] at h8x
      omega
    have hxa : x ≠ a := fun he => hxfl (he ▸ hafl)
    by_cases hsplt : b.hdr > max size 8 + 16
    · rcases myalloc_split_obs s size a b l1 l2 hw hf hb hfl hsplt with
        ⟨-, -, -, -, -, hfr, -, -, -, -, hnone⟩
      have hxsuf : x ≠ a + 8 + (max size 8).toNat := by
        intro he
        rw [he, hnone] at hc
        exact Option.noConfusion hc
      rcases hfr x hxa hxsuf c hc with ⟨c', h1, -, -, -, hexact⟩
      rw [hexact hxfl] at h1
      exact h1
    · rcases myalloc_nosplit_obs s size a b l1 l2 hw hf hb hfl hsplt with
        ⟨-, -, -, -, hfr, -⟩
      rcases hfr x hxa c hc with ⟨c', h1, -, -, -, hexact⟩
      rw [hexact hxfl] at h1
      exact h1
  · intro hsplt x c hc hxa hxsuf
    rcases myalloc_split_obs s size a b l1 l2 hw hf hb hfl hsplt with
      ⟨-, -, -, -, -, hfr, -⟩
    rcases hfr x hxa hxsuf c hc with ⟨c', h1, e, f, -, -⟩
    exact ⟨c', h1, e, f⟩
  · intro hns x c hc hxa
    rcases myalloc_nosplit_obs s size a b l1 l2 hw hf hb hfl hns with
      ⟨-, -, -, -, hfr, -⟩
    rcases hfr x hxa c hc with ⟨c', h1, e, f, -, -⟩
    exact ⟨c', h1, e, f⟩

/-- C10 witness: the frame property instantiated on the fresh 48-byte
arena with a request of 20. -/
theorem claim10_wit :
    (wf (init_myalloc 48) = true ∧ findHead (init_myalloc 48) 20 = some 0 ∧
      getBlk (init_myalloc 48).mem 0 =
        some { hdr := 40, data := ptrCells none ++ ptrCells none ++
                 List.replicate 32 Cell.und, ftr := 40 } ∧
      (init_myalloc 48).fl = [] ++ 0 :: []) ∧
    ((∀ x c, getBlk (init_myalloc 48).mem x = some c → c.hdr < 0 →
      getBlk (myalloc (init_myalloc 48) 20).1.mem x = some c) ∧
    ((40 : Int) > max 20 8 + 16 →
      ∀ x c, getBlk (init_myalloc 48).mem x = some c → x ≠ 0 →
        x ≠ 0 + 8 + (max (20 : Int) 8).toNat →
        ∃ c', getBlk (myalloc (init_myalloc 48) 20).1.mem x = some c' ∧
          c'.hdr = c.hdr ∧ c'.ftr = c.ftr) ∧
    (¬ (40 : Int) > max 20 8 + 16 →
      ∀ x c, getBlk (init_myalloc 48).mem x = some c → x ≠ 0 →
        ∃ c', getBlk (myalloc (init_myalloc 48) 20).1.mem x = some c' ∧
          c'.hdr = c.hdr ∧ c'.ftr = c.ftr)) :=
  ⟨⟨by decide, by decide, by decide, by decide⟩,
    claim10_thm (init_myalloc 48) 20 0
      { hdr := 40, data := ptrCells none ++ ptrCells none ++
          List.replicate 32 Cell.und, ftr := 40 } [] []
      (by decide) (by decide) (by decide) (by decide) (by decide)⟩

/-! #### Coalescing two adjacent free blocks -/

theorem coalesceMem_decomp (L : List Block) (b b2 : Block) (R : List Block) :
    coalesceMem (L ++ b :: b2 :: R) (memLen L) =
      L ++ ({ hdr := b.hdr + b2.hdr + 8,
              data := b.data ++ intCells b.ftr ++ intCells b2.hdr ++ b2.data,
              ftr := b.hdr + b2.hdr + 8 } : Block) :: R := by
  rw [coalesceMem_append_ge L _ _ (le_refl _), Nat.sub_self, coalesceMem,
    if_pos b.size_pos, if_pos rfl]

/-- Replacing two adjacent free blocks by their free merge removes
exactly the second block's address from the free-address list. -/
theorem freeAddrs_merge_mid (L : List Block) (m x y : Block) (R : List Block)
    (hm : 0 < m.hdr) (hx : 0 < x.hdr) (hy : 0 < y.hdr)
    (hsz : x.size + y.size = m.size) (z : Nat) :
    z ∈ freeAddrs (L ++ m :: R) ↔
      (z ∈ freeAddrs (L ++ x :: y :: R) ∧ z ≠ memLen L + x.size) := by
  rw [freeAddrs, freeAddrs, freeAddrsGo_append, freeAddrsGo_append,
    freeAddrsGo, if_pos hm, freeAddrsGo, if_pos hx, freeAddrsGo, if_pos hy]
  simp only [List.mem_append, List.mem_cons, Nat.zero_add]
  have harith : memLen L + x.size + y.size = memLen L + m.size := by omega
  rw [harith]
  have hxp := x.size_pos
  have hyp := y.size_pos
  have hmp := m.size_pos
  constructor
  · rintro (hL | he | hR)
    · rcases freeAddrsGo_bounds L 0 z hL with ⟨-, h2⟩
      exact ⟨Or.inl hL, by omega⟩
    · exact ⟨Or.inr (Or.inl he), by omega⟩
    · rcases freeAddrsGo_bounds R (memLen L + m.size) z hR with ⟨h1, -⟩
      exact ⟨Or.inr (Or.inr (Or.inr hR)), by omega⟩
  · rintro ⟨hL | he | he | hR, hne⟩
    · exact Or.inl hL
    · exact Or.inr (Or.inl he)
    · exact absurd he hne
    · exact Or.inr (Or.inr hR)

/-- Everything `myfree` needs to know about one `coalesce(A, B)` call on
adjacent free blocks `A` (at `pH`) and `B` (at `pH + A.size`, a member of
the free list): the unlink, the merged tags, shape preservation
elsewhere, free-address accounting, goodness, and a skeleton equation
against the pre-call layout. -/
theorem coalesce_obs (u : AState) (pH : Nat) (Xb Yb : Block) (F1 F2 : List Nat)
    (hXb : getBlk u.mem pH = some Xb) (hYb : getBlk u.mem (pH + Xb.size) = some Yb)
    (hXpos : 0 < Xb.hdr) (hYpos : 0 < Yb.hdr)
    (hXg : goodBlock Xb = true) (hYg : goodBlock Yb = true)
    (hfl : u.fl = F1 ++ (pH + Xb.size) :: F2) (hni : pH + Xb.size ∉ F1)
    (hblk : ∀ y ∈ u.fl, ∃ c, getBlk u.mem y = some c ∧ 8 ≤ c.data.length)
    (hdisj2 : ∀ p nx, F1.getLast? = some p → F2.head? = some nx → nx ≠ p) :
    (coalesce u pH (pH + Xb.size)).fl = F1 ++ F2 ∧
    (coalesce u pH (pH + Xb.size)).msize = u.msize ∧
    memLen (coalesce u pH (pH + Xb.size)).mem = memLen u.mem ∧
    (∃ M, getBlk (coalesce u pH (pH + Xb.size)).mem pH = some M ∧
      M.hdr = Xb.hdr + Yb.hdr + 8 ∧ M.ftr = Xb.hdr + Yb.hdr + 8 ∧
      M.data.length = Xb.data.length + 8 + Yb.data.length) ∧
    (∀ x c, getBlk u.mem x = some c → x ≠ pH → x ≠ pH + Xb.size →
      ∃ c', getBlk (coalesce u pH (pH + Xb.size)).mem x = some c' ∧ c'.hdr = c.hdr ∧
        c'.ftr = c.ftr ∧ c'.data.length = c.data.length ∧ (x ∉ u.fl → c' = c)) ∧
    (∀ z, z ∈ freeAddrs (coalesce u pH (pH + Xb.size)).mem ↔
      z ∈ freeAddrs u.mem ∧ z ≠ pH + Xb.size) ∧
    ((∀ c ∈ u.mem, goodBlock c = true) →
      ∀ c ∈ (coalesce u pH (pH + Xb.size)).mem, goodBlock c = true) ∧
    (∃ P Q, u.mem = P ++ Xb :: Yb :: Q ∧ memLen P = pH ∧
      skel (coalesce u pH (pH + Xb.size)).mem =
        skel (P ++ ({ hdr := Xb.hdr + Yb.hdr + 8, data := Xb.data ++ intCells Xb.ftr ++ intCells Yb.hdr ++ Yb.data, ftr := Xb.hdr + Yb.hdr + 8 } : Block) :: Q)) := by
  have hlast : ∀ p, F1.getLast? = some p →
      ∃ bp, getBlk u.mem p = some bp ∧ 8 ≤ bp.data.length := by
    intro p hp
    exact hblk p (by rw [hfl]; exact List.mem_append_left _ (List.mem_of_mem_getLast? hp))
  have hhead : ∀ nx, F2.head? = some nx →
      ∃ bn, getBlk u.mem nx = some bn ∧ 8 ≤ bn.data.length := by
    intro nx hnx
    exact hblk nx (by rw [hfl]
                      exact List.mem_append_right _
                        (List.mem_cons_of_mem _ (List.mem_of_mem_head? hnx)))
  rcases decomp_of_getBlk u.mem pH Xb hXb with ⟨P, R0, hbs, hadr⟩
  have hR0 : ∃ Q, R0 = Yb :: Q := by
    rw [hbs, hadr, getBlk_append_ge _ _ _ (by omega)] at hYb
    have e : memLen P + Xb.size - memLen P = Xb.size := by omega
    rw [e, getBlk_cons_skip _ _ _ (le_refl _), Nat.sub_self] at hYb
    match R0, hYb with
    | c :: Q, hYb =>
      rw [getBlk, if_pos rfl] at hYb
      exact ⟨Q, by rw [Option.some.inj hYb]⟩
  rcases hR0 with ⟨Q, rfl⟩
  have hinv := inv_removeNode' u (pH + Xb.size) F1 F2 hfl hni hlast hhead hdisj2
  have hflr : (removeNode u (pH + Xb.size)).fl = F1 ++ F2 := by
    rw [removeNode_spec u (pH + Xb.size) F1 F2 hfl hni]
  have hmsr : (removeNode u (pH + Xb.size)).msize = u.msize := by
    rw [removeNode_spec u (pH + Xb.size) F1 F2 hfl hni]
  have hskr : skel (removeNode u (pH + Xb.size)).mem = skel u.mem :=
    skel_removeNode u (pH + Xb.size) F1 F2 hfl hni hlast hhead
  rcases getBlk_removeNode_shape' u (pH + Xb.size) F1 F2 hfl hni hlast hhead pH Xb hXb
    with ⟨X', hX', eX, fX, gX⟩
  rcases getBlk_removeNode_shape' u (pH + Xb.size) F1 F2 hfl hni hlast hhead
      (pH + Xb.size) Yb hYb
    with ⟨Y', hY', eY, fY, gY⟩
  have hXsz : X'.size = Xb.size := by
    rw [Block.size, Block.size, gX]
  rcases decomp_of_getBlk _ pH X' hX' with ⟨L4, R4, hdec4, hadr4⟩
  have hR4 : ∃ R5, R4 = Y' :: R5 := by
    rw [hdec4, hadr4, getBlk_append_ge _ _ _ (by omega)] at hY'
    have e : memLen L4 + Xb.size - memLen L4 = Xb.size := by omega
    rw [e, ← hXsz, getBlk_cons_skip _ _ _ (le_refl _), Nat.sub_self] at hY'
    match R4, hY' with
    | c :: R5, hY' =>
      rw [getBlk, if_pos rfl] at hY'
      exact ⟨R5, by rw [Option.some.inj hY']⟩
  rcases hR4 with ⟨R5, rfl⟩
  have hcoal : (coalesce u pH (pH + Xb.size)).mem =
      L4 ++ ({ hdr := X'.hdr + Y'.hdr + 8,
               data := X'.data ++ intCells X'.ftr ++ intCells Y'.hdr ++ Y'.data,
               ftr := X'.hdr + Y'.hdr + 8 } : Block) :: R5 := by
    show coalesceMem (removeNode u (pH + Xb.size)).mem pH
      = L4 ++ _ :: R5
    rw [hdec4, hadr4, coalesceMem_decomp]
  have hflc : (coalesce u pH (pH + Xb.size)).fl = F1 ++ F2 := hflr
  have hMlen : ({ hdr := X'.hdr + Y'.hdr + 8, data := X'.data ++ intCells X'.ftr ++ intCells Y'.hdr ++ Y'.data, ftr := X'.hdr + Y'.hdr + 8 } : Block).data.length = Xb.data.length + 8 + Yb.data.length := by
    simp [intCells, gX, gY]
    omega
  have hMsz : X'.size + Y'.size = ({ hdr := X'.hdr + Y'.hdr + 8, data := X'.data ++ intCells X'.ftr ++ intCells Y'.hdr ++ Y'.data, ftr := X'.hdr + Y'.hdr + 8 } : Block).size := by
    simp [Block.size, intCells]
    omega
  refine ⟨hflc, hmsr, ?_, ?_, ?_, ?_, ?_, ?_⟩
  · rw [hcoal, ← hinv.1, hdec4, memLen_append, memLen_append, memLen_cons,
      memLen_cons, memLen_cons, ← hMsz]
    omega
  · refine ⟨_, by rw [hcoal, hadr4]; exact getBlk_decomp L4 _ R5, ?_, ?_, hMlen⟩
    · show X'.hdr + Y'.hdr + 8 = Xb.hdr + Yb.hdr + 8
      rw [eX, eY]
    · show X'.hdr + Y'.hdr + 8 = Xb.hdr + Yb.hdr + 8
      rw [eX, eY]
  · intro x c hc hx1 hx2
    rcases getBlk_removeNode_shape' u (pH + Xb.size) F1 F2 hfl hni hlast hhead x c hc
      with ⟨c', hc', e', f', g'⟩
    refine ⟨c', ?_, e', f', g', ?_⟩
    · rw [hcoal, ← getBlk_two_blocks L4 _ X' Y' R5 hMsz x (by omega) (by omega)]
      rw [hdec4] at hc'
      exact hc'
    · intro hxfl
      have hex : getBlk (removeNode u (pH + Xb.size)).mem x = getBlk u.mem x := by
        refine getBlk_removeNode' u (pH + Xb.size) F1 F2 hfl hni hlast hhead hdisj2 x
          ?_ ?_
        · intro p hp he
          exact hxfl (by rw [hfl]
                         exact List.mem_append_left _ (he ▸ List.mem_of_mem_getLast? hp))
        · intro nx hnx he
          refine hxfl ?_
          rw [hfl]
          exact List.mem_append_right _
            (List.mem_cons_of_mem _ (he ▸ List.mem_of_mem_head? hnx))
      rw [hex, hc] at hc'
      exact (Option.some.inj hc').symm
  · intro z
    rw [hcoal]
    have hXpos' : 0 < X'.hdr := by omega
    have hYpos' : 0 < Y'.hdr := by omega
    have hMpos : 0 < ({ hdr := X'.hdr + Y'.hdr + 8, data := X'.data ++ intCells X'.ftr ++ intCells Y'.hdr ++ Y'.data, ftr := X'.hdr + Y'.hdr + 8 } : Block).hdr := by
      show (0 : Int) < X'.hdr + Y'.hdr + 8
      omega
    rw [freeAddrs_merge_mid L4 _ X' Y' R5 hMpos hXpos' hYpos' hMsz z, ← hdec4,
      hinv.2.1, hadr4, hXsz]
  · intro hg
    intro c hcm
    rw [hcoal] at hcm
    rcases List.mem_append.mp hcm with hcl | hcr
    · exact hinv.2.2.2 hg c (by rw [hdec4]; exact List.mem_append_left _ hcl)
    · rcases List.mem_cons.mp hcr with rfl | hcr2
      · rcases (goodBlock_iff Xb).mp hXg with ⟨-, hXl, -⟩
        rcases (goodBlock_iff Yb).mp hYg with ⟨-, hYl, -⟩
        rw [goodBlock_iff]
        refine ⟨rfl, ?_, ?_⟩
        · show (X'.data ++ intCells X'.ftr ++ intCells Y'.hdr ++ Y'.data).length
            = (X'.hdr + Y'.hdr + 8).natAbs
          simp only [List.length_append, gX, gY, intCells, List.length_cons,
            List.length_nil, eX, eY]
          omega
        · show 8 ≤ (X'.hdr + Y'.hdr + 8).natAbs
          rw [eX, eY]
          omega
      · exact hinv.2.2.2 hg c
          (by rw [hdec4]
              exact List.mem_append_right _
                (List.mem_cons_of_mem _ (List.mem_cons_of_mem _ hcr2)))
  · refine ⟨P, Q, hbs, hadr.symm, ?_⟩
    rw [hcoal]
    have hsk4 : skel (L4 ++ X' :: Y' :: R5) = skel (P ++ Xb :: Yb :: Q) := by
      rw [← hdec4, hskr, hbs]
    rcases skel_parts L4 X' (Y' :: R5) P Xb (Yb :: Q) hsk4 (by omega) with
      ⟨h1, h2, h3, h4⟩
    have h5 : Y'.hdr = Yb.hdr ∧ Y'.data.length = Yb.data.length ∧ skel R5 = skel Q := by
      simp only [skel, List.map_cons, List.cons.injEq, Prod.mk.injEq] at h4
      exact ⟨h4.1.1, h4.1.2, h4.2⟩
    simp only [skel, List.map_append, List.map_cons] at h1 h5 ⊢
    rw [h1, h5.2.2, h2, h5.1]
    simp [intCells, gX, gY]

/-! #### `myfree` on a well-formed allocated block -/

/-- `isValid` accepts the payload pointer of every allocated block of a
well-formed arena. -/
theorem isValid_alloc (s : AState) (hw : wf s = true) (a : Nat) (b : Block)
    (hb : getBlk s.mem a = some b) (hneg : b.hdr < 0) :
    isValid (fun x => readIntAt s.mem x) s.msize (a + 4) = true := by
  rcases decomp_of_getBlk s.mem a b hb with ⟨L, R, hbs, hadr⟩
  rcases (wf_iff s).mp hw with ⟨hml, -, hgood, -⟩
  have hg := (goodBlock_iff b).mp (hgood b (by rw [hbs]; simp))
  have hms : s.msize = memLen L + (b.data.length + 8) + memLen R := by
    rw [← hml, hbs, memLen_append, memLen_cons]
    have : b.size = b.data.length + 8 := rfl
    omega
  have hrdf : readIntAt s.mem (a + 4 + (-b.hdr).toNat) = b.hdr := by
    have e2 : a + 4 + (-b.hdr).toNat = memLen L + 4 + b.data.length := by
      have := hg.2.1
      omega
    rw [e2, hbs, readIntAt_ftr, hg.1]
  simp only [isValid]
  have e1 : a + 4 - 4 = a := by omega
  simp only [e1, readIntAt_getBlk s.mem a b hb]
  have h1 : ¬ (((a + 4 : Nat) : Int) < 4 ∨ ((s.msize : Nat) : Int) - 4 < ((a + 4 : Nat) : Int)) := by
    push_cast
    have := hg.2.1
    have := hg.2.2
    omega
  have h2 : ¬ (-b.hdr < 0 ∨ ((a + 4 : Nat) : Int) + -b.hdr > ((s.msize : Nat) : Int) - 4) := by
    push_cast
    have := hg.2.1
    have := hg.2.2
    omega
  have h3 : ¬ (readIntAt s.mem (a + 4 + (-b.hdr).toNat) ≠ -(-b.hdr)) := by
    rw [neg_neg]
    exact fun hne => hne hrdf
  rw [if_neg h1, if_neg h2, if_neg h3]

/-- `myfree` on the payload of an allocated block, with the validation
discharged and the tag restore folded into one block update. -/
theorem myfree_eq (s : AState) (a : Nat) (b : Block)
    (hw : wf s = true) (hb : getBlk s.mem a = some b) (hneg : b.hdr < 0) :
    myfree s (a + 4) =
      (let S := -b.hdr
       let s3 := addNode { s with
         mem := updBlk (fun c => ({ c with hdr := S, ftr := S } : Block)) s.mem a } a
       let t :=
         if a ≠ 0 then
           let prevSpace := readIntAt s3.mem (a - 4)
           if prevSpace > 0 then
             let prevHead := a - prevSpace.toNat - 8
             let s' := coalesce s3 prevHead a
             (s', prevHead, readIntAt s'.mem prevHead)
           else (s3, a, S)
         else (s3, a, S)
       let endAddr := t.2.1 + t.2.2.toNat + 8
       let s5 :=
         if endAddr ≠ s.msize then
           if readIntAt t.1.mem endAddr > 0 then coalesce t.1 t.2.1 endAddr else t.1
         else t.1
       some s5) := by
  rcases (wf_iff s).mp hw with ⟨-, -, hgood, -⟩
  have hg := (goodBlock_iff b).mp (hgood b (by
    rcases decomp_of_getBlk s.mem a b hb with ⟨L, R, hbs, -⟩
    rw [hbs]; simp))
  simp only [myfree]
  rw [isValid_alloc s hw a b hb hneg]
  have e0 : ¬ (true = false) := by simp
  rw [if_neg e0]
  have e1 : a + 4 - 4 = a := by omega
  rw [e1, readIntAt_getBlk s.mem a b hb,
    writeIntAt_updBlk_hdr s.mem a (-b.hdr) b hb]
  have hb1 : getBlk (updBlk (fun c => ({ c with hdr := -b.hdr } : Block)) s.mem a) a
      = some ({ b with hdr := -b.hdr } : Block) := by
    rw [getBlk_updBlk_same, hb]
    rfl
  have e2 : a + 4 + (-b.hdr).toNat
      = a + (4 + ({ b with hdr := -b.hdr } : Block).data.length) := by
    show a + 4 + (-b.hdr).toNat = a + (4 + b.data.length)
    have := hg.2.1
    omega
  rw [e2, writeIntAt_updBlk_ftr _ a (-b.hdr) _ hb1, updBlk_updBlk_same]

/-! #### noAdjFree surgery -/

theorem noAdjFree_append_parts (X Y : List Block) (h : noAdjFree (X ++ Y) = true) :
    noAdjFree X = true ∧ noAdjFree Y = true := by
  induction X with
  | nil => exact ⟨rfl, h⟩
  | cons x X ih =>
    rw [List.cons_append, noAdjFree_cons'] at h
    rw [Bool.and_eq_true] at h
    rcases ih h.2 with ⟨h1, h2⟩
    refine ⟨?_, h2⟩
    rw [noAdjFree_cons', Bool.and_eq_true]
    refine ⟨?_, h1⟩
    match X, h.1 with
    | [], _ => rfl
    | z :: X', hz =>
      rw [show (z :: X' ++ Y).head? = some z from rfl] at hz
      exact hz

theorem noAdjFree_single (L : List Block) (b' : Block) (R : List Block)
    (hL : noAdjFree L = true) (hR : noAdjFree R = true)
    (hprev : L = [] ∨ ∃ L2 bp, L = L2 ++ [bp] ∧ ¬ 0 < bp.hdr)
    (hnext : R = [] ∨ ∃ bn R2, R = bn :: R2 ∧ ¬ 0 < bn.hdr) :
    noAdjFree (L ++ b' :: R) = true := by
  rw [noAdjFree_break, Bool.and_eq_true]
  constructor
  · rcases hprev with rfl | ⟨L2, bp, rfl, hbp⟩
    · rfl
    · rw [List.append_assoc, List.singleton_append, noAdjFree_break, Bool.and_eq_true]
      refine ⟨?_, ?_⟩
      · rcases noAdjFree_append_parts L2 [bp] hL with ⟨h1, -⟩
        rw [noAdjFree_break] at hL
        rw [Bool.and_eq_true] at hL
        exact hL.1
      · rw [noAdjFree_cons₂]
        simp [hbp, show noAdjFree [b'] = true from rfl]
  · rw [noAdjFree_cons', Bool.and_eq_true]
    refine ⟨?_, hR⟩
    rcases hnext with rfl | ⟨bn, R2, rfl, hbn⟩
    · rfl
    · rw [show (bn :: R2).head? = some bn from rfl]
      simp [hbn]

theorem noAdjFree_last_not_free (L2 : List Block) (y : Block) (ys : List Block)
    (h : noAdjFree (L2 ++ y :: ys) = true) (hy : 0 < y.hdr) :
    L2 = [] ∨ ∃ L3 bp, L2 = L3 ++ [bp] ∧ ¬ 0 < bp.hdr := by
  rcases List.eq_nil_or_concat L2 with rfl | ⟨L3, bp, hc⟩
  · exact Or.inl rfl
  · rw [List.concat_eq_append] at hc
    subst hc
    refine Or.inr ⟨L3, bp, rfl, ?_⟩
    rw [List.append_assoc, List.singleton_append, noAdjFree_break,
      Bool.and_eq_true] at h
    have h2 := h.2
    rw [noAdjFree_cons₂, Bool.and_eq_true] at h2
    have := h2.1
    intro hbp
    simp [hbp, hy] at this

theorem noAdjFree_head_not_free (y : Block) (ys : List Block)
    (h : noAdjFree (y :: ys) = true) (hy : 0 < y.hdr) :
    ys = [] ∨ ∃ z zs, ys = z :: zs ∧ ¬ 0 < z.hdr := by
  match ys with
  | [] => exact Or.inl rfl
  | z :: zs =>
    refine Or.inr ⟨z, zs, rfl, ?_⟩
    rw [noAdjFree_cons₂, Bool.and_eq_true] at h
    have := h.1
    intro hz
    simp [hy, hz] at this

/-- Same-address decompositions of a block list coincide. -/
theorem decomp_unique (P1 : List Block) (x1 : Block) (Q1 : List Block)
    (P2 : List Block) (x2 : Block) (Q2 : List Block)
    (h : P1 ++ x1 :: Q1 = P2 ++ x2 :: Q2) (hlen : memLen P1 = memLen P2) :
    P1 = P2 ∧ x1 = x2 ∧ Q1 = Q2 := by
  induction P1 generalizing P2 with
  | nil =>
    match P2 with
    | [] =>
      simp only [List.nil_append, List.cons.injEq] at h
      exact ⟨rfl, h.1, h.2⟩
    | c :: P2 =>
      rw [memLen_nil, memLen_cons] at hlen
      have := c.size_pos
      omega
  | cons x P1 ih =>
    match P2 with
    | [] =>
      rw [memLen_nil, memLen_cons] at hlen
      have := x.size_pos
      omega
    | y :: P2 =>
      simp only [List.cons_append, List.cons.injEq] at h
      rw [memLen_cons, memLen_cons] at hlen
      have hxy : x = y := h.1
      subst hxy
      rcases ih P2 h.2 (by omega) with ⟨e1, e2, e3⟩
      exact ⟨by rw [e1], e2, e3⟩

/-- The tag-restore and free-list push that `myfree` performs before
coalescing: the block at `a` becomes free with its tags negated back,
everything else keeps its shape, and the address joins the free list. -/
theorem myfree_push_obs (s : AState) (a : Nat) (b : Block)
    (hw : wf s = true) (hb : getBlk s.mem a = some b) (hneg : b.hdr < 0) :
    (addNode { s with
        mem := updBlk (fun c => ({ c with hdr := -b.hdr, ftr := -b.hdr } : Block)) s.mem a } a).fl
      = a :: s.fl ∧
    (addNode { s with
        mem := updBlk (fun c => ({ c with hdr := -b.hdr, ftr := -b.hdr } : Block)) s.mem a } a).msize
      = s.msize ∧
    a ∉ s.fl ∧
    (∃ c0, getBlk (addNode { s with
        mem := updBlk (fun c => ({ c with hdr := -b.hdr, ftr := -b.hdr } : Block)) s.mem a } a).mem a
        = some c0 ∧ c0.hdr = -b.hdr ∧ c0.ftr = -b.hdr ∧
        c0.data.length = b.data.length) ∧
    (∀ x, x ≠ a → ∀ c, getBlk s.mem x = some c →
      ∃ c', getBlk (addNode { s with
          mem := updBlk (fun c => ({ c with hdr := -b.hdr, ftr := -b.hdr } : Block)) s.mem a } a).mem x
          = some c' ∧ c'.hdr = c.hdr ∧ c'.ftr = c.ftr ∧
          c'.data.length = c.data.length) ∧
    memLen (addNode { s with
        mem := updBlk (fun c => ({ c with hdr := -b.hdr, ftr := -b.hdr } : Block)) s.mem a } a).mem
      = memLen s.mem ∧
    (∀ z, z ∈ freeAddrs (addNode { s with
        mem := updBlk (fun c => ({ c with hdr := -b.hdr, ftr := -b.hdr } : Block)) s.mem a } a).mem
      ↔ (z = a ∨ z ∈ freeAddrs s.mem)) ∧
    (∀ c ∈ (addNode { s with
        mem := updBlk (fun c => ({ c with hdr := -b.hdr, ftr := -b.hdr } : Block)) s.mem a } a).mem,
      goodBlock c = true) ∧
    (∃ L R, s.mem = L ++ b :: R ∧ memLen L = a ∧
      skel (addNode { s with
        mem := updBlk (fun c => ({ c with hdr := -b.hdr, ftr := -b.hdr } : Block)) s.mem a } a).mem
        = skel (L ++ ({ hdr := -b.hdr, data := b.data, ftr := -b.hdr } : Block) :: R)) ∧
    (∀ y ∈ a :: s.fl, ∃ c, getBlk (addNode { s with
        mem := updBlk (fun c => ({ c with hdr := -b.hdr, ftr := -b.hdr } : Block)) s.mem a } a).mem y
        = some c ∧ 8 ≤ c.data.length) := by
  rcases decomp_of_getBlk s.mem a b hb with ⟨L, R, hbs, hadr⟩
  rcases (wf_iff s).mp hw with ⟨-, -, hgood, -⟩
  have hg := (goodBlock_iff b).mp (hgood b (by rw [hbs]; simp))
  have hb8 : 8 ≤ b.data.length := by omega
  have hflip : ∀ c : Block,
      ((fun c => ({ c with hdr := -b.hdr, ftr := -b.hdr } : Block)) c).size = c.size :=
    fun c => rfl
  have hnafl : a ∉ s.fl := by
    intro hm
    rcases wf_fl_getBlk s hw a hm with ⟨bx, hbx, h8x, -, -⟩
    rw [hb] at hbx
    have hbe := Option.some.inj hbx
    rw [← hbe] at h8x
    omega
  have hmem2 : updBlk (fun c => ({ c with hdr := -b.hdr, ftr := -b.hdr } : Block)) s.mem a
      = L ++ ({ hdr := -b.hdr, data := b.data, ftr := -b.hdr } : Block) :: R := by
    rw [hbs, hadr, updBlk_decomp]
  have hbF : getBlk (updBlk (fun c => ({ c with hdr := -b.hdr, ftr := -b.hdr } : Block)) s.mem a) a
      = some ({ hdr := -b.hdr, data := b.data, ftr := -b.hdr } : Block) := by
    rw [hmem2, hadr, getBlk_decomp]
  have hoth : ∀ x, x ≠ a →
      getBlk (updBlk (fun c => ({ c with hdr := -b.hdr, ftr := -b.hdr } : Block)) s.mem a) x
        = getBlk s.mem x := by
    intro x hx
    exact getBlk_updBlk_ne _ _ _ _ hflip hx
  have hhead : ∀ h, ({ s with
      mem := updBlk (fun c => ({ c with hdr := -b.hdr, ftr := -b.hdr } : Block)) s.mem a } : AState).fl.head? = some h →
      ∃ bh, getBlk ({ s with
        mem := updBlk (fun c => ({ c with hdr := -b.hdr, ftr := -b.hdr } : Block)) s.mem a } : AState).mem h = some bh ∧ 8 ≤ bh.data.length := by
    intro h hh
    have hhm : h ∈ s.fl := List.mem_of_mem_head? hh
    have hha : h ≠ a := fun he => hnafl (he ▸ hhm)
    rcases wf_fl_getBlk s hw h hhm with ⟨bh, hbh, h8h, -, hlh⟩
    exact ⟨bh, by show getBlk (updBlk _ s.mem a) h = some bh
                  rw [hoth h hha]; exact hbh, by omega⟩
  have hinv := inv_addNode ({ s with
      mem := updBlk (fun c => ({ c with hdr := -b.hdr, ftr := -b.hdr } : Block)) s.mem a } : AState) a
      ({ hdr := -b.hdr, data := b.data, ftr := -b.hdr } : Block) hbF hb8 hhead
  refine ⟨rfl, rfl, hnafl, ?_, ?_, ?_, ?_, ?_, ?_, ?_⟩
  · rcases getBlk_addNode_shape _ a ({ hdr := -b.hdr, data := b.data, ftr := -b.hdr } : Block) hbF hb8 hhead a _ hbF with ⟨c0, hc0, e0, f0, g0⟩
    exact ⟨c0, hc0, e0, f0, g0⟩
  · intro x hx c hc
    rcases getBlk_addNode_shape _ a ({ hdr := -b.hdr, data := b.data, ftr := -b.hdr } : Block) hbF hb8 hhead x c
        (by show getBlk (updBlk _ s.mem a) x = some c
            rw [hoth x hx]; exact hc) with ⟨c', hc', e', f', g'⟩
    exact ⟨c', hc', e', f', g'⟩
  · rw [hinv.1]
    show memLen (updBlk _ s.mem a) = memLen s.mem
    exact memLen_updBlk _ _ _ hflip
  · intro z
    rw [hinv.2.1]
    show z ∈ freeAddrs (updBlk (fun c => ({ c with hdr := -b.hdr, ftr := -b.hdr } : Block)) s.mem a)
      ↔ (z = a ∨ z ∈ freeAddrs s.mem)
    rw [hmem2]
    have hiff := freeAddrs_mid_alloc L
      ({ hdr := -b.hdr, data := b.data, ftr := -b.hdr } : Block) b R
      (by show (0 : Int) < -b.hdr; omega) (by omega) rfl z
    have hain : a ∈ freeAddrs (L ++ ({ hdr := -b.hdr, data := b.data, ftr := -b.hdr } : Block) :: R) := by
      refine (freeAddrs_mem _ a).mpr ⟨L, _, R, rfl, by show (0 : Int) < -b.hdr; omega, hadr⟩
    constructor
    · intro hz
      by_cases hza : z = a
      · exact Or.inl hza
      · refine Or.inr ?_
        rw [hbs]
        rw [← hadr] at hiff
        exact hiff.mpr ⟨hz, hza⟩
    · rintro (rfl | hz)
      · exact hain
      · by_cases hza : z = a
        · exact hza ▸ hain
        · rw [hbs] at hz
          rw [← hadr] at hiff
          exact (hiff.mp hz).1
  · refine hinv.2.2.2 ?_
    intro c hcm
    show goodBlock c = true
    rw [hmem2] at hcm
    rcases List.mem_append.mp hcm with hcl | hcr
    · exact hgood c (by rw [hbs]; exact List.mem_append_left _ hcl)
    · rcases List.mem_cons.mp hcr with rfl | hcr2
      · rw [goodBlock_iff]
        refine ⟨rfl, ?_, ?_⟩
        · show b.data.length = (-b.hdr).natAbs
          omega
        · show 8 ≤ (-b.hdr).natAbs
          omega
      · exact hgood c (by rw [hbs]; exact List.mem_append_right _ (List.mem_cons_of_mem _ hcr2))
  · refine ⟨L, R, hbs, hadr.symm, ?_⟩
    rw [skel_addNode _ a ({ hdr := -b.hdr, data := b.data, ftr := -b.hdr } : Block) hbF hb8 hhead]
    show skel (updBlk _ s.mem a) = _
    rw [hmem2]
  · intro y hy
    rcases List.mem_cons.mp hy with rfl | hym
    · rcases getBlk_addNode_shape _ y ({ hdr := -b.hdr, data := b.data, ftr := -b.hdr } : Block) hbF hb8 hhead y _ hbF with ⟨c0, hc0, -, -, g0⟩
      exact ⟨c0, hc0, by rw [g0]; exact hb8⟩
    · have hya : y ≠ a := fun he => hnafl (he ▸ hym)
      rcases wf_fl_getBlk s hw y hym with ⟨cy, hcy, h8y, -, hly⟩
      rcases getBlk_addNode_shape _ a ({ hdr := -b.hdr, data := b.data, ftr := -b.hdr } : Block) hbF hb8 hhead y cy
          (by show getBlk (updBlk _ s.mem a) y = some cy
              rw [hoth y hya]; exact hcy) with ⟨cy', hcy', -, -, gy'⟩
      exact ⟨cy', hcy', by omega⟩

/-- Transfer a decomposition across a skeleton equation. -/
theorem skel_decomp_transfer (bs : List Block) (P : List Block) (M : Block)
    (Q : List Block) (h : skel bs = skel (P ++ M :: Q)) :
    ∃ P2 M2 Q2, bs = P2 ++ M2 :: Q2 ∧ skel P2 = skel P ∧ M2.hdr = M.hdr ∧
      M2.data.length = M.data.length ∧ skel Q2 = skel Q ∧ memLen P2 = memLen P := by
  induction P generalizing bs with
  | nil =>
    match bs with
    | [] => exact absurd h (by simp [skel])
    | c :: bs =>
      simp only [List.nil_append, skel, List.map_cons, List.cons.injEq,
        Prod.mk.injEq] at h
      exact ⟨[], c, bs, rfl, rfl, h.1.1, h.1.2, h.2, rfl⟩
  | cons p P ih =>
    match bs with
    | [] => exact absurd h (by simp [skel])
    | c :: bs =>
      simp only [List.cons_append, skel, List.map_cons, List.cons.injEq,
        Prod.mk.injEq] at h
      rcases ih bs (by exact h.2) with ⟨P2, M2, Q2, hdec, h1, h2, h3, h4, h5⟩
      refine ⟨c :: P2, M2, Q2, by rw [hdec, List.cons_append], ?_, h2, h3, h4, ?_⟩
      · simp only [skel, List.map_cons, List.cons.injEq, Prod.mk.injEq]
        exact ⟨h.1, h1⟩
      · rw [memLen_cons, memLen_cons, h5, Block.size, Block.size, h.1.2]

theorem ne_nil_of_skel (bs bs' : List Block) (h : skel bs = skel bs')
    (h' : bs' ≠ []) : bs ≠ [] := by
  intro he
  subst he
  match bs', h, h' with
  | [], _, h' => exact h' rfl

theorem wf_assemble (s' : AState) (hml : memLen s'.mem = s'.msize) (hne : s'.mem ≠ [])
    (hgood : ∀ c ∈ s'.mem, goodBlock c = true) (hnd : s'.fl.Nodup)
    (hiff : ∀ z, z ∈ s'.fl ↔ z ∈ freeAddrs s'.mem) (hnadj : noAdjFree s'.mem = true) :
    wf s' = true := by
  rw [wf_iff]
  exact ⟨hml, hne, hgood, hnd, fun x h => (hiff x).mp h, fun x h => (hiff x).mpr h, hnadj⟩

theorem mem_of_getBlk (bs : List Block) (x : Nat) (c : Block)
    (h : getBlk bs x = some c) : c ∈ bs := by
  rcases decomp_of_getBlk bs x c h with ⟨P, Q, rfl, -⟩
  simp

theorem nodup_mid (l1 l2 : List Nat) (x : Nat) (h : (l1 ++ x :: l2).Nodup) :
    x ∉ l1 ∧ x ∉ l2 ∧ (∀ y ∈ l1, y ∉ l2) ∧ (l1 ++ l2).Nodup := by
  rw [List.nodup_append] at h
  refine ⟨fun hm => h.2.2 hm (List.mem_cons_self _ _), ?_, ?_, ?_⟩
  · have := h.2.1
    rw [List.nodup_cons] at this
    exact this.1
  · intro y hy hy2
    exact h.2.2 hy (List.mem_cons_of_mem _ hy2)
  · rw [List.nodup_append]
    refine ⟨h.1, ?_, ?_⟩
    · have := h.2.1
      rw [List.nodup_cons] at this
      exact this.2
    · intro y hy hy2
      exact h.2.2 hy (List.mem_cons_of_mem _ hy2)


/-- `myfree` on a well-formed arena: freeing any allocated block succeeds,
preserves well-formedness and the arena size, and falls into one of the
four neighbour cases of `myfreeCase`. -/
theorem myfree_obs (s : AState) (a : Nat) (b : Block)
    (hw : wf s = true) (hb : getBlk s.mem a = some b) (hneg : b.hdr < 0) :
    ∃ s', myfree s (a + 4) = some s' ∧ wf s' = true ∧ s'.msize = s.msize ∧
      myfreeCase s a b s' := by
  obtain ⟨hfl3, hms3, hnafl, ⟨c0, hc0, e0, f0, g0⟩, hfr3, hml3, hfa3, hgood3, hLRx, hblk3⟩ :=
    myfree_push_obs s a b hw hb hneg
  obtain ⟨L, R, hbs, hadr, hsk3⟩ := hLRx
  set S3 : AState := addNode { s with
    mem := updBlk (fun c => ({ c with hdr := -b.hdr, ftr := -b.hdr } : Block)) s.mem a } a
    with hS3def
  rcases (wf_iff s).mp hw with ⟨hml, -, hgood, hnd, hsub1, hsub2, hnadj⟩
  have hgb := (goodBlock_iff b).mp (hgood b (by rw [hbs]; simp))
  have hlenb : b.data.length = b.hdr.natAbs := hgb.2.1
  have hb8 : 8 ≤ b.data.length := by omega
  have hmsz : s.msize = memLen L + b.size + memLen R := by
    rw [← hml, hbs, memLen_append, memLen_cons]
    omega
  have hbsz : b.size = b.data.length + 8 := rfl
  have hEarith : memLen L + b.size = a + (-b.hdr).toNat + 8 := by omega
  have hnadj' : noAdjFree (L ++ b :: R) = true := by rw [← hbs]; exact hnadj
  have hnadjL : noAdjFree L = true := (noAdjFree_append_parts L (b :: R) hnadj').1
  have hnadjbR : noAdjFree (b :: R) = true := (noAdjFree_append_parts L (b :: R) hnadj').2
  have hnadjR : noAdjFree R = true := (noAdjFree_append_parts [b] R hnadjbR).2
  have hfliff : ∀ z, z ∈ s.fl ↔ z ∈ freeAddrs s.mem := fun z => ⟨hsub1 z, hsub2 z⟩
  by_cases ha0 : a = 0
  case pos =>
    have hL0 : L = [] := by
      match L, hadr with
      | [], _ => rfl
      | c :: L', hadr =>
        rw [memLen_cons] at hadr
        have := c.size_pos
        omega
    have hprevNN : L = [] ∨ ∃ L2 bp, L = L2 ++ [bp] ∧ bp.hdr < 0 := Or.inl hL0
    have hprevNA : L = [] ∨ ∃ L2 bp, L = L2 ++ [bp] ∧ ¬ 0 < bp.hdr := Or.inl hL0
    have htred : (if a ≠ 0 then
        (if readIntAt S3.mem (a - 4) > 0 then
          (coalesce S3 (a - (readIntAt S3.mem (a - 4)).toNat - 8) a,
           a - (readIntAt S3.mem (a - 4)).toNat - 8,
           readIntAt (coalesce S3 (a - (readIntAt S3.mem (a - 4)).toNat - 8) a).mem
             (a - (readIntAt S3.mem (a - 4)).toNat - 8))
         else (S3, a, -b.hdr))
        else (S3, a, -b.hdr)) = (S3, a, -b.hdr) := by
      rw [if_neg (by omega : ¬ a ≠ 0)]
    cases R with
    | nil =>
      refine ⟨S3, ?_, ?_, hms3, ?_⟩
      · rw [myfree_eq s a b hw hb hneg]
        simp only []
        rw [← hS3def, htred]
        simp only []
        rw [if_neg (by rw [hmsz, memLen_nil]; omega :
          ¬ (a + (-b.hdr).toNat + 8 ≠ s.msize))]
      · refine wf_assemble S3 (by rw [hml3, hml, hms3]) ?_ hgood3
          (by rw [hfl3]; exact List.nodup_cons.mpr ⟨hnafl, hnd⟩) ?_ ?_
        · exact ne_nil_of_skel _ _ hsk3 (by simp)
        · intro z
          rw [hfl3, hfa3]
          constructor
          · intro hz
            rcases List.mem_cons.mp hz with rfl | hz2
            · exact Or.inl rfl
            · exact Or.inr ((hfliff z).mp hz2)
          · rintro (rfl | hz2)
            · exact List.mem_cons_self _ _
            · exact List.mem_cons_of_mem _ ((hfliff z).mpr hz2)
        · rw [noAdjFree_eq_of_skel _ _ hsk3]
          exact noAdjFree_single L _ [] hnadjL rfl hprevNA (Or.inl rfl)
      · exact ⟨L, [], hbs, hadr, Or.inl ⟨hprevNN, Or.inl rfl, hfl3, hsk3⟩⟩
    | cons bn R2 =>
      have hbnmem : getBlk s.mem (memLen L + b.size) = some bn := by
        rw [hbs, getBlk_append_ge _ _ _ (by omega)]
        have e : memLen L + b.size - memLen L = b.size := by omega
        rw [e, getBlk_cons_skip _ _ _ (le_refl _), Nat.sub_self, getBlk, if_pos rfl]
      have hgbn := (goodBlock_iff bn).mp (hgood bn (by rw [hbs]; simp))
      have hEne : a + (-b.hdr).toNat + 8 ≠ s.msize := by
        rw [hmsz, memLen_cons]
        have := bn.size_pos
        omega
      obtain ⟨bn3, hbn3, ebn, fbn, gbn⟩ :=
        hfr3 (memLen L + b.size) (by have := b.size_pos; omega) bn hbnmem
      have hrdE : readIntAt S3.mem (a + (-b.hdr).toNat + 8) = bn.hdr := by
        rw [← hEarith, readIntAt_getBlk _ _ _ hbn3, ebn]
      by_cases hbn : 0 < bn.hdr
      · -- forward coalesce only
        have hEfl : (memLen L + b.size) ∈ s.fl :=
          hsub2 _ ((freeAddrs_mem _ _).mpr ⟨L ++ [b], bn, R2,
            by rw [hbs]; simp, hbn, by rw [memLen_append, memLen_cons, memLen_nil]; omega⟩)
        obtain ⟨f1, f2, hfldec⟩ := List.append_of_mem hEfl
        obtain ⟨hEf1, hEf2, hdisj12, hnd12⟩ := nodup_mid f1 f2 _ (hfldec ▸ hnd)
        have hc0size : a + c0.size = memLen L + b.size := by
          rw [Block.size]
          omega
        have hflS3 : S3.fl = (a :: f1) ++ (a + c0.size) :: f2 := by
          rw [hfl3, hfldec, hc0size]
          rfl
        have hniS3 : a + c0.size ∉ a :: f1 := by
          intro hm
          rcases List.mem_cons.mp hm with he | hm2
          · have := c0.size_pos
            omega
          · rw [hc0size] at hm2
            exact hEf1 hm2
        have hdisj2S3 : ∀ p nx, (a :: f1).getLast? = some p → f2.head? = some nx →
            nx ≠ p := by
          intro p nx hp hnx
          have hnxm : nx ∈ f2 := List.mem_of_mem_head? hnx
          rcases List.mem_cons.mp (List.mem_of_mem_getLast? hp) with rfl | hpm
          · intro he
            exact hnafl (by rw [hfldec]; exact List.mem_append_right _ (List.mem_cons_of_mem _ (he ▸ hnxm)))
          · exact fun he => hdisj12 p hpm (he ▸ hnxm)
        obtain ⟨hCfl, hCms, hCml, ⟨M, hM, hMhdr, hMftr, hMlen⟩, hCfr, hCfa, hCgood, hCP⟩ :=
          coalesce_obs S3 a c0 bn3 (a :: f1) f2 hc0
            (by rw [hc0size]; exact hbn3)
            (by omega) (by omega)
            (by rw [goodBlock_iff]; exact ⟨by rw [f0, e0], by rw [g0]; omega, by omega⟩)
            (by rw [goodBlock_iff]
                exact ⟨by rw [fbn, ebn, hgbn.1], by rw [gbn, ebn, hgbn.2.1],
                  by rw [ebn]; omega⟩)
            hflS3 hniS3
            (by intro y hy; exact hblk3 y (by rw [← hfl3]; exact hy))
            hdisj2S3
        obtain ⟨P, Q, hPQ, hPlen, hskC⟩ := hCP
        have hEc : a + c0.size = a + (-b.hdr).toNat + 8 := by
          rw [Block.size]
          omega
        rw [hEc] at hCfl hCms hCml hM hCfr hCfa hskC hCgood
        have hskM : skel (coalesce S3 a (a + (-b.hdr).toNat + 8)).mem =
            skel (L ++ ({ hdr := -b.hdr + bn.hdr + 8, data := b.data ++ intCells 0 ++ intCells 0 ++ bn.data, ftr := -b.hdr + bn.hdr + 8 } : Block) :: R2) := by
          rw [hskC]
          have hskPQ : skel (P ++ c0 :: bn3 :: Q)
              = skel (L ++ ({ hdr := -b.hdr, data := b.data, ftr := -b.hdr } : Block)
                :: bn :: R2) := by
            rw [← hPQ]
            exact hsk3
          rcases skel_parts P c0 (bn3 :: Q) L _ _ hskPQ (by omega) with ⟨k1, k2, k3, k4⟩
          have k5 : bn3.hdr = bn.hdr ∧ bn3.data.length = bn.data.length ∧
              skel Q = skel R2 := by
            simp only [skel, List.map_cons, List.cons.injEq, Prod.mk.injEq] at k4
            exact ⟨k4.1.1, k4.1.2, k4.2⟩
          simp only [skel, List.map_append, List.map_cons] at k1 k5 ⊢
          rw [k1, k5.2.2]
          refine congrArg₂ _ rfl (congrArg₂ _ ?_ rfl)
          rw [Prod.mk.injEq]
          refine ⟨by rw [e0, k5.1], ?_⟩
          simp only [List.length_append, intCells, List.length_cons, List.length_nil]
          rw [g0, k5.2.1]
        refine ⟨coalesce S3 a (a + (-b.hdr).toNat + 8), ?_, ?_, by rw [hCms, hms3], ?_⟩
        · rw [myfree_eq s a b hw hb hneg]
          simp only []
          rw [← hS3def, htred]
          simp only []
          rw [if_pos hEne, hrdE, if_pos hbn]
        · refine wf_assemble _ (by rw [hCml, hml3, hml, hCms, hms3]) ?_
            (hCgood hgood3) ?_ ?_ ?_
          · exact ne_nil_of_skel _ _ hskM (by simp)
          · rw [hCfl]
            refine List.nodup_cons.mpr ⟨?_, hnd12⟩
            intro hm
            refine hnafl ?_
            rw [hfldec]
            rcases List.mem_append.mp hm with h1 | h2
            · exact List.mem_append_left _ h1
            · exact List.mem_append_right _ (List.mem_cons_of_mem _ h2)
          · intro z
            rw [hCfl, hCfa, hfa3]
            constructor
            · intro hz
              rcases List.mem_cons.mp hz with rfl | hz2
              · exact ⟨Or.inl rfl, by omega⟩
              · rcases List.mem_append.mp hz2 with h1 | h2
                · refine ⟨Or.inr ((hfliff z).mp (by rw [hfldec]; exact List.mem_append_left _ h1)), ?_⟩
                  intro he
                  rw [← hEarith] at he
                  exact hEf1 (by rw [he] at h1; exact h1)
                · refine ⟨Or.inr ((hfliff z).mp (by rw [hfldec]; exact List.mem_append_right _ (List.mem_cons_of_mem _ h2))), ?_⟩
                  intro he
                  rw [← hEarith] at he
                  exact hEf2 (by rw [he] at h2; exact h2)
            · rintro ⟨rfl | hz2, hzne⟩
              · exact List.mem_cons_self _ _
              · have hzfl : z ∈ s.fl := (hfliff z).mpr hz2
                rw [hfldec] at hzfl
                rcases List.mem_append.mp hzfl with h1 | h2
                · exact List.mem_cons_of_mem _ (List.mem_append_left _ h1)
                · rcases List.mem_cons.mp h2 with rfl | h3
                  · exact absurd (by rw [← hEarith]) hzne
                  · exact List.mem_cons_of_mem _ (List.mem_append_right _ h3)
          · rw [noAdjFree_eq_of_skel _ _ hskM]
            refine noAdjFree_single L _ R2 hnadjL
              ((noAdjFree_append_parts [bn] R2 hnadjR).2) hprevNA ?_
            exact noAdjFree_head_not_free bn R2 hnadjR hbn
        · refine ⟨L, bn :: R2, hbs, hadr,
            Or.inr (Or.inr (Or.inl ⟨bn, R2, f1, f2, rfl, hbn, hprevNN, ?_, ?_, hskM⟩))⟩
          · have e : memLen L + b.size = a + b.size := by omega
            rw [hfldec, e]
          · rw [hCfl]
            rfl
      · -- next allocated: no coalesce at all
        have hbnneg : bn.hdr < 0 := by
          have : bn.hdr ≠ 0 := by
            intro h0
            rw [h0] at hgbn
            omega
          omega
        refine ⟨S3, ?_, ?_, hms3, ?_⟩
        · rw [myfree_eq s a b hw hb hneg]
          simp only []
          rw [← hS3def, htred]
          simp only []
          rw [if_pos hEne, hrdE, if_neg hbn]
        · refine wf_assemble S3 (by rw [hml3, hml, hms3]) ?_ hgood3
            (by rw [hfl3]; exact List.nodup_cons.mpr ⟨hnafl, hnd⟩) ?_ ?_
          · exact ne_nil_of_skel _ _ hsk3 (by simp)
          · intro z
            rw [hfl3, hfa3]
            constructor
            · intro hz
              rcases List.mem_cons.mp hz with rfl | hz2
              · exact Or.inl rfl
              · exact Or.inr ((hfliff z).mp hz2)
            · rintro (rfl | hz2)
              · exact List.mem_cons_self _ _
              · exact List.mem_cons_of_mem _ ((hfliff z).mpr hz2)
          · rw [noAdjFree_eq_of_skel _ _ hsk3]
            exact noAdjFree_single L _ (bn :: R2) hnadjL hnadjR hprevNA
              (Or.inr ⟨bn, R2, rfl, by omega⟩)
        · exact ⟨L, bn :: R2, hbs, hadr, Or.inl ⟨hprevNN,
            Or.inr ⟨bn, R2, rfl, hbnneg⟩, hfl3, hsk3⟩⟩
  case neg =>
    have hLne : L ≠ [] := by
      intro he
      rw [he, memLen_nil] at hadr
      exact ha0 hadr.symm
    obtain ⟨L2, bp, hLdec⟩ : ∃ L2 bp, L = L2 ++ [bp] := by
      rcases List.eq_nil_or_concat L with he | ⟨L2, bp, hc⟩
      · exact absurd he hLne
      · exact ⟨L2, bp, by rw [hc, List.concat_eq_append]⟩
    subst hLdec
    have hgbp := (goodBlock_iff bp).mp (hgood bp (by rw [hbs]; simp))
    have hmemL : memLen (L2 ++ [bp]) = memLen L2 + bp.size := by
      rw [memLen_append, memLen_cons, memLen_nil]
      omega
    have hbpsz : bp.size = bp.data.length + 8 := rfl
    have hbpmem : getBlk s.mem (memLen L2) = some bp := by
      rw [hbs, List.append_assoc]
      exact getBlk_decomp L2 bp _
    have hpHne : memLen L2 ≠ a := by
      have := bp.size_pos
      omega
    obtain ⟨bp3, hbp3, ebp, fbp, gbp⟩ := hfr3 (memLen L2) hpHne bp hbpmem
    have hrdprev : readIntAt S3.mem (a - 4) = bp.hdr := by
      rcases decomp_of_getBlk _ _ _ hbp3 with ⟨P3, Q3, hP3, hP3len⟩
      have haddr : a - 4 = memLen P3 + 4 + bp3.data.length := by
        rw [← hP3len, gbp]
        omega
      rw [haddr, hP3, readIntAt_ftr, fbp, hgbp.1]
    have hnadjA : noAdjFree (L2 ++ bp :: b :: R) = true := by
      have h := hnadj'
      rw [List.append_assoc] at h
      exact h
    have hnadjL2 : noAdjFree L2 = true := (noAdjFree_append_parts L2 _ hnadjA).1
    by_cases hbp : 0 < bp.hdr
    · -- backward coalesce with the previous free block
      have hXsizeEq : memLen L2 + bp3.size = a := by
        rw [Block.size, gbp]
        omega
      have htred : (if a ≠ 0 then
          (if readIntAt S3.mem (a - 4) > 0 then
            (coalesce S3 (a - (readIntAt S3.mem (a - 4)).toNat - 8) a,
             a - (readIntAt S3.mem (a - 4)).toNat - 8,
             readIntAt (coalesce S3 (a - (readIntAt S3.mem (a - 4)).toNat - 8) a).mem
               (a - (readIntAt S3.mem (a - 4)).toNat - 8))
           else (S3, a, -b.hdr))
          else (S3, a, -b.hdr))
          = (coalesce S3 (memLen L2) a, memLen L2,
             readIntAt (coalesce S3 (memLen L2) a).mem (memLen L2)) := by
        rw [if_pos ha0, hrdprev, if_pos hbp]
        have hpa : a - bp.hdr.toNat - 8 = memLen L2 := by omega
        rw [hpa]
      obtain ⟨hCfl, hCms, hCml, ⟨M, hM, hMhdr, hMftr, hMlen⟩, hCfr, hCfa, hCgood, hCP⟩ :=
        coalesce_obs S3 (memLen L2) bp3 c0 [] s.fl hbp3
          (by rw [hXsizeEq]; exact hc0)
          (by omega) (by omega)
          (by rw [goodBlock_iff]
              exact ⟨by rw [fbp, hgbp.1, ← ebp], by rw [gbp, ebp, hgbp.2.1],
                by rw [ebp]; omega⟩)
          (by rw [goodBlock_iff]
              exact ⟨by rw [f0, e0], by rw [g0, e0]; omega, by rw [e0]; omega⟩)
          (by rw [hXsizeEq, hfl3, List.nil_append])
          (by simp)
          (by intro y hy; exact hblk3 y (by rw [← hfl3]; exact hy))
          (by intro p nx hp hnx; simp at hp)
      obtain ⟨P, Q, hPQ, hPlen, hskC⟩ := hCP
      rw [hXsizeEq] at hCfl hCms hCml hM hCfr hCfa hskC hCgood
      have hrdM : readIntAt (coalesce S3 (memLen L2) a).mem (memLen L2)
          = bp.hdr + -b.hdr + 8 := by
        rw [readIntAt_getBlk _ _ _ hM, hMhdr, ebp, e0]
      have hsk3a : skel S3.mem = skel (L2 ++ bp ::
          ({ hdr := -b.hdr, data := b.data, ftr := -b.hdr } : Block) :: R) := by
        rw [hsk3, List.append_assoc, List.singleton_append]
      have hskBN : skel (coalesce S3 (memLen L2) a).mem =
          skel (L2 ++ ({ hdr := bp.hdr + -b.hdr + 8, data := bp.data ++ intCells 0 ++ intCells 0 ++ b.data, ftr := bp.hdr + -b.hdr + 8 } : Block) :: R) := by
        rw [hskC]
        have hskPQ : skel (P ++ bp3 :: c0 :: Q)
            = skel (L2 ++ bp ::
              ({ hdr := -b.hdr, data := b.data, ftr := -b.hdr } : Block) :: R) := by
          rw [← hPQ, hsk3a]
        rcases skel_parts P bp3 (c0 :: Q) L2 bp _ hskPQ (by omega) with ⟨k1, k2, k3, k4⟩
        have k5 : c0.hdr = -b.hdr ∧ c0.data.length = b.data.length ∧
            skel Q = skel R := by
          simp only [skel, List.map_cons, List.cons.injEq, Prod.mk.injEq] at k4
          exact ⟨k4.1.1, k4.1.2, k4.2⟩
        simp only [skel, List.map_append, List.map_cons] at k1 k5 ⊢
        rw [k1, k5.2.2]
        refine congrArg₂ _ rfl (congrArg₂ _ ?_ rfl)
        rw [Prod.mk.injEq]
        refine ⟨by rw [k2, e0], ?_⟩
        simp only [List.length_append, intCells, List.length_cons, List.length_nil]
        rw [gbp, g0]
      have hflCO : (coalesce S3 (memLen L2) a).fl = s.fl := hCfl
      have hfliffCO : ∀ z, z ∈ s.fl ↔ z ∈ freeAddrs (coalesce S3 (memLen L2) a).mem := by
        intro z
        rw [hCfa, hfa3]
        constructor
        · intro hz
          exact ⟨Or.inr ((hfliff z).mp hz), fun he => hnafl (he ▸ hz)⟩
        · rintro ⟨rfl | hz2, hzne⟩
          · exact absurd rfl hzne
          · exact (hfliff z).mpr hz2
      have hEval : memLen L2 + (bp.hdr + -b.hdr + 8).toNat + 8
          = memLen (L2 ++ [bp]) + b.size := by
        rw [hmemL]
        omega
      cases R with
      | nil =>
        refine ⟨coalesce S3 (memLen L2) a, ?_, ?_, by rw [hCms, hms3], ?_⟩
        · rw [myfree_eq s a b hw hb hneg]
          simp only []
          rw [← hS3def, htred]
          simp only []
          rw [hrdM, if_neg (by rw [hmsz, memLen_nil] at *; omega :
            ¬ (memLen L2 + (bp.hdr + -b.hdr + 8).toNat + 8 ≠ s.msize))]
        · refine wf_assemble _ (by rw [hCml, hml3, hml, hCms, hms3]) ?_ (hCgood hgood3)
            (by rw [hflCO]; exact hnd) (by intro z; rw [hflCO]; exact hfliffCO z) ?_
          · exact ne_nil_of_skel _ _ hskBN (by simp)
          · rw [noAdjFree_eq_of_skel _ _ hskBN]
            refine noAdjFree_single L2 _ [] hnadjL2 rfl ?_ (Or.inl rfl)
            exact noAdjFree_last_not_free L2 bp (b :: []) hnadjA hbp
        · exact ⟨L2 ++ [bp], [], hbs, hadr,
            Or.inr (Or.inl ⟨L2, bp, rfl, hbp, Or.inl rfl, hflCO, hskBN⟩)⟩
      | cons bn R2 =>
        have hbnmem : getBlk s.mem (memLen (L2 ++ [bp]) + b.size) = some bn := by
          rw [hbs, getBlk_append_ge _ _ _ (by omega)]
          have e : memLen (L2 ++ [bp]) + b.size - memLen (L2 ++ [bp]) = b.size := by
            omega
          rw [e, getBlk_cons_skip _ _ _ (le_refl _), Nat.sub_self, getBlk, if_pos rfl]
        have hgbn := (goodBlock_iff bn).mp (hgood bn (by rw [hbs]; simp))
        have hEne : memLen L2 + (bp.hdr + -b.hdr + 8).toNat + 8 ≠ s.msize := by
          rw [hEval, hmsz, memLen_cons]
          have := bn.size_pos
          omega
        obtain ⟨bn3, hbn3, ebn, fbn, gbn⟩ :=
          hfr3 (memLen (L2 ++ [bp]) + b.size) (by have := b.size_pos; omega) bn hbnmem
        obtain ⟨bnC, hbnC, ebnC, fbnC, gbnC, -⟩ :=
          hCfr (memLen (L2 ++ [bp]) + b.size) bn3 hbn3
            (by have := bp.size_pos; have := b.size_pos; omega)
            (by have := b.size_pos; omega)
        have hrdE2 : readIntAt (coalesce S3 (memLen L2) a).mem
            (memLen L2 + (bp.hdr + -b.hdr + 8).toNat + 8) = bn.hdr := by
          rw [hEval, readIntAt_getBlk _ _ _ hbnC, ebnC, ebn]
        by_cases hbn : 0 < bn.hdr
        · -- both neighbours free
          have hEfl : (memLen (L2 ++ [bp]) + b.size) ∈ s.fl :=
            hsub2 _ ((freeAddrs_mem _ _).mpr ⟨(L2 ++ [bp]) ++ [b], bn, R2,
              by rw [hbs]; simp, hbn,
              by simp only [memLen_append, memLen_cons, memLen_nil]; omega⟩)
          obtain ⟨f1, f2, hfldec⟩ := List.append_of_mem hEfl
          obtain ⟨hEf1, hEf2, hdisj12, hnd12⟩ := nodup_mid f1 f2 _ (hfldec ▸ hnd)
          have hMsizeEq : memLen L2 + M.size = memLen (L2 ++ [bp]) + b.size := by
            rw [Block.size, hMlen, hmemL]
            omega
          have hblkCO : ∀ y ∈ (coalesce S3 (memLen L2) a).fl,
              ∃ c, getBlk (coalesce S3 (memLen L2) a).mem y = some c ∧
                8 ≤ c.data.length := by
            intro y hy
            rw [hflCO] at hy
            by_cases hyp : y = memLen L2
            · subst hyp
              exact ⟨M, hM, by rw [hMlen, gbp]; omega⟩
            · have hya : y ≠ a := fun he => hnafl (he ▸ hy)
              rcases wf_fl_getBlk s hw y hy with ⟨cy, hcy, h8y, -, hly⟩
              obtain ⟨cy3, hcy3, -, -, gy3⟩ := hfr3 y hya cy hcy
              obtain ⟨cyC, hcyC, -, -, gyC, -⟩ := hCfr y cy3 hcy3 hyp hya
              exact ⟨cyC, hcyC, by omega⟩
          obtain ⟨hDfl, hDms, hDml, ⟨M2, hM2, hM2hdr, hM2ftr, hM2len⟩,
              hDfr, hDfa, hDgood, hDP⟩ :=
            coalesce_obs (coalesce S3 (memLen L2) a) (memLen L2) M bnC f1 f2 hM
              (by rw [hMsizeEq]; exact hbnC)
              (by rw [hMhdr, ebp, e0]; omega) (by rw [ebnC, ebn]; exact hbn)
              (by rw [goodBlock_iff]
                  refine ⟨by rw [hMftr, hMhdr], ?_, ?_⟩
                  · rw [hMlen, hMhdr, gbp, g0, ebp, e0]
                    omega
                  · rw [hMhdr, ebp, e0]
                    omega)
              (by rw [goodBlock_iff]
                  exact ⟨by rw [fbnC, fbn, ebnC, ebn, hgbn.1],
                    by rw [gbnC, gbn, ebnC, ebn, hgbn.2.1], by rw [ebnC, ebn]; omega⟩)
              (by rw [hflCO, hfldec, hMsizeEq])
              (by rw [hMsizeEq]; exact hEf1)
              hblkCO
              (by intro p nx hp hnx
                  have hpm : p ∈ f1 := List.mem_of_mem_getLast? hp
                  exact fun he => hdisj12 p hpm (he ▸ List.mem_of_mem_head? hnx))
          obtain ⟨P2, Q2, hPQ2, hPlen2, hskC2⟩ := hDP
          have hE2 : memLen L2 + M.size
              = memLen L2 + (bp.hdr + -b.hdr + 8).toNat + 8 := by
            rw [hMsizeEq, hEval]
          rw [hE2] at hDfl hDms hDml hM2 hDfr hDfa hDgood hskC2
          have hskBB : skel (coalesce (coalesce S3 (memLen L2) a) (memLen L2)
              (memLen L2 + (bp.hdr + -b.hdr + 8).toNat + 8)).mem =
              skel (L2 ++ ({ hdr := bp.hdr + -b.hdr + 8 + bn.hdr + 8, data := bp.data ++ intCells 0 ++ intCells 0 ++ b.data ++ intCells 0 ++ intCells 0 ++ bn.data, ftr := bp.hdr + -b.hdr + 8 + bn.hdr + 8 } : Block) :: R2) := by
            rw [hskC2]
            have hskPQ2 : skel (P2 ++ M :: bnC :: Q2)
                = skel (L2 ++ ({ hdr := bp.hdr + -b.hdr + 8, data := bp.data ++ intCells 0 ++ intCells 0 ++ b.data, ftr := bp.hdr + -b.hdr + 8 } : Block) :: bn :: R2) := by
              rw [← hPQ2]
              exact hskBN
            rcases skel_parts P2 M (bnC :: Q2) L2 _ _ hskPQ2 (by omega) with
              ⟨k1, k2, k3, k4⟩
            have k5 : bnC.hdr = bn.hdr ∧ bnC.data.length = bn.data.length ∧
                skel Q2 = skel R2 := by
              simp only [skel, List.map_cons, List.cons.injEq, Prod.mk.injEq] at k4
              exact ⟨k4.1.1, k4.1.2, k4.2⟩
            simp only [skel, List.map_append, List.map_cons] at k1 k5 ⊢
            rw [k1, k5.2.2]
            refine congrArg₂ _ rfl (congrArg₂ _ ?_ rfl)
            rw [Prod.mk.injEq]
            refine ⟨by rw [k2, k5.1], ?_⟩
            simp only [List.length_append, intCells, List.length_cons, List.length_nil]
            rw [hMlen, gbp, g0, k5.2.1]
          refine ⟨coalesce (coalesce S3 (memLen L2) a) (memLen L2)
            (memLen L2 + (bp.hdr + -b.hdr + 8).toNat + 8), ?_, ?_,
            by rw [hDms, hCms, hms3], ?_⟩
          · rw [myfree_eq s a b hw hb hneg]
            simp only []
            rw [← hS3def, htred]
            simp only []
            rw [hrdM, if_pos hEne, hrdE2, if_pos hbn]
          · refine wf_assemble _
              (by rw [hDml, hCml, hml3, hml, hDms, hCms, hms3]) ?_
              (hDgood (hCgood hgood3)) (by rw [hDfl]; exact hnd12) ?_ ?_
            · exact ne_nil_of_skel _ _ hskBB (by simp)
            · intro z
              rw [hDfl, hDfa]
              constructor
              · intro hz
                rcases List.mem_append.mp hz with h1 | h2
                · refine ⟨(hfliffCO z).mp (by rw [hfldec]; exact List.mem_append_left _ h1), ?_⟩
                  intro he
                  rw [hEval] at he
                  exact hEf1 (he ▸ h1)
                · refine ⟨(hfliffCO z).mp (by rw [hfldec]; exact List.mem_append_right _ (List.mem_cons_of_mem _ h2)), ?_⟩
                  intro he
                  rw [hEval] at he
                  exact hEf2 (he ▸ h2)
              · rintro ⟨hz, hzne⟩
                have hzfl : z ∈ s.fl := (hfliffCO z).mpr hz
                rw [hfldec] at hzfl
                rcases List.mem_append.mp hzfl with h1 | h2
                · exact List.mem_append_left _ h1
                · rcases List.mem_cons.mp h2 with rfl | h3
                  · exact absurd (by rw [← hEval]) hzne
                  · exact List.mem_append_right _ h3
            · rw [noAdjFree_eq_of_skel _ _ hskBB]
              refine noAdjFree_single L2 _ R2 hnadjL2
                ((noAdjFree_append_parts [bn] R2 hnadjR).2) ?_ ?_
              · exact noAdjFree_last_not_free L2 bp (b :: bn :: R2) hnadjA hbp
              · exact noAdjFree_head_not_free bn R2 hnadjR hbn
          · refine ⟨L2 ++ [bp], bn :: R2, hbs, hadr,
              Or.inr (Or.inr (Or.inr ⟨L2, bp, bn, R2, f1, f2, rfl, hbp, rfl, hbn, ?_, hDfl, hskBB⟩))⟩
            have e : memLen (L2 ++ [bp]) + b.size = a + b.size := by omega
            rw [hfldec, e]
        · -- previous free, next allocated
          have hbnneg : bn.hdr < 0 := by
            have : bn.hdr ≠ 0 := by
              intro h0
              rw [h0] at hgbn
              omega
            omega
          refine ⟨coalesce S3 (memLen L2) a, ?_, ?_, by rw [hCms, hms3], ?_⟩
          · rw [myfree_eq s a b hw hb hneg]
            simp only []
            rw [← hS3def, htred]
            simp only []
            rw [hrdM, if_pos hEne, hrdE2, if_neg hbn]
          · refine wf_assemble _ (by rw [hCml, hml3, hml, hCms, hms3]) ?_ (hCgood hgood3)
              (by rw [hflCO]; exact hnd) (by intro z; rw [hflCO]; exact hfliffCO z) ?_
            · exact ne_nil_of_skel _ _ hskBN (by simp)
            · rw [noAdjFree_eq_of_skel _ _ hskBN]
              refine noAdjFree_single L2 _ (bn :: R2) hnadjL2 hnadjR ?_
                (Or.inr ⟨bn, R2, rfl, by omega⟩)
              exact noAdjFree_last_not_free L2 bp (b :: bn :: R2) hnadjA hbp
          · exact ⟨L2 ++ [bp], bn :: R2, hbs, hadr,
              Or.inr (Or.inl ⟨L2, bp, rfl, hbp,
                Or.inr ⟨bn, R2, rfl, hbnneg⟩, hflCO, hskBN⟩)⟩
    · -- previous block allocated: no backward coalesce
      have hbpneg : bp.hdr < 0 := by
        have : bp.hdr ≠ 0 := by
          intro h0
          rw [h0] at hgbp
          omega
        omega
      have hprevNN : L2 ++ [bp] = [] ∨ ∃ L3 bq, L2 ++ [bp] = L3 ++ [bq] ∧ bq.hdr < 0 :=
        Or.inr ⟨L2, bp, rfl, hbpneg⟩
      have hprevNA : L2 ++ [bp] = [] ∨ ∃ L3 bq, L2 ++ [bp] = L3 ++ [bq] ∧ ¬ 0 < bq.hdr :=
        Or.inr ⟨L2, bp, rfl, by omega⟩
      have htred : (if a ≠ 0 then
          (if readIntAt S3.mem (a - 4) > 0 then
            (coalesce S3 (a - (readIntAt S3.mem (a - 4)).toNat - 8) a,
             a - (readIntAt S3.mem (a - 4)).toNat - 8,
             readIntAt (coalesce S3 (a - (readIntAt S3.mem (a - 4)).toNat - 8) a).mem
               (a - (readIntAt S3.mem (a - 4)).toNat - 8))
           else (S3, a, -b.hdr))
          else (S3, a, -b.hdr)) = (S3, a, -b.hdr) := by
        rw [if_pos ha0, hrdprev, if_neg hbp]
      cases R with
      | nil =>
        refine ⟨S3, ?_, ?_, hms3, ?_⟩
        · rw [myfree_eq s a b hw hb hneg]
          simp only []
          rw [← hS3def, htred]
          simp only []
          rw [if_neg (by rw [hmsz, memLen_nil]; omega :
            ¬ (a + (-b.hdr).toNat + 8 ≠ s.msize))]
        · refine wf_assemble S3 (by rw [hml3, hml, hms3]) ?_ hgood3
            (by rw [hfl3]; exact List.nodup_cons.mpr ⟨hnafl, hnd⟩) ?_ ?_
          · exact ne_nil_of_skel _ _ hsk3 (by simp)
          · intro z
            rw [hfl3, hfa3]
            constructor
            · intro hz
              rcases List.mem_cons.mp hz with rfl | hz2
              · exact Or.inl rfl
              · exact Or.inr ((hfliff z).mp hz2)
            · rintro (rfl | hz2)
              · exact List.mem_cons_self _ _
              · exact List.mem_cons_of_mem _ ((hfliff z).mpr hz2)
          · rw [noAdjFree_eq_of_skel _ _ hsk3]
            exact noAdjFree_single _ _ [] hnadjL rfl hprevNA (Or.inl rfl)
        · exact ⟨L2 ++ [bp], [], hbs, hadr, Or.inl ⟨hprevNN, Or.inl rfl, hfl3, hsk3⟩⟩
      | cons bn R2 =>
        have hbnmem : getBlk s.mem (memLen (L2 ++ [bp]) + b.size) = some bn := by
          rw [hbs, getBlk_append_ge _ _ _ (by omega)]
          have e : memLen (L2 ++ [bp]) + b.size - memLen (L2 ++ [bp]) = b.size := by
            omega
          rw [e, getBlk_cons_skip _ _ _ (le_refl _), Nat.sub_self, getBlk, if_pos rfl]
        have hgbn := (goodBlock_iff bn).mp (hgood bn (by rw [hbs]; simp))
        have hEne : a + (-b.hdr).toNat + 8 ≠ s.msize := by
          rw [hmsz, memLen_cons]
          have := bn.size_pos
          omega
        obtain ⟨bn3, hbn3, ebn, fbn, gbn⟩ :=
          hfr3 (memLen (L2 ++ [bp]) + b.size) (by have := b.size_pos; omega) bn hbnmem
        have hrdE : readIntAt S3.mem (a + (-b.hdr).toNat + 8) = bn.hdr := by
          rw [← hEarith, readIntAt_getBlk _ _ _ hbn3, ebn]
        by_cases hbn : 0 < bn.hdr
        · -- forward coalesce only, previous allocated
          have hEfl : (memLen (L2 ++ [bp]) + b.size) ∈ s.fl :=
            hsub2 _ ((freeAddrs_mem _ _).mpr ⟨(L2 ++ [bp]) ++ [b], bn, R2,
              by rw [hbs]; simp, hbn,
              by simp only [memLen_append, memLen_cons, memLen_nil]; omega⟩)
          obtain ⟨f1, f2, hfldec⟩ := List.append_of_mem hEfl
          obtain ⟨hEf1, hEf2, hdisj12, hnd12⟩ := nodup_mid f1 f2 _ (hfldec ▸ hnd)
          have hc0size : a + c0.size = memLen (L2 ++ [bp]) + b.size := by
            rw [Block.size]
            omega
          have hflS3 : S3.fl = (a :: f1) ++ (a + c0.size) :: f2 := by
            rw [hfl3, hfldec, hc0size]
            rfl
          have hniS3 : a + c0.size ∉ a :: f1 := by
            intro hm
            rcases List.mem_cons.mp hm with he | hm2
            · have := c0.size_pos
              omega
            · rw [hc0size] at hm2
              exact hEf1 hm2
          have hdisj2S3 : ∀ p nx, (a :: f1).getLast? = some p → f2.head? = some nx →
              nx ≠ p := by
            intro p nx hp hnx
            have hnxm : nx ∈ f2 := List.mem_of_mem_head? hnx
            rcases List.mem_cons.mp (List.mem_of_mem_getLast? hp) with rfl | hpm
            · intro he
              exact hnafl (by rw [hfldec]; exact List.mem_append_right _ (List.mem_cons_of_mem _ (he ▸ hnxm)))
            · exact fun he => hdisj12 p hpm (he ▸ hnxm)
          obtain ⟨hCfl, hCms, hCml, ⟨M, hM, hMhdr, hMftr, hMlen⟩, hCfr, hCfa, hCgood, hCP⟩ :=
            coalesce_obs S3 a c0 bn3 (a :: f1) f2 hc0
              (by rw [hc0size]; exact hbn3)
              (by omega) (by omega)
              (by rw [goodBlock_iff]; exact ⟨by rw [f0, e0], by rw [g0]; omega, by omega⟩)
              (by rw [goodBlock_iff]
                  exact ⟨by rw [fbn, ebn, hgbn.1], by rw [gbn, ebn, hgbn.2.1],
                    by rw [ebn]; omega⟩)
              hflS3 hniS3
              (by intro y hy; exact hblk3 y (by rw [← hfl3]; exact hy))
              hdisj2S3
          obtain ⟨P, Q, hPQ, hPlen, hskC⟩ := hCP
          have hEc : a + c0.size = a + (-b.hdr).toNat + 8 := by
            rw [Block.size]
            omega
          rw [hEc] at hCfl hCms hCml hM hCfr hCfa hskC hCgood
          have hskM : skel (coalesce S3 a (a + (-b.hdr).toNat + 8)).mem =
              skel ((L2 ++ [bp]) ++ ({ hdr := -b.hdr + bn.hdr + 8, data := b.data ++ intCells 0 ++ intCells 0 ++ bn.data, ftr := -b.hdr + bn.hdr + 8 } : Block) :: R2) := by
            rw [hskC]
            have hskPQ : skel (P ++ c0 :: bn3 :: Q)
                = skel ((L2 ++ [bp]) ++
                  ({ hdr := -b.hdr, data := b.data, ftr := -b.hdr } : Block)
                    :: bn :: R2) := by
              rw [← hPQ]
              exact hsk3
            rcases skel_parts P c0 (bn3 :: Q) (L2 ++ [bp]) _ _ hskPQ (by omega) with
              ⟨k1, k2, k3, k4⟩
            have k5 : bn3.hdr = bn.hdr ∧ bn3.data.length = bn.data.length ∧
                skel Q = skel R2 := by
              simp only [skel, List.map_cons, List.cons.injEq, Prod.mk.injEq] at k4
              exact ⟨k4.1.1, k4.1.2, k4.2⟩
            simp only [skel, List.map_append, List.map_cons] at k1 k5 ⊢
            rw [k1, k5.2.2]
            refine congrArg₂ _ rfl (congrArg₂ _ ?_ rfl)
            rw [Prod.mk.injEq]
            refine ⟨by rw [e0, k5.1], ?_⟩
            simp only [List.length_append, intCells, List.length_cons, List.length_nil]
            rw [g0, k5.2.1]
          refine ⟨coalesce S3 a (a + (-b.hdr).toNat + 8), ?_, ?_,
            by rw [hCms, hms3], ?_⟩
          · rw [myfree_eq s a b hw hb hneg]
            simp only []
            rw [← hS3def, htred]
            simp only []
            rw [if_pos hEne, hrdE, if_pos hbn]
          · refine wf_assemble _ (by rw [hCml, hml3, hml, hCms, hms3]) ?_
              (hCgood hgood3) ?_ ?_ ?_
            · exact ne_nil_of_skel _ _ hskM (by simp)
            · rw [hCfl]
              refine List.nodup_cons.mpr ⟨?_, hnd12⟩
              intro hm
              refine hnafl ?_
              rw [hfldec]
              rcases List.mem_append.mp hm with h1 | h2
              · exact List.mem_append_left _ h1
              · exact List.mem_append_right _ (List.mem_cons_of_mem _ h2)
            · intro z
              rw [hCfl, hCfa, hfa3]
              constructor
              · intro hz
                rcases List.mem_cons.mp hz with rfl | hz2
                · exact ⟨Or.inl rfl, by omega⟩
                · rcases List.mem_append.mp hz2 with h1 | h2
                  · refine ⟨Or.inr ((hfliff z).mp (by rw [hfldec]; exact List.mem_append_left _ h1)), ?_⟩
                    intro he
                    rw [← hEarith] at he
                    exact hEf1 (by rw [he] at h1; exact h1)
                  · refine ⟨Or.inr ((hfliff z).mp (by rw [hfldec]; exact List.mem_append_right _ (List.mem_cons_of_mem _ h2))), ?_⟩
                    intro he
                    rw [← hEarith] at he
                    exact hEf2 (by rw [he] at h2; exact h2)
              · rintro ⟨rfl | hz2, hzne⟩
                · exact List.mem_cons_self _ _
                · have hzfl : z ∈ s.fl := (hfliff z).mpr hz2
                  rw [hfldec] at hzfl
                  rcases List.mem_append.mp hzfl with h1 | h2
                  · exact List.mem_cons_of_mem _ (List.mem_append_left _ h1)
                  · rcases List.mem_cons.mp h2 with rfl | h3
                    · exact absurd (by rw [← hEarith]) hzne
                    · exact List.mem_cons_of_mem _ (List.mem_append_right _ h3)
            · rw [noAdjFree_eq_of_skel _ _ hskM]
              refine noAdjFree_single _ _ R2 hnadjL
                ((noAdjFree_append_parts [bn] R2 hnadjR).2) hprevNA ?_
              exact noAdjFree_head_not_free bn R2 hnadjR hbn
          · refine ⟨L2 ++ [bp], bn :: R2, hbs, hadr,
              Or.inr (Or.inr (Or.inl ⟨bn, R2, f1, f2, rfl, hbn, hprevNN, ?_, ?_, hskM⟩))⟩
            · have e : memLen (L2 ++ [bp]) + b.size = a + b.size := by omega
              rw [hfldec, e]
            · rw [hCfl]
              rfl
        · -- neither neighbour free
          have hbnneg : bn.hdr < 0 := by
            have : bn.hdr ≠ 0 := by
              intro h0
              rw [h0] at hgbn
              omega
            omega
          refine ⟨S3, ?_, ?_, hms3, ?_⟩
          · rw [myfree_eq s a b hw hb hneg]
            simp only []
            rw [← hS3def, htred]
            simp only []
            rw [if_pos hEne, hrdE, if_neg hbn]
          · refine wf_assemble S3 (by rw [hml3, hml, hms3]) ?_ hgood3
              (by rw [hfl3]; exact List.nodup_cons.mpr ⟨hnafl, hnd⟩) ?_ ?_
            · exact ne_nil_of_skel _ _ hsk3 (by simp)
            · intro z
              rw [hfl3, hfa3]
              constructor
              · intro hz
                rcases List.mem_cons.mp hz with rfl | hz2
                · exact Or.inl rfl
                · exact Or.inr ((hfliff z).mp hz2)
              · rintro (rfl | hz2)
                · exact List.mem_cons_self _ _
                · exact List.mem_cons_of_mem _ ((hfliff z).mpr hz2)
            · rw [noAdjFree_eq_of_skel _ _ hsk3]
              exact noAdjFree_single _ _ (bn :: R2) hnadjL hnadjR hprevNA
                (Or.inr ⟨bn, R2, rfl, by omega⟩)
          · exact ⟨L2 ++ [bp], bn :: R2, hbs, hadr, Or.inl ⟨hprevNN,
              Or.inr ⟨bn, R2, rfl, hbnneg⟩, hfl3, hsk3⟩⟩

/-! #### C6: the backward-coalescing address, corrected -/

/-- C6: during backward coalescing, the previous block's header address
actually used is `payload_begin - prev_footer - 3T`, one tag word below
the claimed `payload_begin - prev_footer - 2T`: the code computes
`dataptr - prevSpace - 2 * sizeof(int)` starting from the block pointer
`dataptr = payload_begin - T`, not from the payload pointer.  With a
free previous neighbour `bp` (whose footer `bp.hdr > 0` is the word read
at `payload_begin - 2T`) and an allocated or absent next neighbour,
`myfree` merges into a block whose header lies at
`payload_begin - prev_footer - 3T = memLen L2`, and the claimed address
`payload_begin - prev_footer - 2T` is not that header address. -/
theorem claim6_thm (s : AState) (a : Nat) (bp b : Block) (L2 R : List Block)
    (hw : wf s = true) (hb : s.mem = (L2 ++ [bp]) ++ b :: R)
    (hadr : memLen (L2 ++ [bp]) = a) (hbp : 0 < bp.hdr) (hneg : b.hdr < 0)
    (hR : R = [] ∨ ∃ bn R2, R = bn :: R2 ∧ bn.hdr < 0) :
    readIntAt s.mem (a + 4 - 8) = bp.hdr ∧
    ∃ s' M, myfree s (a + 4) = some s' ∧
      getBlk s'.mem (a + 4 - bp.hdr.toNat - 12) = some M ∧
      M.hdr = bp.hdr + -b.hdr + 8 ∧
      a + 4 - bp.hdr.toNat - 12 = memLen L2 ∧
      a + 4 - bp.hdr.toNat - 8 ≠ memLen L2 := by
  rcases (wf_iff s).mp hw with ⟨-, -, hgood, -, -, -, -⟩
  have hgbp := (goodBlock_iff bp).mp (hgood bp (by rw [hb]; simp))
  have hbpsz : bp.size = bp.data.length + 8 := rfl
  have hmemL : memLen (L2 ++ [bp]) = memLen L2 + bp.size := by
    simp only [memLen_append, memLen_cons, memLen_nil]
    omega
  have hlenEq : bp.data.length = bp.hdr.toNat := by
    have := hgbp.2.1
    omega
  have hgb : getBlk s.mem a = some b := by
    rw [hb, ← hadr]
    exact getBlk_decomp _ b R
  have hsmem' : s.mem = L2 ++ bp :: b :: R := by
    rw [hb, List.append_assoc, List.singleton_append]
  have haddr4 : a + 4 - 8 = memLen L2 + 4 + bp.data.length := by omega
  have hrd : readIntAt s.mem (a + 4 - 8) = bp.hdr := by
    rw [hsmem', haddr4, readIntAt_ftr, hgbp.1]
  have concat_inj : ∀ (X Y : List Block) (x y : Block),
      X ++ [x] = Y ++ [y] → X = Y ∧ x = y := by
    intro X Y x y h
    have h2 := List.append_inj' h rfl
    exact ⟨h2.1, by simpa using h2.2⟩
  obtain ⟨s', hrun, hwf', hms', hcase⟩ := myfree_obs s a b hw hgb hneg
  simp only [myfreeCase] at hcase
  obtain ⟨L', R', hbs', hadr', hdisj⟩ := hcase
  obtain ⟨rfl, -, rfl⟩ :=
    decomp_unique L' b R' (L2 ++ [bp]) b R (by rw [← hbs', ← hb]) (by omega)
  refine ⟨hrd, ?_⟩
  rcases hdisj with ⟨hprev, -, -, -⟩ | ⟨L2', bp', hLeq, hbp', -, -, hsk'⟩ |
    ⟨bn, R2, f1, f2, -, -, hprev, -, -, -⟩ |
    ⟨L2', bp', bn3, R23, f1, f2, -, -, hReq, hbn3, -, -, -⟩
  · rcases hprev with he | ⟨L2', bp', hLeq, hbp'⟩
    · exact absurd he (by simp)
    · obtain ⟨-, rfl⟩ := concat_inj _ _ _ _ hLeq
      exact absurd hbp (by omega)
  · obtain ⟨rfl, rfl⟩ := concat_inj _ _ _ _ hLeq
    obtain ⟨P2, M2, Q2, hdec, -, hMh, -, -, hmlP⟩ :=
      skel_decomp_transfer s'.mem L2 _ _ hsk'
    refine ⟨s', M2, hrun, ?_, ?_, ?_, ?_⟩
    · have e : a + 4 - bp.hdr.toNat - 12 = memLen P2 := by omega
      rw [e, hdec]
      exact getBlk_decomp P2 M2 Q2
    · exact hMh
    · omega
    · omega
  · rcases hprev with he | ⟨L2', bp', hLeq, hbp'⟩
    · exact absurd he (by simp)
    · obtain ⟨-, rfl⟩ := concat_inj _ _ _ _ hLeq
      exact absurd hbp (by omega)
  · rcases hR with he | ⟨bn2, R22, he, hbn2⟩
    · rw [he] at hReq
      exact absurd hReq (by simp)
    · rw [he] at hReq
      injection hReq with h1 h2
      rw [h1] at hbn2
      exact absurd hbn3 (by omega)

/-- Witness for C6 on `exTwo` (`[free 8 | allocated 8]`, 32-byte arena):
freeing the payload at 20 reads the previous footer 8 at address 12 and
merges into a 24-payload free block headquartered at 0 = 20 - 8 - 12,
while the claimed formula 20 - 8 - 8 = 4 names no block header. -/
theorem claim6_wit :
    readIntAt exTwo.mem (16 + 4 - 8) = 8 ∧
    ∃ s' M, myfree exTwo (16 + 4) = some s' ∧
      getBlk s'.mem (16 + 4 - (8 : Int).toNat - 12) = some M ∧
      M.hdr = 8 + -(-8 : Int) + 8 ∧
      16 + 4 - (8 : Int).toNat - 12 = memLen ([] : List Block) ∧
      16 + 4 - (8 : Int).toNat - 8 ≠ memLen ([] : List Block) :=
  claim6_thm exTwo 16 { hdr := 8, data := linkCells none none, ftr := 8 }
    { hdr := -8, data := userRun 10 8, ftr := -8 } [] []
    (by decide) (by decide) (by decide) (by decide) (by decide) (Or.inl rfl)

/-! #### `validPayload`: the well-formed-call precondition, characterized -/

theorem validPayloadGo_iff (bs : List Block) (base p : Nat) :
    validPayloadGo bs base p = true ↔
      ∃ L b R, bs = L ++ b :: R ∧ p = base + memLen L + 4 ∧ b.hdr < 0 := by
  induction bs generalizing base with
  | nil =>
    constructor
    · intro h
      exact absurd h (by simp [validPayloadGo])
    · rintro ⟨L, b, R, hnil, -, -⟩
      exact absurd hnil (by simp)
  | cons b bs ih =>
    rw [validPayloadGo]
    simp only [Bool.or_eq_true, Bool.and_eq_true, decide_eq_true_eq, ih]
    constructor
    · rintro (⟨hp, hneg⟩ | ⟨L, c, R, hdec, hp, hneg⟩)
      · exact ⟨[], b, bs, rfl, by rw [memLen_nil]; omega, hneg⟩
      · exact ⟨b :: L, c, R, by rw [hdec, List.cons_append], by rw [memLen_cons]; omega, hneg⟩
    · rintro ⟨L, c, R, hdec, hp, hneg⟩
      match L, hdec with
      | [], hdec =>
        rw [memLen_nil] at hp
        have hbc : b = c := by simpa using congrArg (fun l => l.head?) hdec
        subst hbc
        exact Or.inl ⟨by omega, hneg⟩
      | d :: L, hdec =>
        have hbd : b = d := by simpa using congrArg (fun l => l.head?) hdec
        subst hbd
        have hbs' : bs = L ++ c :: R := by simpa using hdec
        rw [memLen_cons] at hp
        exact Or.inr ⟨L, c, R, hbs', by omega, hneg⟩

theorem validPayload_elim (s : AState) (p : Nat) (h : validPayload s p = true) :
    ∃ a b, p = a + 4 ∧ getBlk s.mem a = some b ∧ b.hdr < 0 := by
  rw [validPayload, validPayloadGo_iff] at h
  obtain ⟨L, b, R, hdec, hp, hneg⟩ := h
  exact ⟨memLen L, b, by omega, by rw [hdec]; exact getBlk_decomp L b R, hneg⟩

/-- `myfree` on a valid payload of a well-formed state yields a
well-formed state of the same arena size, in one of the four
coalescing cases. -/
theorem myfree_wf (s s' : AState) (p : Nat) (hw : wf s = true)
    (hv : validPayload s p = true) (hrun : myfree s p = some s') :
    wf s' = true ∧ s'.msize = s.msize ∧
      ∃ a b, p = a + 4 ∧ getBlk s.mem a = some b ∧ b.hdr < 0 ∧ myfreeCase s a b s' := by
  obtain ⟨a, b, rfl, hgb, hneg⟩ := validPayload_elim s p hv
  obtain ⟨s2, hrun2, hwf2, hms2, hcase⟩ := myfree_obs s a b hw hgb hneg
  rw [hrun2] at hrun
  obtain rfl := Option.some.inj hrun
  exact ⟨hwf2, hms2, a, b, rfl, hgb, hneg, hcase⟩

/-! #### `myalloc` preserves the heap invariant -/

theorem myalloc_wf (s : AState) (size : Int) (hw : wf s = true) :
    wf (myalloc s size).1 = true ∧ (myalloc s size).1.msize = s.msize := by
  match hf : findHead s size with
  | none =>
    have he : myalloc s size = (s, none) := by rw [myalloc, hf]
    rw [he]
    exact ⟨hw, rfl⟩
  | some a =>
    have hafl : a ∈ s.fl := by
      have h3 := claim3_thm s size
      rw [hf] at h3
      exact (specFindFit_qual s.mem size s.fl a h3.symm).1
    obtain ⟨l1, l2, hfl⟩ := List.append_of_mem hafl
    obtain ⟨hna1, hna2, hdisj, hnd12⟩ :=
      nodup_mid l1 l2 a (hfl ▸ ((wf_iff s).mp hw).2.2.2.1)
    obtain ⟨b, hgb, h8b, hfb, hlenb⟩ := wf_fl_getBlk s hw a hafl
    rcases (wf_iff s).mp hw with ⟨hml, hne, hgood, hnd, hsub1, hsub2, hnadj⟩
    have hmpos : 8 ≤ s.msize := by
      obtain ⟨L, R, hdec, -⟩ := decomp_of_getBlk s.mem a b hgb
      rw [hdec, memLen_append, memLen_cons] at hml
      have := b.eight_le_size
      omega
    have hnenil : ∀ (m : List Block), memLen m = s.msize → m ≠ [] := by
      intro m hm he
      rw [he, memLen_nil] at hm
      omega
    by_cases hsplt : b.hdr > max size 8 + 16
    · obtain ⟨-, hms, hfl', -, -, -, hmlen, hfa, hnadj', hgood', hsufnone⟩ :=
        myalloc_split_obs s size a b l1 l2 hw hf hgb hfl hsplt
      have hsufnfl : a + 8 + (max size 8).toNat ∉ s.fl := by
        intro hm
        obtain ⟨bb, hbb, -⟩ := wf_fl_getBlk s hw _ hm
        rw [hsufnone] at hbb
        exact Option.noConfusion hbb
      refine ⟨wf_assemble _ (by rw [hmlen, hml, hms]) (hnenil _ (by rw [hmlen, hml]))
        hgood' ?_ ?_ hnadj', hms⟩
      · rw [hfl']
        refine List.nodup_cons.mpr ⟨?_, hnd12⟩
        intro hm
        refine hsufnfl ?_
        rw [hfl]
        rcases List.mem_append.mp hm with h1 | h2
        · exact List.mem_append_left _ h1
        · exact List.mem_append_right _ (List.mem_cons_of_mem _ h2)
      · intro z
        rw [hfl', hfa]
        constructor
        · intro hz
          rcases List.mem_cons.mp hz with rfl | hz2
          · exact Or.inl rfl
          · rcases List.mem_append.mp hz2 with h1 | h2
            · exact Or.inr ⟨hsub1 z (by rw [hfl]; exact List.mem_append_left _ h1),
                fun he => hna1 (he ▸ h1)⟩
            · exact Or.inr ⟨hsub1 z
                (by rw [hfl]; exact List.mem_append_right _ (List.mem_cons_of_mem _ h2)),
                fun he => hna2 (he ▸ h2)⟩
        · rintro (rfl | ⟨hz2, hzne⟩)
          · exact List.mem_cons_self _ _
          · have hzfl : z ∈ s.fl := hsub2 z hz2
            rw [hfl] at hzfl
            rcases List.mem_append.mp hzfl with h1 | h2
            · exact List.mem_cons_of_mem _ (List.mem_append_left _ h1)
            · rcases List.mem_cons.mp h2 with rfl | h3
              · exact absurd rfl hzne
              · exact List.mem_cons_of_mem _ (List.mem_append_right _ h3)
    · obtain ⟨-, hms, hfl', -, -, hmlen, hfa, hnadj', hgood'⟩ :=
        myalloc_nosplit_obs s size a b l1 l2 hw hf hgb hfl hsplt
      refine ⟨wf_assemble _ (by rw [hmlen, hml, hms]) (hnenil _ (by rw [hmlen, hml]))
        hgood' (by rw [hfl']; exact hnd12) ?_ hnadj', hms⟩
      intro z
      rw [hfl', hfa]
      constructor
      · intro hz
        rcases List.mem_append.mp hz with h1 | h2
        · exact ⟨hsub1 z (by rw [hfl]; exact List.mem_append_left _ h1),
            fun he => hna1 (he ▸ h1)⟩
        · exact ⟨hsub1 z
            (by rw [hfl]; exact List.mem_append_right _ (List.mem_cons_of_mem _ h2)),
            fun he => hna2 (he ▸ h2)⟩
      · rintro ⟨hz2, hzne⟩
        have hzfl : z ∈ s.fl := hsub2 z hz2
        rw [hfl] at hzfl
        rcases List.mem_append.mp hzfl with h1 | h2
        · exact List.mem_append_left _ h1
        · rcases List.mem_cons.mp h2 with rfl | h3
          · exact absurd rfl hzne
          · exact List.mem_append_right _ h3

/-! #### Shape preservation: payload stores never move tags -/

theorem shape_writePayloadAt (bs : List Block) (q : Nat) (cs : List Cell) :
    shape (writePayloadAt bs q cs) = shape bs := by
  induction bs generalizing q with
  | nil => rfl
  | cons b bs ih =>
    rw [writePayloadAt]
    by_cases h1 : q < b.size
    · rw [if_pos h1]
      by_cases h2 : 4 ≤ q ∧ q + cs.length ≤ 4 + b.data.length
      · rw [if_pos h2]
        simp [shape, writeCells_length]
      · rw [if_neg h2]
    · rw [if_neg h1]
      simp only [shape, List.map_cons, List.cons.injEq]
      exact ⟨trivial, ih (q - b.size)⟩

theorem shape_writePtrAt (bs : List Block) (q : Nat) (v : Option Nat) :
    shape (writePtrAt bs q v) = shape bs :=
  shape_writePayloadAt bs q (ptrCells v)

theorem shape_copyLoop (np op : Nat) (nS sz : Int) (bs : List Block) :
    shape (copyLoop np op nS sz bs) = shape bs := by
  rw [copyLoop]
  generalize (List.range ((min nS sz) - 8).toNat) = l
  induction l generalizing bs with
  | nil => rfl
  | cons k l ih =>
    rw [List.foldl_cons]
    rw [ih]
    exact shape_writePayloadAt bs (np + 8 + k) _

theorem skel_of_shape (bs bs' : List Block) (h : shape bs = shape bs') :
    skel bs = skel bs' := by
  induction bs generalizing bs' with
  | nil => match bs' with | [] => rfl
  | cons b bs ih =>
    match bs' with
    | b' :: bs' =>
      simp only [shape, List.map_cons, List.cons.injEq, Prod.mk.injEq] at h
      simp only [skel, List.map_cons, List.cons.injEq, Prod.mk.injEq]
      exact ⟨⟨h.1.1, h.1.2.1⟩, ih bs' h.2⟩

theorem good_of_shape (bs bs' : List Block) (h : shape bs = shape bs')
    (hg : ∀ b ∈ bs', goodBlock b = true) : ∀ b ∈ bs, goodBlock b = true := by
  induction bs generalizing bs' with
  | nil => intro b hb; exact absurd hb (List.not_mem_nil b)
  | cons b bs ih =>
    match bs' with
    | b' :: bs' =>
      simp only [shape, List.map_cons, List.cons.injEq, Prod.mk.injEq] at h
      intro c hc
      rcases List.mem_cons.mp hc with rfl | hc2
      · have hg' := (goodBlock_iff b').mp (hg b' (List.mem_cons_self _ _))
        exact (goodBlock_iff c).mpr
          ⟨by rw [h.1.2.2, h.1.1, hg'.1], by rw [h.1.2.1, h.1.1, hg'.2.1], by rw [h.1.1]; exact hg'.2.2⟩
      · exact ih bs' h.2 (fun d hd => hg d (List.mem_cons_of_mem _ hd)) c hc2

/-- Transport the whole heap invariant along a shape-equal memory. -/
theorem wf_of_shape (s0 : AState) (m' : List Block) (hsh : shape m' = shape s0.mem)
    (hw : wf s0 = true) : wf { s0 with mem := m' } = true := by
  rcases (wf_iff s0).mp hw with ⟨hml, hne, hgood, hnd, hsub1, hsub2, hnadj⟩
  have hsk : skel m' = skel s0.mem := skel_of_shape _ _ hsh
  refine (wf_iff _).mpr ⟨?_, ?_, ?_, hnd, ?_, ?_, ?_⟩
  · show memLen m' = s0.msize
    rw [memLen_eq_of_skel _ _ hsk, hml]
  · show m' ≠ []
    exact ne_nil_of_skel _ _ hsk hne
  · exact good_of_shape _ _ hsh hgood
  · show ∀ z ∈ s0.fl, z ∈ freeAddrs m'
    intro z hz
    rw [freeAddrs_eq_of_skel _ _ hsk]
    exact hsub1 z hz
  · intro z hz
    rw [freeAddrs_eq_of_skel _ _ hsk] at hz
    exact hsub2 z hz
  · show noAdjFree m' = true
    rw [noAdjFree_eq_of_skel _ _ hsk]
    exact hnadj

/-! #### `myalloc` on the two `findHead` outcomes -/

theorem myalloc_none_eq (s : AState) (size : Int) (hf : findHead s size = none) :
    myalloc s size = (s, none) := by
  rw [myalloc, hf]

theorem myalloc_some_snd (s : AState) (size : Int) (q : Nat)
    (hf : findHead s size = some q) : (myalloc s size).2 = some (q + 4) := by
  rw [myalloc, hf]

/-- The four restore stores of `myrealloc`'s rollback — header back to the
allocated tag, the two snapshotted link words, footer back — as one keyed
block update. -/
theorem restore_block (m : List Block) (a : Nat) (c : Block) (S : Int)
    (tA tB : List Cell)
    (hgb : getBlk m a = some c) (h8 : 8 ≤ c.data.length)
    (hA : tA.length = 4) (hB : tB.length = 4) :
    writeIntAt (writePayloadAt (writePayloadAt (writeIntAt m a S) (a + 4) tA)
        (a + 4 + 4) tB) (a + 4 + c.data.length) S
      = updBlk (fun x =>
          { hdr := S, data := writeCells (writeCells x.data 0 tA) 4 tB,
            ftr := S }) m a := by
  rcases decomp_of_getBlk m a c hgb with ⟨L, R, rfl, rfl⟩
  rw [writeIntAt_hdr L c R S]
  have h1 : writePayloadAt (L ++ ({ c with hdr := S } : Block) :: R) (memLen L + 4) tA
      = L ++ ({ c with hdr := S, data := writeCells c.data 0 tA } : Block) :: R := by
    rw [writePayloadAt_blk L _ R 4 tA (le_refl 4) (by rw [hA]; show 4 + 4 ≤ 4 + c.data.length; omega)]
  rw [h1]
  have e8 : memLen L + 4 + 4 = memLen L + 8 := by omega
  rw [e8]
  have h2 : writePayloadAt (L ++ ({ c with hdr := S, data := writeCells c.data 0 tA } : Block) :: R) (memLen L + 8) tB
      = L ++ ({ c with hdr := S, data := writeCells (writeCells c.data 0 tA) 4 tB } : Block) :: R := by
    rw [writePayloadAt_blk L _ R 8 tB (by omega)
      (by rw [hB]; show 8 + 4 ≤ 4 + (writeCells c.data 0 tA).length; rw [writeCells_length]; omega)]
  rw [h2]
  have elen : memLen L + 4 + c.data.length
      = memLen L + (4 + ({ c with hdr := S, data := writeCells (writeCells c.data 0 tA) 4 tB } : Block).data.length) := by
    show _ = memLen L + (4 + (writeCells (writeCells c.data 0 tA) 4 tB).length)
    rw [writeCells_length, writeCells_length]
    omega
  rw [elen, writeIntAt_ftr L _ R S, updBlk_decomp]

theorem skel_append_cons (L : List Block) (c : Block) (R : List Block)
    (L' : List Block) (c' : Block) (R' : List Block)
    (h1 : skel L = skel L') (h2 : c.hdr = c'.hdr) (h3 : c.data.length = c'.data.length)
    (h4 : skel R = skel R') :
    skel (L ++ c :: R) = skel (L' ++ c' :: R') := by
  simp only [skel, List.map_append, List.map_cons]
  simp only [skel] at h1 h4
  rw [h1, h4, h2, h3]

theorem mem_cons_append_iff (E z : Nat) (f1 f2 : List Nat) :
    z ∈ E :: (f1 ++ f2) ↔ z ∈ f1 ++ E :: f2 := by
  simp only [List.mem_cons, List.mem_append]
  tauto

theorem nodup_cons_append (E : Nat) (f1 f2 : List Nat) (h : (f1 ++ E :: f2).Nodup) :
    (E :: (f1 ++ f2)).Nodup := by
  obtain ⟨h1, h2, hdisj, hnd⟩ := nodup_mid f1 f2 E h
  refine List.nodup_cons.mpr ⟨?_, hnd⟩
  intro hm
  rcases List.mem_append.mp hm with hm1 | hm2
  · exact h1 hm1
  · exact h2 hm2
